import Mathlib

/-!
Verification of the layer-and-variable pipeline of rpi-image-gen.

The Lean definitions below are a shallow embedding of the Python sources
under src/site (env_types.py, env_resolver.py, layer_manager.py,
pipeline.py).  Python dictionaries are modelled as association lists that
keep insertion order (as Python dicts do), the process environment is an
association list of strings, and numeric positions are rationals (layer
positions are integers, trigger-injected definitions add 0.01).
-/

namespace RpiImageGen

/-- The process environment (`os.environ`), as an ordered association list. -/
abbrev Env := List (String × String)

/-- Association-list lookup by string equality (Python dict access). -/
def alookup {α : Type} (k : String) : List (String × α) → Option α
  | [] => none
  | (k', v) :: rest => if k' = k then some v else alookup k rest

/-- `name in os.environ`. -/
def envHas (e : Env) (k : String) : Bool := (alookup k e).isSome

/-- `os.environ.get(k)`. -/
def envGet (e : Env) (k : String) : Option String := alookup k e

/-- Python dict assignment `d[k] = v`: replace the value at the first
occurrence of `k`, keeping its position, else append at the end. -/
def dictSet {α : Type} (l : List (String × α)) (k : String) (v : α) :
    List (String × α) :=
  match l with
  | [] => [(k, v)]
  | (k', v') :: rest =>
      if k' = k then (k', v) :: rest else (k', v') :: dictSet rest k v

/-- Set policies of variable definitions (env_types.py).  `alreadySet` is
only ever synthesized by the resolver for env-provided values. -/
inductive Policy
  | force
  | immediate
  | lazy
  | skip
  | alreadySet
  deriving Repr, DecidableEq

/-- env_types.TriggerRule: a conditional rule to perform an action. -/
structure TriggerRule where
  condition : Option String
  action : String
  target : String
  value : String
  policy : Policy
  deriving Repr, DecidableEq

/-- env_types.EnvVariable.  The parsed validator object is identified by an
optional tag (claims only compare validators for equality, never run them);
`validationRule` is the original rule string. -/
structure EnvVariable where
  name : String
  value : String
  description : String
  required : Bool
  validator : Option String
  validationRule : String
  setPolicy : Policy
  sourceLayer : String
  position : Rat
  anchorName : Option String
  triggers : List TriggerRule
  conflicts : List String
  deriving Repr, DecidableEq

namespace VariableResolver

/-- `_get_first_by_position`: Python `min(definitions, key=position)`,
which keeps the earliest-seen element on ties. -/
def getFirstByPosition : List EnvVariable → Option EnvVariable
  | [] => none
  | d :: rest =>
      some (rest.foldl (fun best x => if x.position < best.position then x else best) d)

/-- `_get_last_by_position`: Python `max(definitions, key=position)`,
which keeps the earliest-seen element on ties. -/
def getLastByPosition : List EnvVariable → Option EnvVariable
  | [] => none
  | d :: rest =>
      some (rest.foldl (fun best x => if best.position < x.position then x else best) d)

/-- `_resolve_single_variable`: policy-table selection for one name. -/
def resolveSingleVariable (env : Env) (varName : String)
    (definitions : List EnvVariable) : Option EnvVariable :=
  let forceDefs := definitions.filter (fun d => d.setPolicy = Policy.force)
  let immediateDefs := definitions.filter (fun d => d.setPolicy = Policy.immediate)
  let lazyDefs := definitions.filter (fun d => d.setPolicy = Policy.lazy)
  let skipDefs := definitions.filter (fun d => d.setPolicy = Policy.skip)
  if forceDefs ≠ [] then
    getLastByPosition forceDefs
  else if immediateDefs ≠ [] ∧ ¬ envHas env varName then
    getFirstByPosition immediateDefs
  else if lazyDefs ≠ [] ∧ ¬ envHas env varName then
    getLastByPosition lazyDefs
  else if skipDefs ≠ [] then
    getLastByPosition skipDefs
  else
    none

/-- Order-preserving de-duplicating append used by the trigger merges:
the Python code keys triggers by all five fields, so the key is the rule. -/
def addDedup {α : Type} [DecidableEq α] (acc : List α) (x : α) : List α :=
  if x ∈ acc then acc else acc ++ [x]

/-- Merge triggers from all definitions, deduplicated, in encounter order
(the `seen`-set loops of `_resolve_pass`). -/
def mergeTriggers (definitions : List EnvVariable) : List TriggerRule :=
  definitions.foldl (fun acc d => d.triggers.foldl addDedup acc) []

/-- Merge conflicts from all definitions, deduplicated, in encounter order. -/
def mergeConflicts (definitions : List EnvVariable) : List String :=
  definitions.foldl (fun acc d => d.conflicts.foldl addDedup acc) []

/-- Python `max(d.position for d in definitions)` over a nonempty list. -/
def maxPosition (d : EnvVariable) (rest : List EnvVariable) : Rat :=
  rest.foldl (fun m x => if m < x.position then x.position else m) d.position

/-- The per-name body of `_resolve_pass`: select a definition, and either
merge triggers onto it, or (when nothing selected but the name is in the
environment) synthesize an `already_set` definition from the environment's
value.  `_resolve_pass` only reaches this with a nonempty definition list. -/
def resolvePassEntry (env : Env) (varName : String)
    (definitions : List EnvVariable) : Option EnvVariable :=
  match VariableResolver.resolveSingleVariable env varName definitions with
  | some resolvedVar =>
      let merged := mergeTriggers definitions
      if merged ≠ [] then some { resolvedVar with triggers := merged }
      else some resolvedVar
  | none =>
      match envGet env varName, definitions with
      | some envValue, firstDef :: rest =>
          some {
            name := varName
            value := envValue
            description := firstDef.description
            required := firstDef.required
            validator := firstDef.validator
            validationRule := firstDef.validationRule
            setPolicy := Policy.alreadySet
            sourceLayer := firstDef.sourceLayer
            position := maxPosition firstDef rest
            anchorName := firstDef.anchorName
            triggers := mergeTriggers definitions
            conflicts := mergeConflicts definitions }
      | _, _ => none

/-- Stable insertion of `x` after every element whose key is ≤ its key. -/
def insertStable {α : Type} (key : α → Rat) (x : α) : List α → List α
  | [] => [x]
  | y :: rest => if key y ≤ key x then y :: insertStable key x rest else x :: y :: rest

/-- Stable sort by a rational key.  Python's `list.sort` is stable, and any
stable sort produces the same list, so this is exactly its semantics. -/
def sortStable {α : Type} (key : α → Rat) (l : List α) : List α :=
  l.foldl (fun acc x => insertStable key x acc) []

/-- `_resolve_pass`: sort names by their earliest definition position
(stable, mirroring Python's `list.sort`), then resolve each name. -/
def resolvePass (env : Env)
    (variableDefinitions : List (String × List EnvVariable)) :
    List (String × EnvVariable) :=
  let allVars := variableDefinitions.filterMap (fun p =>
    match p.2 with
    | [] => none
    | d :: rest =>
        some (p.1, d :: rest,
          rest.foldl (fun m x => if x.position < m then x.position else m) d.position))
  let sortedVars := sortStable (fun p => p.2.2) allVars
  sortedVars.filterMap (fun p =>
    (resolvePassEntry env p.1 p.2.1).map (fun v => (p.1, v)))

/-- The definition `_collect_trigger_definitions` synthesizes for a fired
trigger `rule` of resolved variable `envVar`. -/
def mkInjected (resolved : List (String × EnvVariable)) (envVar : EnvVariable)
    (rule : TriggerRule) : EnvVariable :=
  let targetTemplate := alookup rule.target resolved
  let targetDescription := (targetTemplate.map (fun t => t.description)).getD ""
  {
    name := rule.target
    value := rule.value
    description := if targetDescription ≠ "" then targetDescription
                   else "Triggered by " ++ envVar.name
    required := (targetTemplate.map (fun t => t.required)).getD false
    validator := (targetTemplate.map (fun t => t.validator)).getD none
    validationRule := (targetTemplate.map (fun t => t.validationRule)).getD ""
    setPolicy := rule.policy
    sourceLayer := if envVar.sourceLayer ≠ "" then envVar.sourceLayer else "trigger"
    position := envVar.position + 1 / 100
    anchorName := (targetTemplate.map (fun t => t.anchorName)).getD none
    triggers := []
    conflicts := [] }

/-- Append a trigger-injected definition under its target name
(`trigger_defs.setdefault(rule.target, []).append(injected)`). -/
def appendDef (acc : List (String × List EnvVariable)) (target : String)
    (d : EnvVariable) : List (String × List EnvVariable) :=
  match acc with
  | [] => [(target, [d])]
  | (k, ds) :: rest =>
      if k = target then (k, ds ++ [d]) :: rest
      else (k, ds) :: appendDef rest target d

/-- Process the trigger rules of one resolved variable
(inner loop of `_collect_trigger_definitions`). -/
def collectRules (env : Env) (resolved : List (String × EnvVariable))
    (envVar : EnvVariable) (acc : List (String × List EnvVariable)) :
    List TriggerRule → Except String (List (String × List EnvVariable))
  | [] => Except.ok acc
  | rule :: rest =>
      let effectiveValue := (envGet env envVar.name).getD envVar.value
      if rule.condition ≠ none ∧ rule.condition ≠ some effectiveValue then
        collectRules env resolved envVar acc rest
      else if rule.action ≠ "set" then
        Except.error ("Unsupported trigger action '" ++ rule.action ++
          "' for variable '" ++ envVar.name ++ "'")
      else
        collectRules env resolved envVar
          (appendDef acc rule.target (mkInjected resolved envVar rule)) rest

/-- Outer loop of `_collect_trigger_definitions` over the resolved
variables; `resolved` stays the full map (used for target templates). -/
def collectGo (env : Env) (resolved : List (String × EnvVariable))
    (acc : List (String × List EnvVariable)) :
    List (String × EnvVariable) → Except String (List (String × List EnvVariable))
  | [] => Except.ok acc
  | (_, v) :: rest =>
      match collectRules env resolved v acc v.triggers with
      | Except.error e => Except.error e
      | Except.ok acc' => collectGo env resolved acc' rest

/-- `_collect_trigger_definitions`: build trigger-sourced definitions from
the resolved set (a thrown `ValueError` is an `Except.error`). -/
def collectTriggerDefinitions (env : Env)
    (resolved : List (String × EnvVariable)) :
    Except String (List (String × List EnvVariable)) :=
  collectGo env resolved [] resolved

/-- `merged_defs`: extend the per-name definition lists with the
trigger-sourced definitions. -/
def mergeDefs (variableDefinitions : List (String × List EnvVariable))
    (triggerDefs : List (String × List EnvVariable)) :
    List (String × List EnvVariable) :=
  triggerDefs.foldl (fun acc p =>
    match p with
    | (name, ds) => ds.foldl (fun a d => appendDef a name d) acc)
    variableDefinitions

/-- `VariableResolver.resolve`: one resolution pass, then exactly one
trigger-collection pass, then (only if triggers fired) one re-resolution. -/
def resolverResolve (env : Env)
    (variableDefinitions : List (String × List EnvVariable)) :
    Except String (List (String × EnvVariable)) :=
  match collectTriggerDefinitions env (resolvePass env variableDefinitions) with
  | Except.error e => Except.error e
  | Except.ok triggerDefs =>
      if triggerDefs = [] then Except.ok (resolvePass env variableDefinitions)
      else Except.ok (resolvePass env (mergeDefs variableDefinitions triggerDefs))

end VariableResolver

open VariableResolver

/-- Scenario S1, layer `a`: `IGconf_x_port=1`, `Set=immediate`, position 0. -/
def s1DefA : EnvVariable :=
  ⟨"IGconf_x_port", "1", "", false, none, "", Policy.immediate, "a", 0, none, [], []⟩

/-- Scenario S1, layer `b`: `IGconf_x_port=2`, `Set=force`, position 1. -/
def s1DefB : EnvVariable :=
  ⟨"IGconf_x_port", "2", "", false, none, "", Policy.force, "b", 1, none, [], []⟩

/-- An `immediate` definition of `V` at position 0 (for C2). -/
def c2ImmDef : EnvVariable :=
  ⟨"V", "imm", "", false, none, "", Policy.immediate, "l1", 0, none, [], []⟩

/-- A `skip` definition of `V` at position 1 (for C2). -/
def c2SkipDef : EnvVariable :=
  ⟨"V", "skipped", "", false, none, "", Policy.skip, "l2", 1, none, [], []⟩

/-- An environment that already carries `V` (for C2). -/
def c2EnvList : Env := [("V", "fromenv")]

/-- The unconditional trigger rule `set TGT=9000` (for C4). -/
def c4Rule : TriggerRule := ⟨none, "set", "TGT", "9000", Policy.immediate⟩

/-- Source variable carrying the C4 trigger. -/
def c4SrcVar : EnvVariable :=
  ⟨"SRC", "on", "", false, none, "", Policy.immediate, "la", 0, none, [c4Rule], []⟩

/-- Already-resolved trigger target with an empty description (for C4). -/
def c4TgtVar : EnvVariable :=
  ⟨"TGT", "1", "", false, none, "", Policy.immediate, "lb", 1, none, [], []⟩

/-- The resolved set at the C4 counterexample. -/
def c4Resolved : List (String × EnvVariable) := [("SRC", c4SrcVar), ("TGT", c4TgtVar)]

/-- The definition the trigger synthesizes at the C4 counterexample. -/
def c4Injected : EnvVariable := mkInjected c4Resolved c4SrcVar c4Rule

namespace LayerManager

/-- The layer-management dictionary produced by `EnvLayer.to_dict` (the
fields the graph algorithms read).  `optionalDepends` mirrors the
`optional_depends` key, which the source currently always sets to `[]`. -/
structure LayerInfo where
  depends : List String
  optionalDepends : List String
  provides : List String
  providerRequires : List String
  deriving Repr, DecidableEq

/-- `self.layers`, keyed by layer name, in load order. -/
abbrev Layers := List (String × LayerInfo)

/-- `get_layer_info`. -/
def getLayerInfo (layers : Layers) (name : String) : Option LayerInfo :=
  alookup name layers

/-- `get_dependencies`: hard deps, `[]` for unknown layers. -/
def getDependencies (layers : Layers) (name : String) : List String :=
  match getLayerInfo layers name with
  | none => []
  | some info => info.depends

/-- `get_optional_dependencies`. -/
def getOptionalDependencies (layers : Layers) (name : String) : List String :=
  match getLayerInfo layers name with
  | none => []
  | some info => info.optionalDepends

mutual

/-- `check_missing_dependencies` inside `get_build_order`, with explicit
fuel standing in for Python's recursion limit (the `checked` set makes the
source terminate; fuel exhaustion models `RecursionError`). -/
def checkMissingDeps (layers : Layers) (loadErrors : List (String × String)) :
    Nat → String → List String → Except String (List String)
  | 0, _, _ => Except.error "maximum recursion depth exceeded"
  | Nat.succ fuel, name, checked =>
      if name ∈ checked then Except.ok checked
      else
        let checked' := checked ++ [name]
        match alookup name layers with
        | none =>
            match alookup name loadErrors with
            | some msg =>
                Except.error ("Layer '" ++ name ++ "' unavailable: " ++ msg)
            | none => Except.error ("Missing required dependency: " ++ name)
        | some _ =>
            checkMissingDepsList layers loadErrors fuel
              (getDependencies layers name) checked'

/-- Loop of `check_missing_dependencies` over a dependency list. -/
def checkMissingDepsList (layers : Layers) (loadErrors : List (String × String)) :
    Nat → List String → List String → Except String (List String)
  | 0, _, _ => Except.error "maximum recursion depth exceeded"
  | Nat.succ _, [], checked => Except.ok checked
  | Nat.succ fuel, dep :: rest, checked =>
      match checkMissingDeps layers loadErrors fuel dep checked with
      | Except.error e => Except.error e
      | Except.ok checked' =>
          checkMissingDepsList layers loadErrors fuel rest checked'

end

mutual

/-- `add_layer_and_deps` inside `get_build_order`: post-order insertion of a
layer after its required then optional dependencies.  The source has no
cycle guard here (`processed` is only extended after the recursion), so fuel
exhaustion (`none`) models the `RecursionError` a dependency cycle causes. -/
def addLayerAndDeps (layers : Layers) :
    Nat → String → List String → Option (List String)
  | 0, _, _ => none
  | Nat.succ fuel, name, order =>
      if name ∈ order then some order
      else
        match addDepsList layers fuel (getDependencies layers name) order with
        | none => none
        | some order' =>
            match addOptList layers fuel (getOptionalDependencies layers name)
                order' with
            | none => none
            | some order'' =>
                if name ∈ order'' then some order'' else some (order'' ++ [name])

/-- Loop of `add_layer_and_deps` over required dependencies. -/
def addDepsList (layers : Layers) :
    Nat → List String → List String → Option (List String)
  | 0, _, _ => none
  | Nat.succ _, [], order => some order
  | Nat.succ fuel, dep :: rest, order =>
      match addLayerAndDeps layers fuel dep order with
      | none => none
      | some o => addDepsList layers fuel rest o

/-- Loop of `add_layer_and_deps` over optional dependencies (only those
that are loaded are added). -/
def addOptList (layers : Layers) :
    Nat → List String → List String → Option (List String)
  | 0, _, _ => none
  | Nat.succ _, [], order => some order
  | Nat.succ fuel, opt :: rest, order =>
      if (alookup opt layers).isSome then
        match addLayerAndDeps layers fuel opt order with
        | none => none
        | some o => addOptList layers fuel rest o
      else addOptList layers fuel rest order

end

/-- Inner loop of `_check_provider_conflicts_in_scope`: extend the
scope-provider map with one layer's provides, rejecting duplicates. -/
def addProvides (layerName : String) :
    List String → List (String × String) → Except String (List (String × String))
  | [], m => Except.ok m
  | p :: ps, m =>
      match alookup p m with
      | some existing =>
          Except.error ("Provider conflict: '" ++ p ++
            "' is provided by multiple layers: " ++ existing ++ ", " ++ layerName)
      | none => addProvides layerName ps (m ++ [(p, layerName)])

/-- `_check_provider_conflicts_in_scope`. -/
def checkProviderConflictsInScope (layers : Layers) :
    List String → List (String × String) → Except String (List (String × String))
  | [], m => Except.ok m
  | name :: rest, m =>
      match getLayerInfo layers name with
      | none => checkProviderConflictsInScope layers rest m
      | some info =>
          match addProvides name info.provides m with
          | Except.error e => Except.error e
          | Except.ok m' => checkProviderConflictsInScope layers rest m'

/-- The `available_providers` collection of `_validate_provider_requirements`. -/
def collectProvides (layers : Layers) (order : List String) : List String :=
  order.foldl (fun acc n =>
    match getLayerInfo layers n with
    | none => acc
    | some info => acc ++ info.provides) []

/-- One layer's `provider_requires` check. -/
def checkLayerRPs (layerName : String) (available : List String) :
    List String → Except String Unit
  | [] => Except.ok ()
  | rp :: rest =>
      if rp ∈ available then checkLayerRPs layerName available rest
      else
        Except.error ("Layer '" ++ layerName ++ "' requires provider '" ++ rp ++
          "' but no layer in the dependency chain provides it")

/-- The per-layer loop of `_validate_provider_requirements`. -/
def checkRequiredProviders (layers : Layers) (available : List String) :
    List String → Except String Unit
  | [] => Except.ok ()
  | name :: rest =>
      match getLayerInfo layers name with
      | none => checkRequiredProviders layers available rest
      | some info =>
          match checkLayerRPs name available info.providerRequires with
          | Except.error e => Except.error e
          | Except.ok _ => checkRequiredProviders layers available rest

/-- `_validate_provider_requirements`: scope conflicts, then satisfaction. -/
def validateProviderRequirements (layers : Layers) (order : List String) :
    Except String Unit :=
  match checkProviderConflictsInScope layers order [] with
  | Except.error e => Except.error e
  | Except.ok _ =>
      checkRequiredProviders layers (collectProvides layers order) order

/-- Targets loop of the missing-dependency validation (each target starts
with a fresh `checked` set, as in the source). -/
def checkAllMissing (layers : Layers) (loadErrors : List (String × String))
    (fuel : Nat) : List String → Except String Unit
  | [] => Except.ok ()
  | t :: rest =>
      match checkMissingDeps layers loadErrors fuel t [] with
      | Except.error e => Except.error e
      | Except.ok _ => checkAllMissing layers loadErrors fuel rest

/-- Targets loop of the order construction (shared `processed` state). -/
def addAllTargets (layers : Layers) (fuel : Nat) :
    List String → List String → Option (List String)
  | [], order => some order
  | t :: rest, order =>
      match addLayerAndDeps layers fuel t order with
      | none => none
      | some o => addAllTargets layers fuel rest o

/-- `get_build_order`: validate missing dependencies, build the post-order,
then validate provider requirements.  The fuel is generous enough for any
acyclic graph; running out models Python's `RecursionError` on cycles. -/
def getBuildOrder (layers : Layers) (loadErrors : List (String × String))
    (targets : List String) : Except String (List String) :=
  match checkAllMissing layers loadErrors
      ((layers.length + targets.length + 1) * 2 + 2) targets with
  | Except.error e => Except.error e
  | Except.ok _ =>
      match addAllTargets layers ((layers.length + targets.length + 1) * 2 + 2)
          targets [] with
      | none => Except.error "maximum recursion depth exceeded"
      | some order =>
          match validateProviderRequirements layers order with
          | Except.error e => Except.error e
          | Except.ok _ => Except.ok order

end LayerManager

open LayerManager

/-- Scenario S3: layer `app` requires provider `db`, nothing provides it. -/
def s3Layers : Layers := [("app", ⟨[], [], [], ["db"]⟩)]

/-- Two layers that both provide `cap` (provider-conflict scenario). -/
def dupLayers : Layers :=
  [("p1", ⟨[], [], ["cap"], []⟩), ("p2", ⟨[], [], ["cap"], []⟩)]

/-- A satisfiable provider scenario: `app2` depends on `dbl`, which
provides `db`. -/
def okLayers : Layers :=
  [("dbl", ⟨[], [], ["db"], []⟩), ("app2", ⟨["dbl"], [], [], ["db"]⟩)]

/-- A validation result dictionary (metadata_parser's `_result_builder`),
projected to the fields `LayerManager.validate_layer` reads: `status` and
`valid` (`none` models Python `None`). -/
structure VResult where
  status : String
  valid : Option Bool
  deriving Repr, DecidableEq

/-- A layer whose X-Env metadata consists of a `X-Env-VarRequires` list
with no `-Valid` rules, no variable definitions and no unsupported fields.
On such a layer `Metadata.validate_env_vars` returns exactly the results of
`_validate_required_variables` (the schema, prefix, defined-variable,
optional-variable, conflict and layer-field passes all return nothing). -/
structure ReqLayer where
  name : String
  requiredVars : List String
  deriving Repr, DecidableEq

/-- `_validate_required_variables` on a `ReqLayer`: a required variable
that is absent from the environment yields status `missing_required_var`
(valid False); one that is present, with no validation rule, yields
`required_no_validation` (valid None). -/
def validateRequiredVariables (layer : ReqLayer) (env : Env) : List VResult :=
  layer.requiredVars.map (fun reqVar =>
    match envGet env reqVar with
    | none => ⟨"missing_required_var", some false⟩
    | some _ => ⟨"required_no_validation", none⟩)

/-- One iteration of `LayerManager.validate_layer`'s result loop:
`missing_required` and `missing_required_var` fail unless
`ignore_missing_required` is set; `invalid_value` always fails; a
`validated` or `required_validated` result with a falsy `valid` fails;
every other status only logs. -/
def validateResultStep (ignoreMissingRequired : Bool) (layerValid : Bool)
    (result : VResult) : Bool :=
  if result.status = "missing_required" then
    (if ignoreMissingRequired then layerValid else false)
  else if result.status = "missing_required_var" then
    (if ignoreMissingRequired then layerValid else false)
  else if result.status = "invalid_value" then false
  else if result.status = "validated" ∧ ¬ result.valid = some true then false
  else if result.status = "required_validated" ∧ ¬ result.valid = some true then
    false
  else layerValid

/-- The fold of `validateResultStep` starting from `layer_valid = True`. -/
def validateResults (ignoreMissingRequired : Bool) (results : List VResult) :
    Bool :=
  results.foldl (validateResultStep ignoreMissingRequired) true

/-- `LayerManager.validate_layer` for `ReqLayer`s: unknown layers fail;
otherwise the result loop decides (a `ReqLayer` has no unsupported layer
fields, so that final check passes). -/
def validateLayer (layers : List (String × ReqLayer)) (env : Env)
    (layerName : String) (ignoreMissingRequired : Bool) : Bool :=
  match alookup layerName layers with
  | none => false
  | some layer =>
      validateResults ignoreMissingRequired (validateRequiredVariables layer env)

/-- `pipeline._validate_layers`: validate each layer of the build order
before applying layers.  The source calls
`manager.validate_layer(layer_name, silent=False)`, leaving
`ignore_missing_required` at its default `False`. -/
def pipelineValidateLayers (layers : List (String × ReqLayer)) (env : Env) :
    List String → Bool
  | [] => true
  | name :: rest =>
      if (alookup name layers).isNone then false
      else if validateLayer layers env name false = false then false
      else pipelineValidateLayers layers env rest

namespace EnvResolver

/-- The whitespace characters Python's `str.strip()` removes (ASCII). -/
def isPySpace (c : Char) : Bool :=
  c = ' ' ∨ c = '\t' ∨ c = '\n' ∨ c = '\x0b' ∨ c = '\x0c' ∨ c = '\r'

/-- `str.strip()` on a character list. -/
def pyStripL (cs : List Char) : List Char :=
  ((cs.dropWhile isPySpace).reverse.dropWhile isPySpace).reverse

/-- `str.strip()`. -/
def pyStrip (s : String) : String := String.mk (pyStripL s.data)

/-- The `_VALID_VAR` regex `^[A-Za-z_][A-Za-z0-9_]*$`. -/
def isValidVar (s : String) : Bool :=
  match s.data with
  | [] => false
  | c :: rest =>
      (c.isAlpha || c = '_') && rest.all (fun c => c.isAlphanum || c = '_')

/-- A piece of a raw value as the `_VAR_PATTERN` regex splits it: literal
text, or the raw (unstripped) token of a `$\x7b...\x7d` reference. -/
inductive Chunk
  | lit (s : String)
  | ref (token : String)
  deriving Repr, DecidableEq

/-- Left-to-right, non-overlapping scan of `_VAR_PATTERN` =
`\$\\\x7b([^\x7d]+)\\\x7d`: at `$\x7b`, a match needs at least one
non-`\x7d` character before a closing `\x7d`; otherwise the `$` stays
literal and scanning resumes at the following brace. -/
def scanChunks : List Char → List Chunk
  | [] => []
  | '$' :: '{' :: rest =>
      let tokLen := (rest.takeWhile (fun c => c ≠ '}')).length
      if tokLen = 0 ∨ tokLen = rest.length then
        Chunk.lit "$" :: scanChunks ('{' :: rest)
      else
        Chunk.ref (String.mk (rest.takeWhile (fun c => c ≠ '}'))) ::
          scanChunks (rest.drop (tokLen + 1))
  | c :: rest => Chunk.lit (String.mk [c]) :: scanChunks rest
  termination_by cs => cs.length
  decreasing_by
  · simp
  · simp [List.length_drop]
    omega
  · simp

/-- Resolution failures of env_resolver.py: `AssignmentError`,
`CircularReferenceError`, `UndefinedVariableError`; `fuelExhausted` models
hitting Python's recursion limit. -/
inductive ResolveErr
  | assignment (msg : String)
  | circular (msg : String)
  | undefined (msg : String)
  | fuelExhausted
  deriving Repr, DecidableEq

/-- One anchor's record: bound variable, captured value, referrers (a
Python set, modelled as an insertion-ordered deduplicated list). -/
structure AnchorEntry where
  var : Option String
  value : Option String
  referencedBy : List String
  deriving Repr, DecidableEq

/-- `AnchorRegistry._anchors`. -/
abbrev Registry := List (String × AnchorEntry)

/-- `str.upper` on a string (`Char.toUpper`, exact on ASCII). -/
def pyUpper (s : String) : String := String.mk (s.data.map Char.toUpper)

/-- `str.join` of Python (used for the cycle chain message). -/
def joinSep (sep : String) : List String → String
  | [] => ""
  | [x] => x
  | x :: rest => x ++ sep ++ joinSep sep rest

/-- `AnchorRegistry.normalize`: reject empty, strip, prepend `@`,
uppercase (`pyUpper` models `str.upper`, exact on ASCII). -/
def normalize (name : String) : Except String String :=
  if name = "" then Except.error "Anchor name cannot be empty"
  else
    let stripped := pyStrip name
    let withAt :=
      if stripped.data.head? = some '@' then stripped else "@" ++ stripped
    Except.ok (pyUpper withAt)

/-- `self._anchors.setdefault(norm, {...})`. -/
def registrySetdefault (reg : Registry) (norm : String) : Registry :=
  match alookup norm reg with
  | some _ => reg
  | none => reg ++ [(norm, ⟨none, none, []⟩)]

/-- In-place update of the entry at `norm` (it is present after a
setdefault). -/
def registryUpdate (reg : Registry) (norm : String)
    (f : AnchorEntry → AnchorEntry) : Registry :=
  reg.map (fun p => if p.1 = norm then (p.1, f p.2) else p)

/-- `AnchorRegistry.mark_usage`. -/
def markUsage (reg : Registry) (anchorName owner : String) :
    Except String Registry :=
  match normalize anchorName with
  | Except.error e => Except.error e
  | Except.ok norm =>
      Except.ok (registryUpdate (registrySetdefault reg norm) norm
        (fun e => { e with referencedBy := addDedup e.referencedBy owner }))

/-- `AnchorRegistry.register`. -/
def registryRegister (reg : Registry) (anchorName : String)
    (varName : Option String) : Except String Registry :=
  match normalize anchorName with
  | Except.error e => Except.error e
  | Except.ok norm =>
      let reg' := registrySetdefault reg norm
      match varName with
      | none => Except.ok reg'
      | some vn =>
          if vn = "" then Except.ok reg'
          else
            let entry := (alookup norm reg').getD ⟨none, none, []⟩
            if (entry.var ≠ none ∧ entry.var ≠ some "") ∧ entry.var ≠ some vn then
              Except.error ("Anchor " ++ norm ++ " already bound to " ++
                ((entry.var).getD ""))
            else
              Except.ok (registryUpdate reg' norm (fun e => { e with var := some vn }))

/-- `AnchorRegistry.get_var`. -/
def registryGetVar (reg : Registry) (anchorName : String) :
    Except String (Option String) :=
  match normalize anchorName with
  | Except.error e => Except.error e
  | Except.ok norm => Except.ok ((alookup norm reg).bind (fun e => e.var))

/-- `AnchorRegistry.set_value`. -/
def registrySetValue (reg : Registry) (anchorName value : String) :
    Except String Registry :=
  match normalize anchorName with
  | Except.error e => Except.error e
  | Except.ok norm =>
      Except.ok (registryUpdate (registrySetdefault reg norm) norm
        (fun e => { e with value := some value }))

/-- `AnchorRegistry.resolve`. -/
def registryResolve (reg : Registry) (anchorName : String) :
    Except String String :=
  match normalize anchorName with
  | Except.error e => Except.error e
  | Except.ok norm =>
      match alookup norm reg with
      | none => Except.error ("Anchor " ++ norm ++ " has no assigned value")
      | some entry =>
          match entry.value with
          | none => Except.error ("Anchor " ++ norm ++ " has no assigned value")
          | some v => Except.ok v

/-- `AnchorRegistry.capture_values`. -/
def captureValues (reg : Registry) (envValues : List (String × String)) :
    Registry :=
  reg.map (fun p =>
    match p.2.var with
    | some target =>
        if target ≠ "" then
          match alookup target envValues with
          | some v => (p.1, { p.2 with value := some v })
          | none => p
        else p
    | none => p)

/-- One entry of a preloaded anchor manifest: a JSON object with `var` and
`value` keys, or a bare value. -/
inductive PreloadEntry
  | dict (var : Option String) (value : Option String)
  | plain (value : Option String)
  deriving Repr, DecidableEq

/-- Loop of `AnchorRegistry.__init__` over a preloaded manifest. -/
def registryInitGo : List (String × PreloadEntry) → Registry →
    Except String Registry
  | [], reg => Except.ok reg
  | (name, e) :: rest, reg =>
      match normalize name with
      | Except.error err => Except.error err
      | Except.ok norm =>
          match e with
          | PreloadEntry.dict var value =>
              registryInitGo rest (dictSet reg norm ⟨var, value, []⟩)
          | PreloadEntry.plain value =>
              registryInitGo rest (dictSet reg norm ⟨none, value, []⟩)

/-- `AnchorRegistry.__init__`. -/
def registryInit : Option (List (String × PreloadEntry)) →
    Except String Registry
  | none => Except.ok []
  | some initial => registryInitGo initial []

/-- The immutable configuration of a `LazyEnvResolver` (its constructor
arguments; `set` is never called in the modelled flows, so `assignments`
stays fixed). -/
structure ResolverConfig where
  assignments : List (String × String)
  externalContext : List (String × String)
  preserveAnchors : Bool
  deriving Repr, DecidableEq

/-- The mutable state of a `LazyEnvResolver`: the anchor registry, the memo
cache, the resolution stack, and a ghost trace of the names whose raw value
was expanded (in expansion order; it has no effect on any result). -/
structure ResolverState where
  registry : Registry
  cache : List (String × String)
  stack : List String
  expansions : List String
  deriving Repr, DecidableEq

mutual

/-- `LazyEnvResolver.resolve`: memo cache first, then the cycle check on
the stack, then the assignment map (push, expand, cache, pop — the pop
happens in a `finally`, so also on error), then the external context
(returned verbatim), else `UndefinedVariableError`.  Fuel stands in for
Python's recursion limit. -/
def resolveVar (cfg : ResolverConfig) (fuel : Nat) (s : ResolverState)
    (name : String) : ResolverState × Except ResolveErr String :=
  match alookup name s.cache with
  | some v => (s, Except.ok v)
  | none =>
      if name ∈ s.stack then
        (s, Except.error (ResolveErr.circular
          ("Circular reference detected: " ++
            joinSep " -> " (s.stack ++ [name]))))
      else
        match alookup name cfg.assignments with
        | some raw =>
            match fuel with
            | 0 => (s, Except.error ResolveErr.fuelExhausted)
            | Nat.succ fuel' =>
                let s1 := { s with stack := s.stack ++ [name],
                                   expansions := s.expansions ++ [name] }
                match expandChunks cfg fuel' s1 name (scanChunks raw.data) with
                | (s2, Except.ok v) =>
                    ({ s2 with stack := s2.stack.dropLast,
                               cache := dictSet s2.cache name v }, Except.ok v)
                | (s2, Except.error e) =>
                    ({ s2 with stack := s2.stack.dropLast }, Except.error e)
        | none =>
            match alookup name cfg.externalContext with
            | some v => (s, Except.ok v)
            | none =>
                (s, Except.error (ResolveErr.undefined
                  ("Undefined variable '" ++ name ++ "'")))
termination_by (fuel, 0, 0)

/-- `LazyEnvResolver._expand_text`, written over the chunks of the
`_VAR_PATTERN` scan: literals pass through; a reference token is stripped,
an empty token becomes empty output, an `@` token goes through the anchor
registry (usage marked; preserved verbatim, resolved, or delegated to the
bound variable), an invalid token raises, and a valid name is resolved
recursively. -/
def expandChunks (cfg : ResolverConfig) (fuel : Nat) (s : ResolverState)
    (currentVar : String) (chunks : List Chunk) :
    ResolverState × Except ResolveErr String :=
  match chunks with
  | [] => (s, Except.ok "")
  | Chunk.lit str :: rest =>
      match expandChunks cfg fuel s currentVar rest with
      | (s', Except.ok out) => (s', Except.ok (str ++ out))
      | (s', Except.error e) => (s', Except.error e)
  | Chunk.ref tokRaw :: rest =>
      let token := pyStrip tokRaw
      if token = "" then expandChunks cfg fuel s currentVar rest
      else if token.data.head? = some '@' then
        match markUsage s.registry token currentVar with
        | Except.error e => (s, Except.error (ResolveErr.assignment e))
        | Except.ok reg' =>
            let s1 := { s with registry := reg' }
            if cfg.preserveAnchors then
              match expandChunks cfg fuel s1 currentVar rest with
              | (s', Except.ok out) =>
                  (s', Except.ok ("$\x7b" ++ tokRaw ++ "\x7d" ++ out))
              | (s', Except.error e) => (s', Except.error e)
            else
              match registryResolve reg' token with
              | Except.ok v =>
                  match expandChunks cfg fuel s1 currentVar rest with
                  | (s', Except.ok out) => (s', Except.ok (v ++ out))
                  | (s', Except.error e) => (s', Except.error e)
              | Except.error regErr =>
                  match registryGetVar reg' token with
                  | Except.error e => (s1, Except.error (ResolveErr.assignment e))
                  | Except.ok (some bv) =>
                      if bv ≠ "" then
                        match fuel with
                        | 0 => (s1, Except.error ResolveErr.fuelExhausted)
                        | Nat.succ fuel' =>
                            match resolveVar cfg fuel' s1 bv with
                            | (s2, Except.ok v) =>
                                match expandChunks cfg (Nat.succ fuel') s2
                                    currentVar rest with
                                | (s', Except.ok out) => (s', Except.ok (v ++ out))
                                | (s', Except.error e) => (s', Except.error e)
                            | (s2, Except.error e) => (s2, Except.error e)
                      else (s1, Except.error (ResolveErr.assignment regErr))
                  | Except.ok none =>
                      (s1, Except.error (ResolveErr.assignment regErr))
      else if ¬ isValidVar token then
        (s, Except.error (ResolveErr.assignment
          ("Invalid reference '$\x7b" ++ token ++ "\x7d' in " ++ currentVar)))
      else
        match fuel with
        | 0 => (s, Except.error ResolveErr.fuelExhausted)
        | Nat.succ fuel' =>
            match resolveVar cfg fuel' s token with
            | (s', Except.ok v) =>
                match expandChunks cfg (Nat.succ fuel') s' currentVar rest with
                | (s'', Except.ok out) => (s'', Except.ok (v ++ out))
                | (s'', Except.error e) => (s'', Except.error e)
            | (s', Except.error e) => (s', Except.error e)
termination_by (fuel, 1, chunks.length)

end

/-- `LazyEnvResolver.resolve_all` over a name list. -/
def resolveAllGo (cfg : ResolverConfig) (fuel : Nat) (s : ResolverState) :
    List String → ResolverState × Except ResolveErr (List (String × String))
  | [] => (s, Except.ok [])
  | name :: rest =>
      match resolveVar cfg fuel s name with
      | (s', Except.ok v) =>
          match resolveAllGo cfg fuel s' rest with
          | (s'', Except.ok m) => (s'', Except.ok ((name, v) :: m))
          | (s'', Except.error e) => (s'', Except.error e)
      | (s', Except.error e) => (s', Except.error e)

/-- `LazyEnvResolver.resolve_all`: resolve every assignment in order. -/
def resolveAll (cfg : ResolverConfig) (fuel : Nat) (s : ResolverState) :
    ResolverState × Except ResolveErr (List (String × String)) :=
  resolveAllGo cfg fuel s (cfg.assignments.map Prod.fst)

/-- Python text-file line iteration: split at newlines (the final piece,
empty for `\n`-terminated content, parses as a blank line). -/
def splitLinesAux : List Char → List Char → List String
  | [], acc => [String.mk acc.reverse]
  | '\n' :: rest, acc => String.mk acc.reverse :: splitLinesAux rest []
  | c :: rest, acc => splitLinesAux rest (c :: acc)

/-- Split file content into lines. -/
def splitLines (s : String) : List String := splitLinesAux s.data []

/-- `stripped.split("=", 1)`: split at the first `=`, `none` if absent. -/
def findSplitEq : List Char → Option (List Char × List Char)
  | [] => none
  | '=' :: rest => some ([], rest)
  | c :: rest => (findSplitEq rest).map (fun p => (c :: p.1, p.2))

/-- Strip one pair of surrounding double quotes
(`len(value) >= 2 and value[0] == value[-1] == '"'`). -/
def stripQuotes (v : String) : String :=
  if 2 ≤ v.data.length ∧ v.data.head? = some '"' ∧ v.data.getLast? = some '"'
  then String.mk ((v.data.drop 1).dropLast)
  else v

/-- One line of `load_env_file` (the source's message also carries the file
path and line number, which this content-level model does not track). -/
def parseEnvLine (acc : List (String × String)) (line : String) :
    Except String (List (String × String)) :=
  let stripped := pyStrip line
  if stripped = "" then Except.ok acc
  else if stripped.data.head? = some '#' then Except.ok acc
  else
    match findSplitEq stripped.data with
    | none => Except.error "Expected key=value syntax"
    | some (nameCs, valueCs) =>
        let name := pyStrip (String.mk nameCs)
        let value := pyStrip (String.mk valueCs)
        if ¬ isValidVar name then
          Except.error ("Invalid variable name '" ++ name ++ "'")
        else Except.ok (dictSet acc name (stripQuotes value))

/-- Line loop of `load_env_file`. -/
def loadEnvGo : List String → List (String × String) →
    Except String (List (String × String))
  | [], acc => Except.ok acc
  | l :: rest, acc =>
      match parseEnvLine acc l with
      | Except.error e => Except.error e
      | Except.ok acc' => loadEnvGo rest acc'

/-- `load_env_file` on file content. -/
def loadEnvFile (content : String) : Except String (List (String × String)) :=
  loadEnvGo (splitLines content) []

/-- `write_env_file`: one `name=value` line per assignment, in order,
values taken from the resolved map (empty when missing). -/
def writeEnvContent (assignments resolvedValues : List (String × String)) :
    String :=
  String.join (assignments.map (fun p =>
    p.1 ++ "=" ++ ((alookup p.1 resolvedValues).getD "") ++ "\n"))

/-- `resolve_env_file` at the content level: load the env file, build the
registry from an optional preloaded manifest, resolve all assignments, and
return the written env-out content, the registry and the resolved map
(anchor-manifest emission is modelled by `writeAnchorManifest`). -/
def resolveEnvFile (envInContent : String)
    (anchorPreload : Option (List (String × PreloadEntry)))
    (preserveAnchors : Bool) (externalContext : List (String × String))
    (fuel : Nat) :
    Except ResolveErr (String × Registry × List (String × String)) :=
  match loadEnvFile envInContent with
  | Except.error e => Except.error (ResolveErr.assignment e)
  | Except.ok assignments =>
      match registryInit anchorPreload with
      | Except.error e => Except.error (ResolveErr.assignment e)
      | Except.ok reg =>
          match resolveAll ⟨assignments, externalContext, preserveAnchors⟩
              fuel ⟨reg, [], [], []⟩ with
          | (_, Except.error e) => Except.error e
          | (s', Except.ok resolved) =>
              Except.ok (writeEnvContent assignments resolved, s'.registry,
                resolved)

/-- A lowercase hexadecimal digit (as Python's `json` emits). -/
def hexDigit (n : Nat) : Char :=
  if n < 10 then Char.ofNat (48 + n) else Char.ofNat (87 + n)

/-- Four lowercase hex digits. -/
def hex4 (n : Nat) : String :=
  String.mk [hexDigit (n / 4096 % 16), hexDigit (n / 256 % 16),
    hexDigit (n / 16 % 16), hexDigit (n % 16)]

/-- One character as `json.dump` (default `ensure_ascii=True`) emits it:
shorthand escapes, `\\uXXXX` for other control or non-ASCII characters,
surrogate pairs beyond the BMP. -/
def jsonEscapeChar (c : Char) : String :=
  if c = '"' then "\\\""
  else if c = '\\' then "\\\\"
  else if c = '\n' then "\\n"
  else if c = '\t' then "\\t"
  else if c = '\r' then "\\r"
  else if c = '\x08' then "\\b"
  else if c = '\x0c' then "\\f"
  else if c.toNat < 32 ∨ 126 < c.toNat then
    if c.toNat ≤ 65535 then "\\u" ++ hex4 c.toNat
    else
      "\\u" ++ hex4 (55296 + (c.toNat - 65536) / 1024) ++
      "\\u" ++ hex4 (56320 + (c.toNat - 65536) % 1024)
  else String.mk [c]

/-- A JSON string literal. -/
def jsonString (s : String) : String :=
  "\"" ++ String.join (s.data.map jsonEscapeChar) ++ "\""

/-- A JSON string or `null`. -/
def jsonOptString : Option String → String
  | none => "null"
  | some s => jsonString s

/-- Stable insertion by string key (ascending). -/
def insertByKey {α : Type} (x : String × α) :
    List (String × α) → List (String × α)
  | [] => [x]
  | y :: rest => if y.1 ≤ x.1 then y :: insertByKey x rest else x :: y :: rest

/-- Stable sort by string key: the semantics of Python's
`sorted(d.items())` for unique keys. -/
def sortByKey {α : Type} (l : List (String × α)) : List (String × α) :=
  l.foldl (fun acc x => insertByKey x acc) []

/-- `AnchorRegistry.to_payload`: `(var, value)` per anchor, sorted by
anchor name. -/
def toPayload (reg : Registry) : List (String × Option String × Option String) :=
  sortByKey (reg.map (fun p => (p.1, (p.2.var, p.2.value))))

/-- One anchor object as `json.dump(..., indent=2, sort_keys=True)` lays it
out (`"value"` sorts before `"var"`). -/
def renderAnchorEntry (name : String) (var value : Option String) : String :=
  "    " ++ jsonString name ++ ": \x7b\n      \"value\": " ++
    jsonOptString value ++ ",\n      \"var\": " ++ jsonOptString var ++
    "\n    \x7d"

/-- The `anchors` object. -/
def renderAnchors (payload : List (String × Option String × Option String)) :
    String :=
  match payload with
  | [] => "\x7b\x7d"
  | _ =>
      "\x7b\n" ++
      String.intercalate ",\n"
        (payload.map (fun p => renderAnchorEntry p.1 p.2.1 p.2.2)) ++
      "\n  \x7d"

/-- The whole manifest object. -/
def renderManifest (payload : List (String × Option String × Option String)) :
    String :=
  "\x7b\n  \"anchors\": " ++ renderAnchors payload ++ "\n\x7d"

/-- `write_anchor_manifest` at the content level: capture resolved values
(when a non-empty map is passed), then dump the payload with a trailing
newline.  Returns the (possibly updated) registry and the file content. -/
def writeAnchorManifest (reg : Registry)
    (resolvedValues : Option (List (String × String))) : Registry × String :=
  let reg' :=
    match resolvedValues with
    | some vals => if vals = [] then reg else captureValues reg vals
    | none => reg
  (reg', renderManifest (toPayload reg') ++ "\n")

end EnvResolver

open EnvResolver

namespace Pipeline

/-- The seeding loop of `_pipeline_main` (lines 50-56): walk the incoming
assignments; a key already in the environment keeps its environment value,
which is written back into the assignment map; otherwise the environment
gains the assignment's value. -/
def seedGo : List (String × String) → List (String × String) × Env →
    List (String × String) × Env
  | [], st => st
  | (k, v) :: rest, (a, e) =>
      match alookup k e with
      | some envValue => seedGo rest (dictSet a k envValue, e)
      | none => seedGo rest (a, dictSet e k v)

/-- Seed the process environment from the incoming assignments without
overriding pre-existing values. -/
def seedEnvironment (assignments : List (String × String)) (env : Env) :
    List (String × String) × Env :=
  seedGo assignments (assignments, env)

/-- The environment writes `_apply_layers` performs: every applied `(k, v)`
entry corresponds to one `os.environ[k] = v` (force always applies;
immediate/lazy apply exactly when the name was unset, and only then appear
in `applied`). -/
def applyEnvWrites (e : Env) (applied : List (String × String)) : Env :=
  applied.foldl (fun acc p => dictSet acc p.1 p.2) e

/-- The tail of `_pipeline_main` (lines 47-56 and 84-121) with the
layer-derived inputs as parameters: seed the environment, merge the values
applied by `_apply_layers` into the assignments, resolve everything with
`preserve_anchors=False` against the post-apply environment, and write the
env-out content.  Returns the content, the final assignment map and the
final values. -/
def pipelineEnvOut (env0 : Env) (assignments0 : List (String × String))
    (applied : List (String × String)) (sourceAnchors : Registry)
    (fuel : Nat) :
    Except ResolveErr (String × List (String × String) × List (String × String)) :=
  match seedEnvironment assignments0 env0 with
  | (a1, e1) =>
      let a2 := applied.foldl (fun acc p => dictSet acc p.1 p.2) a1
      let e2 := applyEnvWrites e1 applied
      match resolveAll ⟨a2, e2, false⟩ fuel ⟨sourceAnchors, [], [], []⟩ with
      | (_, Except.error e) => Except.error e
      | (_, Except.ok finalValues) =>
          Except.ok (writeEnvContent a2 finalValues, a2, finalValues)

end Pipeline

open Pipeline

/-- A layer requiring `FOO` (for C3). -/
def c3Layer : ReqLayer := ⟨"lay", ["FOO"]⟩

/-- The manager's layer map at the C3 counterexample. -/
def c3Layers : List (String × ReqLayer) := [("lay", c3Layer)]

/-- The `$\x7bNAME\x7d` reference text for a name. -/
def refText (n : String) : String := "$\x7b" ++ n ++ "\x7d"

/-- No `$\x7b` occurs in the text: the `_VAR_PATTERN` scan of such text is
purely literal. -/
def noDollarBrace : List Char → Bool
  | [] => true
  | '$' :: '{' :: _ => false
  | _ :: rest => noDollarBrace rest

/-- A resolved value that survives re-parsing and re-expansion verbatim:
no `$\x7b` reference, no surrounding whitespace, not quote-wrapped, no
newline. -/
def plainValue (v : String) : Bool :=
  noDollarBrace v.data && (pyStrip v == v) &&
  !(decide (2 ≤ v.data.length) && (v.data.head? == some '"') &&
    (v.data.getLast? == some '"')) &&
  v.data.all (fun c => !(c == '\n'))

/-- A normalized anchor key: leading `@` and no lowercase ASCII letter. -/
def isNormKey (k : String) : Bool :=
  (k.data.head? == some '@') &&
  k.data.all (fun c => !(97 ≤ c.toNat && c.toNat ≤ 122))

/-- Every key stored in a registry is normalized. -/
def RegNorm (reg : Registry) : Prop := ∀ p ∈ reg, isNormKey p.1 = true

/-- The empty resolver state (fresh `LazyEnvResolver`, no anchors). -/
def initResolverState : ResolverState := ⟨[], [], [], []⟩

/-- Every memo-cache entry agrees with the assignment map (each cached
value is its own raw value — meaningful when raw values are plain). -/
def CacheSub (cfg : ResolverConfig) (s : ResolverState) : Prop :=
  ∀ p ∈ s.cache, alookup p.1 cfg.assignments = some p.2

/-- C10 configuration: `A` is an assignment, `B` only exists in the
external context, with a value that itself looks like a reference. -/
def c10Cfg : ResolverConfig := ⟨[("A", "x")], [("B", refText "NOPE")], false⟩

/-- C6 counterexample configuration: `A` references undefined `U` before
the cycle reference to `B`; `B` references `A`. -/
def c6Cfg : ResolverConfig :=
  ⟨[("A", refText "U" ++ refText "B"), ("B", refText "A")], [], true⟩

-- Theorems begin here.

namespace VariableResolver

/-- The running maximum of `_get_last_by_position` is an element of the list. -/
theorem foldlMax_mem (d : EnvVariable) (l : List EnvVariable) :
    l.foldl (fun best x => if best.position < x.position then x else best) d ∈ d :: l := by
  induction l generalizing d with
  | nil => simp
  | cons x xs ih =>
    have h := ih (if d.position < x.position then x else d)
    simp only [List.foldl_cons]
    rcases List.mem_cons.mp h with h1 | h1
    · rw [h1]
      split <;> simp
    · simp [List.mem_cons, h1]

/-- The running maximum of `_get_last_by_position` bounds the whole list. -/
theorem foldlMax_le (d : EnvVariable) (l : List EnvVariable) :
    ∀ y ∈ d :: l, y.position ≤
      (l.foldl (fun best x => if best.position < x.position then x else best) d).position := by
  induction l generalizing d with
  | nil =>
    intro y hy
    simp only [List.mem_singleton] at hy
    simp [hy]
  | cons x xs ih =>
    intro y hy
    simp only [List.foldl_cons]
    have hd : d.position ≤ (if d.position < x.position then x else d).position := by
      split <;> [exact le_of_lt (by assumption); exact le_refl _]
    have hx : x.position ≤ (if d.position < x.position then x else d).position := by
      split <;> [exact le_refl _; exact le_of_not_lt (by assumption)]
    have hhead := ih (if d.position < x.position then x else d) _
      (List.mem_cons_self _ _)
    rcases List.mem_cons.mp hy with rfl | hy'
    · exact le_trans hd hhead
    rcases List.mem_cons.mp hy' with rfl | hy''
    · exact le_trans hx hhead
    · exact ih _ y (List.mem_cons_of_mem _ hy'')

/-- The running minimum of `_get_first_by_position` is an element of the list. -/
theorem foldlMin_mem (d : EnvVariable) (l : List EnvVariable) :
    l.foldl (fun best x => if x.position < best.position then x else best) d ∈ d :: l := by
  induction l generalizing d with
  | nil => simp
  | cons x xs ih =>
    have h := ih (if x.position < d.position then x else d)
    simp only [List.foldl_cons]
    rcases List.mem_cons.mp h with h1 | h1
    · rw [h1]
      split <;> simp
    · simp [List.mem_cons, h1]

/-- The running minimum of `_get_first_by_position` is below the whole list. -/
theorem foldlMin_le (d : EnvVariable) (l : List EnvVariable) :
    ∀ y ∈ d :: l,
      (l.foldl (fun best x => if x.position < best.position then x else best) d).position ≤
        y.position := by
  induction l generalizing d with
  | nil =>
    intro y hy
    simp only [List.mem_singleton] at hy
    simp [hy]
  | cons x xs ih =>
    intro y hy
    simp only [List.foldl_cons]
    have hd : (if x.position < d.position then x else d).position ≤ d.position := by
      split <;> [exact le_of_lt (by assumption); exact le_refl _]
    have hx : (if x.position < d.position then x else d).position ≤ x.position := by
      split <;> [exact le_refl _; exact le_of_not_lt (by assumption)]
    have hhead := ih (if x.position < d.position then x else d) _
      (List.mem_cons_self _ _)
    rcases List.mem_cons.mp hy with rfl | hy'
    · exact le_trans hhead hd
    rcases List.mem_cons.mp hy' with rfl | hy''
    · exact le_trans hhead hx
    · exact ih _ y (List.mem_cons_of_mem _ hy'')

/-- Membership in the order-preserving dedup append. -/
theorem addDedup_mem {α : Type} [DecidableEq α] (acc : List α) (x y : α) :
    y ∈ addDedup acc x ↔ y ∈ acc ∨ y = x := by
  unfold addDedup
  split
  · constructor
    · exact fun h => Or.inl h
    · rintro (h | rfl)
      · exact h
      · assumption
  · simp

/-- The dedup append preserves `Nodup`. -/
theorem addDedup_nodup {α : Type} [DecidableEq α] (acc : List α) (x : α)
    (h : acc.Nodup) : (addDedup acc x).Nodup := by
  unfold addDedup
  split
  · exact h
  · simp_all [List.nodup_append]

/-- Membership in a fold of dedup appends. -/
theorem foldl_addDedup_mem {α : Type} [DecidableEq α] (l : List α) (acc : List α)
    (y : α) : y ∈ l.foldl addDedup acc ↔ y ∈ acc ∨ y ∈ l := by
  induction l generalizing acc with
  | nil => simp
  | cons x xs ih =>
    simp only [List.foldl_cons, ih, addDedup_mem, List.mem_cons]
    tauto

/-- A fold of dedup appends preserves `Nodup`. -/
theorem foldl_addDedup_nodup {α : Type} [DecidableEq α] (l : List α) (acc : List α)
    (h : acc.Nodup) : (l.foldl addDedup acc).Nodup := by
  induction l generalizing acc with
  | nil => exact h
  | cons x xs ih => exact ih _ (addDedup_nodup _ _ h)

/-- Membership in the two-level merge folds of `_resolve_pass`. -/
theorem foldlMerge_mem {α : Type} [DecidableEq α] (proj : EnvVariable → List α)
    (defs : List EnvVariable) (acc : List α) (y : α) :
    y ∈ defs.foldl (fun acc d => (proj d).foldl addDedup acc) acc ↔
      y ∈ acc ∨ ∃ d ∈ defs, y ∈ proj d := by
  induction defs generalizing acc with
  | nil => simp
  | cons d ds ih =>
    simp only [List.foldl_cons, ih, foldl_addDedup_mem, List.mem_cons]
    constructor
    · rintro ((h | h) | ⟨e, he, hy⟩)
      · exact Or.inl h
      · exact Or.inr ⟨d, Or.inl rfl, h⟩
      · exact Or.inr ⟨e, Or.inr he, hy⟩
    · rintro (h | ⟨e, (rfl | he), hy⟩)
      · exact Or.inl (Or.inl h)
      · exact Or.inl (Or.inr hy)
      · exact Or.inr ⟨e, he, hy⟩

/-- The two-level merge folds preserve `Nodup`. -/
theorem foldlMerge_nodup {α : Type} [DecidableEq α] (proj : EnvVariable → List α)
    (defs : List EnvVariable) (acc : List α) (h : acc.Nodup) :
    (defs.foldl (fun acc d => (proj d).foldl addDedup acc) acc).Nodup := by
  induction defs generalizing acc with
  | nil => exact h
  | cons d ds ih => exact ih _ (foldl_addDedup_nodup _ _ h)

/-- The merged trigger list holds exactly the triggers of the definitions. -/
theorem mergeTriggers_mem (defs : List EnvVariable) (t : TriggerRule) :
    t ∈ mergeTriggers defs ↔ ∃ d ∈ defs, t ∈ d.triggers := by
  have := foldlMerge_mem (fun d => d.triggers) defs [] t
  simpa [mergeTriggers] using this

/-- The merged trigger list is deduplicated. -/
theorem mergeTriggers_nodup (defs : List EnvVariable) :
    (mergeTriggers defs).Nodup :=
  foldlMerge_nodup (fun d => d.triggers) defs [] List.nodup_nil

/-- The merged conflict list holds exactly the conflicts of the definitions. -/
theorem mergeConflicts_mem (defs : List EnvVariable) (c : String) :
    c ∈ mergeConflicts defs ↔ ∃ d ∈ defs, c ∈ d.conflicts := by
  have := foldlMerge_mem (fun d => d.conflicts) defs [] c
  simpa [mergeConflicts] using this

/-- The merged conflict list is deduplicated. -/
theorem mergeConflicts_nodup (defs : List EnvVariable) :
    (mergeConflicts defs).Nodup :=
  foldlMerge_nodup (fun d => d.conflicts) defs [] List.nodup_nil

/-- The running maximum of positions bounds the initial value and the list. -/
theorem foldlMaxPos_ge (init : Rat) (l : List EnvVariable) :
    init ≤ l.foldl (fun m x => if m < x.position then x.position else m) init ∧
      ∀ e ∈ l, e.position ≤
        l.foldl (fun m x => if m < x.position then x.position else m) init := by
  induction l generalizing init with
  | nil => simp
  | cons x xs ih =>
    simp only [List.foldl_cons]
    have hstep : init ≤ (if init < x.position then x.position else init) ∧
        x.position ≤ (if init < x.position then x.position else init) := by
      constructor
      · split <;> [exact le_of_lt (by assumption); exact le_refl _]
      · split <;> [exact le_refl _; exact le_of_not_lt (by assumption)]
    refine ⟨le_trans hstep.1 (ih _).1, ?_⟩
    intro e he
    rcases List.mem_cons.mp he with rfl | he'
    · exact le_trans hstep.2 (ih _).1
    · exact (ih _).2 e he'

/-- The running maximum of positions is attained. -/
theorem foldlMaxPos_attained (init : Rat) (l : List EnvVariable) :
    l.foldl (fun m x => if m < x.position then x.position else m) init = init ∨
      ∃ e ∈ l, l.foldl (fun m x => if m < x.position then x.position else m) init =
        e.position := by
  induction l generalizing init with
  | nil => simp
  | cons x xs ih =>
    simp only [List.foldl_cons]
    rcases ih (if init < x.position then x.position else init) with h | ⟨e, he, h⟩
    · rw [h]
      split
      · exact Or.inr ⟨x, List.mem_cons_self _ _, rfl⟩
      · exact Or.inl rfl
    · exact Or.inr ⟨e, List.mem_cons_of_mem _ he, h⟩

/-- `maxPosition` bounds every definition. -/
theorem maxPosition_le (d : EnvVariable) (rest : List EnvVariable) :
    ∀ e ∈ d :: rest, e.position ≤ maxPosition d rest := by
  intro e he
  rcases List.mem_cons.mp he with rfl | he'
  · exact (foldlMaxPos_ge e.position rest).1
  · exact (foldlMaxPos_ge d.position rest).2 e he'

/-- `maxPosition` is attained by some definition. -/
theorem maxPosition_attained (d : EnvVariable) (rest : List EnvVariable) :
    ∃ e ∈ d :: rest, e.position = maxPosition d rest := by
  rcases foldlMaxPos_attained d.position rest with h | ⟨e, he, h⟩
  · exact ⟨d, List.mem_cons_self _ _, h.symm⟩
  · exact ⟨e, List.mem_cons_of_mem _ he, h.symm⟩

/-- `appendDef` records the appended definition under its target. -/
theorem appendDef_lookup_self (acc : List (String × List EnvVariable))
    (t : String) (d : EnvVariable) :
    ∃ ds, alookup t (appendDef acc t d) = some ds ∧ d ∈ ds := by
  induction acc with
  | nil => exact ⟨[d], by simp [appendDef, alookup], by simp⟩
  | cons p rest ih =>
    obtain ⟨k, ds0⟩ := p
    by_cases h : k = t
    · subst h
      exact ⟨ds0 ++ [d], by simp [appendDef, alookup], by simp⟩
    · obtain ⟨ds, hds, hd⟩ := ih
      exact ⟨ds, by simp [appendDef, alookup, h, hds], hd⟩

/-- `appendDef` never loses an already-recorded definition. -/
theorem appendDef_lookup_mono (acc : List (String × List EnvVariable))
    (t : String) (d : EnvVariable) (t' : String) (ds' : List EnvVariable)
    (x : EnvVariable) (hl : alookup t' acc = some ds') (hx : x ∈ ds') :
    ∃ ds'', alookup t' (appendDef acc t d) = some ds'' ∧ x ∈ ds'' := by
  induction acc with
  | nil => simp [alookup] at hl
  | cons p rest ih =>
    obtain ⟨k, ds0⟩ := p
    by_cases hkt : k = t
    · subst hkt
      by_cases hk' : k = t'
      · subst hk'
        have : ds0 = ds' := by
          simpa [alookup] using hl
        subst this
        exact ⟨ds0 ++ [d], by simp [appendDef, alookup],
          List.mem_append_left _ hx⟩
      · rw [alookup, if_neg hk'] at hl
        exact ⟨ds', by simp [appendDef, alookup, hk', hl], hx⟩
    · by_cases hk' : k = t'
      · subst hk'
        have : ds0 = ds' := by
          simpa [alookup] using hl
        subst this
        exact ⟨ds0, by simp [appendDef, alookup, hkt], hx⟩
      · rw [alookup, if_neg hk'] at hl
        obtain ⟨ds'', h1, h2⟩ := ih hl
        exact ⟨ds'', by simp [appendDef, alookup, hkt, hk', h1], h2⟩

/-- `appendDef` preserves per-definition properties. -/
theorem appendDef_forall {P : EnvVariable → Prop}
    (acc : List (String × List EnvVariable)) (t : String) (d : EnvVariable)
    (hacc : ∀ p ∈ acc, ∀ e ∈ p.2, P e) (hd : P d) :
    ∀ p ∈ appendDef acc t d, ∀ e ∈ p.2, P e := by
  induction acc with
  | nil =>
    intro p hp e he
    simp [appendDef] at hp
    subst hp
    simp at he
    subst he
    exact hd
  | cons q rest ih =>
    obtain ⟨k, ds0⟩ := q
    intro p hp e he
    by_cases h : k = t
    · subst h
      simp only [appendDef, if_pos rfl] at hp
      rcases List.mem_cons.mp hp with rfl | hp'
      · rcases List.mem_append.mp he with h1 | h1
        · exact hacc (k, ds0) (List.mem_cons_self _ _) e h1
        · simp at h1
          subst h1
          exact hd
      · exact hacc p (List.mem_cons_of_mem _ hp') e he
    · simp only [appendDef, if_neg h] at hp
      rcases List.mem_cons.mp hp with rfl | hp'
      · exact hacc (k, ds0) (List.mem_cons_self _ _) e he
      · exact ih (fun q hq => hacc q (List.mem_cons_of_mem _ hq)) p hp' e he

/-- `collectRules` never loses an already-recorded definition. -/
theorem collectRules_mono (env : Env) (resolved : List (String × EnvVariable))
    (v : EnvVariable) (t' : String) (x : EnvVariable) :
    ∀ (rules : List TriggerRule) (acc res : List (String × List EnvVariable))
      (ds' : List EnvVariable),
      collectRules env resolved v acc rules = Except.ok res →
      alookup t' acc = some ds' → x ∈ ds' →
      ∃ ds'', alookup t' res = some ds'' ∧ x ∈ ds'' := by
  intro rules
  induction rules with
  | nil =>
    intro acc res ds' hres hl hx
    simp only [collectRules] at hres
    cases hres
    exact ⟨ds', hl, hx⟩
  | cons r rs ih =>
    intro acc res ds' hres hl hx
    simp only [collectRules] at hres
    split at hres
    · exact ih acc res ds' hres hl hx
    · split at hres
      · cases hres
      · obtain ⟨dsm, h1, h2⟩ := appendDef_lookup_mono acc r.target
          (mkInjected resolved v r) t' ds' x hl hx
        exact ih _ res dsm hres h1 h2

/-- A fired `set` rule contributes its synthesized definition. -/
theorem collectRules_adds (env : Env) (resolved : List (String × EnvVariable))
    (v : EnvVariable) (rule : TriggerRule) :
    ∀ (rules : List TriggerRule) (acc res : List (String × List EnvVariable)),
      rule ∈ rules →
      (rule.condition = none ∨
        rule.condition = some ((envGet env v.name).getD v.value)) →
      rule.action = "set" →
      collectRules env resolved v acc rules = Except.ok res →
      ∃ ds, alookup rule.target res = some ds ∧ mkInjected resolved v rule ∈ ds := by
  intro rules
  induction rules with
  | nil =>
    intro acc res hmem
    exact absurd hmem (List.not_mem_nil rule)
  | cons r rs ih =>
    intro acc res hmem hfired hact hres
    rcases List.mem_cons.mp hmem with rfl | hmem'
    · simp only [collectRules] at hres
      split at hres
      · rename_i hcond
        exfalso
        rcases hfired with h | h
        · exact hcond.1 h
        · exact hcond.2 h
      · split at hres
        · cases hres
        · obtain ⟨ds0, h1, h2⟩ := appendDef_lookup_self acc rule.target
            (mkInjected resolved v rule)
          exact collectRules_mono env resolved v rule.target
            (mkInjected resolved v rule) rs _ res ds0 hres h1 h2
    · simp only [collectRules] at hres
      split at hres
      · exact ih acc res hmem' hfired hact hres
      · split at hres
        · cases hres
        · exact ih _ res hmem' hfired hact hres

/-- `collectRules` preserves per-definition properties when the synthesized
definitions satisfy them. -/
theorem collectRules_forall {P : EnvVariable → Prop} (env : Env)
    (resolved : List (String × EnvVariable)) (v : EnvVariable)
    (hmk : ∀ rule, P (mkInjected resolved v rule)) :
    ∀ (rules : List TriggerRule) (acc res : List (String × List EnvVariable)),
      collectRules env resolved v acc rules = Except.ok res →
      (∀ p ∈ acc, ∀ e ∈ p.2, P e) →
      ∀ p ∈ res, ∀ e ∈ p.2, P e := by
  intro rules
  induction rules with
  | nil =>
    intro acc res hres hacc
    simp only [collectRules] at hres
    cases hres
    exact hacc
  | cons r rs ih =>
    intro acc res hres hacc
    simp only [collectRules] at hres
    split at hres
    · exact ih acc res hres hacc
    · split at hres
      · cases hres
      · exact ih _ res hres (appendDef_forall acc r.target _ hacc (hmk r))

/-- `collectGo` never loses an already-recorded definition. -/
theorem collectGo_mono (env : Env) (resolved : List (String × EnvVariable))
    (t' : String) (x : EnvVariable) :
    ∀ (remaining : List (String × EnvVariable))
      (acc res : List (String × List EnvVariable)) (ds' : List EnvVariable),
      collectGo env resolved acc remaining = Except.ok res →
      alookup t' acc = some ds' → x ∈ ds' →
      ∃ ds'', alookup t' res = some ds'' ∧ x ∈ ds'' := by
  intro remaining
  induction remaining with
  | nil =>
    intro acc res ds' hres hl hx
    simp only [collectGo] at hres
    cases hres
    exact ⟨ds', hl, hx⟩
  | cons p rest ih =>
    intro acc res ds' hres hl hx
    obtain ⟨n, v⟩ := p
    simp only [collectGo] at hres
    split at hres
    · cases hres
    · rename_i acc' hacc'
      obtain ⟨dsm, h1, h2⟩ :=
        collectRules_mono env resolved v t' x v.triggers acc acc' ds' hacc' hl hx
      obtain ⟨ds'', h3, h4⟩ := ih acc' res dsm hres h1 h2
      exact ⟨ds'', h3, h4⟩

/-- A fired `set` rule of any resolved variable contributes its synthesized
definition to the collected map. -/
theorem collectGo_adds (env : Env) (resolved : List (String × EnvVariable))
    (n : String) (v : EnvVariable) (rule : TriggerRule) :
    ∀ (remaining : List (String × EnvVariable))
      (acc res : List (String × List EnvVariable)),
      (n, v) ∈ remaining → rule ∈ v.triggers →
      (rule.condition = none ∨
        rule.condition = some ((envGet env v.name).getD v.value)) →
      rule.action = "set" →
      collectGo env resolved acc remaining = Except.ok res →
      ∃ ds, alookup rule.target res = some ds ∧ mkInjected resolved v rule ∈ ds := by
  intro remaining
  induction remaining with
  | nil =>
    intro acc res hmem
    exact absurd hmem (List.not_mem_nil _)
  | cons p rest ih =>
    intro acc res hmem hrule hfired hact hres
    obtain ⟨n0, v0⟩ := p
    simp only [collectGo] at hres
    split at hres
    · cases hres
    · rename_i acc' hacc'
      rcases List.mem_cons.mp hmem with heq | hmem'
      · injection heq with h1 h2
        subst h1
        subst h2
        obtain ⟨ds0, h1, h2⟩ := collectRules_adds env resolved v rule v.triggers
          acc acc' hrule hfired hact hacc'
        exact collectGo_mono env resolved rule.target
          (mkInjected resolved v rule) rest acc' res ds0 hres h1 h2
      · exact ih acc' res hmem' hrule hfired hact hres

/-- `collectGo` output satisfies any property of the synthesized
definitions. -/
theorem collectGo_forall {P : EnvVariable → Prop} (env : Env)
    (resolved : List (String × EnvVariable))
    (hmk : ∀ v rule, P (mkInjected resolved v rule)) :
    ∀ (remaining : List (String × EnvVariable))
      (acc res : List (String × List EnvVariable)),
      collectGo env resolved acc remaining = Except.ok res →
      (∀ p ∈ acc, ∀ e ∈ p.2, P e) →
      ∀ p ∈ res, ∀ e ∈ p.2, P e := by
  intro remaining
  induction remaining with
  | nil =>
    intro acc res hres hacc
    simp only [collectGo] at hres
    cases hres
    exact hacc
  | cons p rest ih =>
    intro acc res hres hacc
    obtain ⟨n0, v0⟩ := p
    simp only [collectGo] at hres
    split at hres
    · cases hres
    · rename_i acc' hacc'
      exact ih acc' res hres
        (collectRules_forall env resolved v0 (hmk v0) v0.triggers acc acc' hacc' hacc)


end VariableResolver

/-- C1: Pass-1 selection obeys the policy table: a force definition with the
greatest position wins; otherwise, with the name not in the environment, the
immediate definition with the smallest position, else the lazy definition
with the greatest position.  In scenario S1 the resolved value of
`IGconf_x_port` is `2`. -/
theorem pass1PolicyTable :
    (∀ (env : Env) (name : String) (defs : List EnvVariable),
      ((∃ d ∈ defs, d.setPolicy = Policy.force) →
        ∃ r, resolveSingleVariable env name defs = some r ∧
          r ∈ defs ∧ r.setPolicy = Policy.force ∧
          ∀ d ∈ defs, d.setPolicy = Policy.force → d.position ≤ r.position) ∧
      ((∀ d ∈ defs, d.setPolicy ≠ Policy.force) →
        (∃ d ∈ defs, d.setPolicy = Policy.immediate) → envHas env name = false →
        ∃ r, resolveSingleVariable env name defs = some r ∧
          r ∈ defs ∧ r.setPolicy = Policy.immediate ∧
          ∀ d ∈ defs, d.setPolicy = Policy.immediate → r.position ≤ d.position) ∧
      ((∀ d ∈ defs, d.setPolicy ≠ Policy.force) →
        (∀ d ∈ defs, d.setPolicy ≠ Policy.immediate) →
        (∃ d ∈ defs, d.setPolicy = Policy.lazy) → envHas env name = false →
        ∃ r, resolveSingleVariable env name defs = some r ∧
          r ∈ defs ∧ r.setPolicy = Policy.lazy ∧
          ∀ d ∈ defs, d.setPolicy = Policy.lazy → d.position ≤ r.position)) ∧
    resolverResolve [] [("IGconf_x_port", [s1DefA, s1DefB])] =
      Except.ok [("IGconf_x_port", s1DefB)] ∧
    s1DefB.value = "2" := by
  refine ⟨fun env name defs => ⟨?_, ?_, ?_⟩, rfl, rfl⟩
  · rintro ⟨d, hd, hp⟩
    have hdF : d ∈ defs.filter (fun d => d.setPolicy = Policy.force) :=
      List.mem_filter.mpr ⟨hd, by simp [hp]⟩
    have hFne : defs.filter (fun d => d.setPolicy = Policy.force) ≠ [] := by
      intro h
      rw [h] at hdF
      exact absurd hdF (List.not_mem_nil d)
    obtain ⟨f, fs, hcons⟩ : ∃ f fs,
        defs.filter (fun d => d.setPolicy = Policy.force) = f :: fs := by
      cases h : defs.filter (fun d => d.setPolicy = Policy.force) with
      | nil => exact absurd h hFne
      | cons f fs => exact ⟨f, fs, rfl⟩
    have hres : resolveSingleVariable env name defs =
        getLastByPosition (defs.filter (fun d => d.setPolicy = Policy.force)) := by
      unfold resolveSingleVariable
      simp only [hFne, ne_eq, not_false_eq_true, if_true]
    refine ⟨fs.foldl (fun best x => if best.position < x.position then x else best) f,
      ?_, ?_, ?_, ?_⟩
    · rw [hres, hcons]
      rfl
    · have := foldlMax_mem f fs
      rw [← hcons] at this
      exact (List.mem_filter.mp this).1
    · have := foldlMax_mem f fs
      rw [← hcons] at this
      have := (List.mem_filter.mp this).2
      simpa using this
    · intro e he hpe
      have heF : e ∈ defs.filter (fun d => d.setPolicy = Policy.force) :=
        List.mem_filter.mpr ⟨he, by simp [hpe]⟩
      rw [hcons] at heF
      exact foldlMax_le f fs e heF
  · rintro hnf ⟨d, hd, hp⟩ henv
    have hF : defs.filter (fun d => d.setPolicy = Policy.force) = [] := by
      rw [List.filter_eq_nil_iff]
      intro a ha
      simp [hnf a ha]
    have hdI : d ∈ defs.filter (fun d => d.setPolicy = Policy.immediate) :=
      List.mem_filter.mpr ⟨hd, by simp [hp]⟩
    have hIne : defs.filter (fun d => d.setPolicy = Policy.immediate) ≠ [] := by
      intro h
      rw [h] at hdI
      exact absurd hdI (List.not_mem_nil d)
    obtain ⟨f, fs, hcons⟩ : ∃ f fs,
        defs.filter (fun d => d.setPolicy = Policy.immediate) = f :: fs := by
      cases h : defs.filter (fun d => d.setPolicy = Policy.immediate) with
      | nil => exact absurd h hIne
      | cons f fs => exact ⟨f, fs, rfl⟩
    have hres : resolveSingleVariable env name defs =
        getFirstByPosition (defs.filter (fun d => d.setPolicy = Policy.immediate)) := by
      unfold resolveSingleVariable
      simp only [hF, ne_eq, not_true_eq_false, if_false, hIne, henv,
        Bool.false_eq_true, not_false_eq_true, and_self, if_true]
    refine ⟨fs.foldl (fun best x => if x.position < best.position then x else best) f,
      ?_, ?_, ?_, ?_⟩
    · rw [hres, hcons]
      rfl
    · have := foldlMin_mem f fs
      rw [← hcons] at this
      exact (List.mem_filter.mp this).1
    · have := foldlMin_mem f fs
      rw [← hcons] at this
      have := (List.mem_filter.mp this).2
      simpa using this
    · intro e he hpe
      have heI : e ∈ defs.filter (fun d => d.setPolicy = Policy.immediate) :=
        List.mem_filter.mpr ⟨he, by simp [hpe]⟩
      rw [hcons] at heI
      exact foldlMin_le f fs e heI
  · rintro hnf hni ⟨d, hd, hp⟩ henv
    have hF : defs.filter (fun d => d.setPolicy = Policy.force) = [] := by
      rw [List.filter_eq_nil_iff]
      intro a ha
      simp [hnf a ha]
    have hI : defs.filter (fun d => d.setPolicy = Policy.immediate) = [] := by
      rw [List.filter_eq_nil_iff]
      intro a ha
      simp [hni a ha]
    have hdL : d ∈ defs.filter (fun d => d.setPolicy = Policy.lazy) :=
      List.mem_filter.mpr ⟨hd, by simp [hp]⟩
    have hLne : defs.filter (fun d => d.setPolicy = Policy.lazy) ≠ [] := by
      intro h
      rw [h] at hdL
      exact absurd hdL (List.not_mem_nil d)
    obtain ⟨f, fs, hcons⟩ : ∃ f fs,
        defs.filter (fun d => d.setPolicy = Policy.lazy) = f :: fs := by
      cases h : defs.filter (fun d => d.setPolicy = Policy.lazy) with
      | nil => exact absurd h hLne
      | cons f fs => exact ⟨f, fs, rfl⟩
    have hres : resolveSingleVariable env name defs =
        getLastByPosition (defs.filter (fun d => d.setPolicy = Policy.lazy)) := by
      unfold resolveSingleVariable
      simp only [hF, hI, ne_eq, not_true_eq_false, if_false, hLne, henv,
        Bool.false_eq_true, not_false_eq_true, and_self, if_true, false_and]
    refine ⟨fs.foldl (fun best x => if best.position < x.position then x else best) f,
      ?_, ?_, ?_, ?_⟩
    · rw [hres, hcons]
      rfl
    · have := foldlMax_mem f fs
      rw [← hcons] at this
      exact (List.mem_filter.mp this).1
    · have := foldlMax_mem f fs
      rw [← hcons] at this
      have := (List.mem_filter.mp this).2
      simpa using this
    · intro e he hpe
      have heL : e ∈ defs.filter (fun d => d.setPolicy = Policy.lazy) :=
        List.mem_filter.mpr ⟨he, by simp [hpe]⟩
      rw [hcons] at heL
      exact foldlMax_le f fs e heL

/-- C2 counterexample: with `V` in the environment and definitions
`[immediate, skip]`, the skip fallback fires although not every definition
has policy skip, and no `already_set` definition is synthesized. -/
theorem pass1SkipFallbackCounterexample :
    resolveSingleVariable c2EnvList "V" [c2ImmDef, c2SkipDef] = some c2SkipDef ∧
    c2SkipDef.setPolicy = Policy.skip ∧
    c2ImmDef.setPolicy ≠ Policy.skip ∧
    resolvePassEntry c2EnvList "V" [c2ImmDef, c2SkipDef] = some c2SkipDef ∧
    c2SkipDef.setPolicy ≠ Policy.alreadySet := by
  refine ⟨rfl, rfl, by decide, rfl, by decide⟩

/-- C2 amended: the skip fallback fires exactly when no force definition
exists, immediate and lazy selection are absent or blocked by the
environment, and a skip definition exists (in particular also when the name
is in the environment alongside immediate or lazy definitions); only when
additionally no skip definition applies does the resolver synthesize an
`already_set` definition with the environment's value, the maximum
position, deduplicated merged triggers and conflicts, and the first
definition's descriptive metadata. -/
theorem pass1SkipFallbackAmended :
    ∀ (env : Env) (name : String) (defs : List EnvVariable),
      ((∀ d ∈ defs, d.setPolicy ≠ Policy.force) →
        (defs.filter (fun d => d.setPolicy = Policy.immediate) = [] ∨
          envHas env name = true) →
        (defs.filter (fun d => d.setPolicy = Policy.lazy) = [] ∨
          envHas env name = true) →
        (∃ d ∈ defs, d.setPolicy = Policy.skip) →
        ∃ r, resolveSingleVariable env name defs = some r ∧ r ∈ defs ∧
          r.setPolicy = Policy.skip ∧
          ∀ d ∈ defs, d.setPolicy = Policy.skip → d.position ≤ r.position) ∧
      (∀ r, resolveSingleVariable env name defs = some r →
        r.setPolicy = Policy.skip →
        (∀ d ∈ defs, d.setPolicy ≠ Policy.force) ∧
        (defs.filter (fun d => d.setPolicy = Policy.immediate) ≠ [] →
          envHas env name = true) ∧
        (defs.filter (fun d => d.setPolicy = Policy.lazy) ≠ [] →
          envHas env name = true)) ∧
      (∀ firstDef rest envValue, defs = firstDef :: rest →
        resolveSingleVariable env name defs = none →
        envGet env name = some envValue →
        ∃ r, resolvePassEntry env name defs = some r ∧
          r.setPolicy = Policy.alreadySet ∧ r.value = envValue ∧
          (∀ d ∈ defs, d.position ≤ r.position) ∧
          (∃ d ∈ defs, d.position = r.position) ∧
          (∀ t, t ∈ r.triggers ↔ ∃ d ∈ defs, t ∈ d.triggers) ∧
          r.triggers.Nodup ∧
          (∀ c, c ∈ r.conflicts ↔ ∃ d ∈ defs, c ∈ d.conflicts) ∧
          r.conflicts.Nodup ∧
          r.description = firstDef.description ∧ r.required = firstDef.required ∧
          r.validator = firstDef.validator ∧
          r.validationRule = firstDef.validationRule ∧
          r.anchorName = firstDef.anchorName ∧
          r.sourceLayer = firstDef.sourceLayer) := by
  intro env name defs
  refine ⟨?_, ?_, ?_⟩
  · intro hnf himm hlazy ⟨d, hd, hp⟩
    have hF : defs.filter (fun d => d.setPolicy = Policy.force) = [] := by
      rw [List.filter_eq_nil_iff]
      intro a ha
      simp [hnf a ha]
    have hdS : d ∈ defs.filter (fun d => d.setPolicy = Policy.skip) :=
      List.mem_filter.mpr ⟨hd, by simp [hp]⟩
    have hSne : defs.filter (fun d => d.setPolicy = Policy.skip) ≠ [] := by
      intro h
      rw [h] at hdS
      exact absurd hdS (List.not_mem_nil d)
    obtain ⟨f, fs, hcons⟩ : ∃ f fs,
        defs.filter (fun d => d.setPolicy = Policy.skip) = f :: fs := by
      cases h : defs.filter (fun d => d.setPolicy = Policy.skip) with
      | nil => exact absurd h hSne
      | cons f fs => exact ⟨f, fs, rfl⟩
    have hImmCond : ¬(defs.filter (fun d => d.setPolicy = Policy.immediate) ≠ [] ∧
        ¬ envHas env name = true) := by
      rcases himm with h | h
      · simp [h]
      · simp [h]
    have hLazyCond : ¬(defs.filter (fun d => d.setPolicy = Policy.lazy) ≠ [] ∧
        ¬ envHas env name = true) := by
      rcases hlazy with h | h
      · simp [h]
      · simp [h]
    have hres : resolveSingleVariable env name defs =
        getLastByPosition (defs.filter (fun d => d.setPolicy = Policy.skip)) := by
      unfold resolveSingleVariable
      simp only [hF, ne_eq, not_true_eq_false, if_false]
      rw [if_neg hImmCond, if_neg hLazyCond, if_pos hSne]
    refine ⟨fs.foldl (fun best x => if best.position < x.position then x else best) f,
      ?_, ?_, ?_, ?_⟩
    · rw [hres, hcons]
      rfl
    · have := foldlMax_mem f fs
      rw [← hcons] at this
      exact (List.mem_filter.mp this).1
    · have := foldlMax_mem f fs
      rw [← hcons] at this
      have := (List.mem_filter.mp this).2
      simpa using this
    · intro e he hpe
      have heS : e ∈ defs.filter (fun d => d.setPolicy = Policy.skip) :=
        List.mem_filter.mpr ⟨he, by simp [hpe]⟩
      rw [hcons] at heS
      exact foldlMax_le f fs e heS
  · intro r hr hskip
    by_cases hF : defs.filter (fun d => d.setPolicy = Policy.force) ≠ []
    · exfalso
      obtain ⟨f, fs, hcons⟩ : ∃ f fs,
          defs.filter (fun d => d.setPolicy = Policy.force) = f :: fs := by
        cases h : defs.filter (fun d => d.setPolicy = Policy.force) with
        | nil => exact absurd h hF
        | cons f fs => exact ⟨f, fs, rfl⟩
      have hres : resolveSingleVariable env name defs =
          getLastByPosition (defs.filter (fun d => d.setPolicy = Policy.force)) := by
        unfold resolveSingleVariable
        simp only [hF, ne_eq, not_false_eq_true, if_true]
      rw [hres, hcons] at hr
      have : r ∈ defs.filter (fun d => d.setPolicy = Policy.force) := by
        rw [hcons, ← Option.some.inj hr]
        exact foldlMax_mem f fs
      have := (List.mem_filter.mp this).2
      simp only [decide_eq_true_eq] at this
      rw [this] at hskip
      exact Policy.noConfusion hskip
    · push_neg at hF
      refine ⟨?_, ?_, ?_⟩
      · intro a ha hpa
        have : a ∈ defs.filter (fun d => d.setPolicy = Policy.force) :=
          List.mem_filter.mpr ⟨ha, by simp [hpa]⟩
        rw [hF] at this
        exact absurd this (List.not_mem_nil a)
      · intro hImm
        by_contra hEnv
        obtain ⟨f, fs, hcons⟩ : ∃ f fs,
            defs.filter (fun d => d.setPolicy = Policy.immediate) = f :: fs := by
          cases h : defs.filter (fun d => d.setPolicy = Policy.immediate) with
          | nil => exact absurd h hImm
          | cons f fs => exact ⟨f, fs, rfl⟩
        have hres : resolveSingleVariable env name defs =
            getFirstByPosition
              (defs.filter (fun d => d.setPolicy = Policy.immediate)) := by
          unfold resolveSingleVariable
          simp only [hF, ne_eq, not_true_eq_false, if_false]
          rw [if_pos ⟨hImm, hEnv⟩]
        rw [hres, hcons] at hr
        have : r ∈ defs.filter (fun d => d.setPolicy = Policy.immediate) := by
          rw [hcons, ← Option.some.inj hr]
          exact foldlMin_mem f fs
        have := (List.mem_filter.mp this).2
        simp only [decide_eq_true_eq] at this
        rw [this] at hskip
        exact Policy.noConfusion hskip
      · intro hLazy
        by_contra hEnv
        by_cases hImmCond : defs.filter (fun d => d.setPolicy = Policy.immediate) ≠ [] ∧
            ¬ envHas env name = true
        · obtain ⟨f, fs, hcons⟩ : ∃ f fs,
              defs.filter (fun d => d.setPolicy = Policy.immediate) = f :: fs := by
            cases h : defs.filter (fun d => d.setPolicy = Policy.immediate) with
            | nil => exact absurd h hImmCond.1
            | cons f fs => exact ⟨f, fs, rfl⟩
          have hres : resolveSingleVariable env name defs =
              getFirstByPosition
                (defs.filter (fun d => d.setPolicy = Policy.immediate)) := by
            unfold resolveSingleVariable
            simp only [hF, ne_eq, not_true_eq_false, if_false]
            rw [if_pos hImmCond]
          rw [hres, hcons] at hr
          have : r ∈ defs.filter (fun d => d.setPolicy = Policy.immediate) := by
            rw [hcons, ← Option.some.inj hr]
            exact foldlMin_mem f fs
          have := (List.mem_filter.mp this).2
          simp only [decide_eq_true_eq] at this
          rw [this] at hskip
          exact Policy.noConfusion hskip
        · obtain ⟨f, fs, hcons⟩ : ∃ f fs,
              defs.filter (fun d => d.setPolicy = Policy.lazy) = f :: fs := by
            cases h : defs.filter (fun d => d.setPolicy = Policy.lazy) with
            | nil => exact absurd h hLazy
            | cons f fs => exact ⟨f, fs, rfl⟩
          have hres : resolveSingleVariable env name defs =
              getLastByPosition (defs.filter (fun d => d.setPolicy = Policy.lazy)) := by
            unfold resolveSingleVariable
            simp only [hF, ne_eq, not_true_eq_false, if_false]
            rw [if_neg hImmCond, if_pos ⟨hLazy, hEnv⟩]
          rw [hres, hcons] at hr
          have : r ∈ defs.filter (fun d => d.setPolicy = Policy.lazy) := by
            rw [hcons, ← Option.some.inj hr]
            exact foldlMax_mem f fs
          have := (List.mem_filter.mp this).2
          simp only [decide_eq_true_eq] at this
          rw [this] at hskip
          exact Policy.noConfusion hskip
  · intro firstDef rest envValue hdefs hnone henv
    subst hdefs
    refine ⟨{
      name := name
      value := envValue
      description := firstDef.description
      required := firstDef.required
      validator := firstDef.validator
      validationRule := firstDef.validationRule
      setPolicy := Policy.alreadySet
      sourceLayer := firstDef.sourceLayer
      position := maxPosition firstDef rest
      anchorName := firstDef.anchorName
      triggers := mergeTriggers (firstDef :: rest)
      conflicts := mergeConflicts (firstDef :: rest) }, ?_, rfl, rfl, ?_, ?_, ?_, ?_,
      ?_, ?_, rfl, rfl, rfl, rfl, rfl, rfl⟩
    · unfold resolvePassEntry
      rw [hnone, henv]
    · exact maxPosition_le firstDef rest
    · obtain ⟨e, he, hepos⟩ := maxPosition_attained firstDef rest
      exact ⟨e, he, hepos⟩
    · exact fun t => mergeTriggers_mem _ t
    · exact mergeTriggers_nodup _
    · exact fun c => mergeConflicts_mem _ c
    · exact mergeConflicts_nodup _

/-- Witness for C2 (amended): at the counterexample input the skip branch
fires as characterized. -/
theorem pass1SkipFallbackAmendedWitness :
    ∃ r, resolveSingleVariable c2EnvList "V" [c2ImmDef, c2SkipDef] = some r ∧
      r ∈ [c2ImmDef, c2SkipDef] ∧ r.setPolicy = Policy.skip ∧
      ∀ d ∈ [c2ImmDef, c2SkipDef], d.setPolicy = Policy.skip →
        d.position ≤ r.position :=
  (pass1SkipFallbackAmended c2EnvList "V" [c2ImmDef, c2SkipDef]).1
    (by decide) (Or.inr rfl) (Or.inl rfl) ⟨c2SkipDef, by simp, rfl⟩

/-- Witness for C1 at scenario S1: the force branch applies and selects a
definition with the greatest force position. -/
theorem pass1PolicyTableWitness :
    ∃ r, resolveSingleVariable [] "IGconf_x_port" [s1DefA, s1DefB] = some r ∧
      r ∈ [s1DefA, s1DefB] ∧ r.setPolicy = Policy.force ∧
      ∀ d ∈ [s1DefA, s1DefB], d.setPolicy = Policy.force → d.position ≤ r.position :=
  (pass1PolicyTable.1 [] "IGconf_x_port" [s1DefA, s1DefB]).1
    ⟨s1DefB, by simp, rfl⟩

/-- C4 counterexample: the trigger target exists in the resolved set, yet the
injected definition's description is not inherited from it (the target's
description is empty, so the code substitutes "Triggered by SRC"). -/
theorem triggerInjectionCounterexample :
    collectTriggerDefinitions [] c4Resolved = Except.ok [("TGT", [c4Injected])] ∧
    alookup "TGT" c4Resolved = some c4TgtVar ∧
    c4Injected.description = "Triggered by SRC" ∧
    c4TgtVar.description = "" ∧
    c4Injected.description ≠ c4TgtVar.description := by
  refine ⟨rfl, rfl, rfl, rfl, by decide⟩

/-- C4 amended: a fired trigger (condition absent or equal to the effective
value) synthesizes a definition with the trigger's value and policy and
position source + 0.01, inheriting validator, rule, required and anchor from
the already-resolved target, and the target's description only when it is
non-empty (else "Triggered by <source>"); exactly one trigger pass is
performed and injected definitions carry no triggers of their own. -/
theorem triggerInjectionAmended :
    (∀ (env : Env) (resolved : List (String × EnvVariable)) (n : String)
        (v : EnvVariable) (rule : TriggerRule)
        (res : List (String × List EnvVariable)),
      (n, v) ∈ resolved → rule ∈ v.triggers →
      (rule.condition = none ∨
        rule.condition = some ((envGet env v.name).getD v.value)) →
      rule.action = "set" →
      collectTriggerDefinitions env resolved = Except.ok res →
      ∃ ds, alookup rule.target res = some ds ∧ mkInjected resolved v rule ∈ ds) ∧
    (∀ (resolved : List (String × EnvVariable)) (v : EnvVariable)
        (rule : TriggerRule),
      (mkInjected resolved v rule).value = rule.value ∧
      (mkInjected resolved v rule).setPolicy = rule.policy ∧
      (mkInjected resolved v rule).position = v.position + 1 / 100 ∧
      (mkInjected resolved v rule).triggers = [] ∧
      (∀ t, alookup rule.target resolved = some t →
        (mkInjected resolved v rule).required = t.required ∧
        (mkInjected resolved v rule).validator = t.validator ∧
        (mkInjected resolved v rule).validationRule = t.validationRule ∧
        (mkInjected resolved v rule).anchorName = t.anchorName ∧
        (mkInjected resolved v rule).description =
          (if t.description ≠ "" then t.description
           else "Triggered by " ++ v.name))) ∧
    (∀ (env : Env) (defs td : List (String × List EnvVariable)),
      collectTriggerDefinitions env (resolvePass env defs) = Except.ok td →
      resolverResolve env defs =
        Except.ok (if td = [] then resolvePass env defs
                   else resolvePass env (mergeDefs defs td))) ∧
    (∀ (env : Env) (resolved : List (String × EnvVariable))
        (res : List (String × List EnvVariable)),
      collectTriggerDefinitions env resolved = Except.ok res →
      ∀ p ∈ res, ∀ d ∈ p.2, d.triggers = []) := by
  refine ⟨?_, ?_, ?_, ?_⟩
  · intro env resolved n v rule res hmem hrule hfired hact hcollect
    exact collectGo_adds env resolved n v rule resolved [] res hmem hrule hfired
      hact hcollect
  · intro resolved v rule
    refine ⟨rfl, rfl, rfl, rfl, ?_⟩
    intro t ht
    simp only [mkInjected, ht]
    exact ⟨rfl, rfl, rfl, rfl, rfl⟩
  · intro env defs td hcollect
    unfold resolverResolve
    rw [hcollect]
    by_cases h : td = [] <;> simp [h]
  · intro env resolved res hcollect
    exact @collectGo_forall (fun d => d.triggers = []) env resolved
      (fun v rule => rfl) resolved [] res hcollect
      (fun p hp => absurd hp (List.not_mem_nil p))

/-- Witness for C4 (amended): the fired C4 trigger contributes its
synthesized definition. -/
theorem triggerInjectionAmendedWitness :
    ∃ ds, alookup "TGT" [("TGT", [c4Injected])] = some ds ∧
      mkInjected c4Resolved c4SrcVar c4Rule ∈ ds :=
  triggerInjectionAmended.1 [] c4Resolved "SRC" c4SrcVar c4Rule
    [("TGT", [c4Injected])] (by simp [c4Resolved]) (by simp [c4SrcVar])
    (Or.inl rfl) rfl rfl

namespace LayerManager

/-- `alookup` distributes over append. -/
theorem alookup_append {α : Type} (k : String) (l1 l2 : List (String × α)) :
    alookup k (l1 ++ l2) =
      match alookup k l1 with
      | some v => some v
      | none => alookup k l2 := by
  induction l1 with
  | nil => simp [alookup]
  | cons p rest ih =>
    obtain ⟨k', v⟩ := p
    by_cases h : k' = k
    · simp [alookup, h]
    · simp [alookup, h, ih]

/-- `addProvides` preserves existing scope-provider bindings. -/
theorem addProvides_preserve (layerName : String) :
    ∀ (ps : List String) (m m' : List (String × String)),
      addProvides layerName ps m = Except.ok m' →
      ∀ p l, alookup p m = some l → alookup p m' = some l := by
  intro ps
  induction ps with
  | nil =>
    intro m m' h p l hl
    simp only [addProvides] at h
    cases h
    exact hl
  | cons q qs ih =>
    intro m m' h p l hl
    simp only [addProvides] at h
    split at h
    · cases h
    · rename_i hq
      refine ih _ m' h p l ?_
      rw [alookup_append, hl]

/-- `addProvides` records every added capability for its layer. -/
theorem addProvides_new (layerName : String) :
    ∀ (ps : List String) (m m' : List (String × String)),
      addProvides layerName ps m = Except.ok m' →
      ∀ p ∈ ps, alookup p m' = some layerName := by
  intro ps
  induction ps with
  | nil =>
    intro m m' h p hp
    exact absurd hp (List.not_mem_nil p)
  | cons q qs ih =>
    intro m m' h p hp
    simp only [addProvides] at h
    split at h
    · cases h
    · rename_i hq
      rcases List.mem_cons.mp hp with rfl | hp'
      · refine addProvides_preserve layerName qs _ m' h p layerName ?_
        rw [alookup_append, hq]
        simp [alookup]
      · exact ih _ m' h p hp'

/-- The scope-conflict check preserves existing bindings. -/
theorem checkScope_preserve (layers : Layers) :
    ∀ (rest : List String) (m m' : List (String × String)),
      checkProviderConflictsInScope layers rest m = Except.ok m' →
      ∀ p l, alookup p m = some l → alookup p m' = some l := by
  intro rest
  induction rest with
  | nil =>
    intro m m' h p l hl
    simp only [checkProviderConflictsInScope] at h
    cases h
    exact hl
  | cons n ns ih =>
    intro m m' h p l hl
    simp only [checkProviderConflictsInScope] at h
    split at h
    · exact ih m m' h p l hl
    · rename_i info hinfo
      split at h
      · cases h
      · rename_i m1 hm1
        exact ih m1 m' h p l (addProvides_preserve n info.provides m m1 hm1 p l hl)

/-- After a successful scope-conflict check, every capability provided by a
layer in scope maps to that layer. -/
theorem checkScope_provides (layers : Layers) :
    ∀ (rest : List String) (m m' : List (String × String)),
      checkProviderConflictsInScope layers rest m = Except.ok m' →
      ∀ n ∈ rest, ∀ i, getLayerInfo layers n = some i →
        ∀ c ∈ i.provides, alookup c m' = some n := by
  intro rest
  induction rest with
  | nil =>
    intro m m' h n hn
    exact absurd hn (List.not_mem_nil n)
  | cons n0 ns ih =>
    intro m m' h n hn i hi c hc
    simp only [checkProviderConflictsInScope] at h
    split at h
    · rename_i hnone
      rcases List.mem_cons.mp hn with rfl | hn'
      · rw [hnone] at hi
        cases hi
      · exact ih m m' h n hn' i hi c hc
    · rename_i info hinfo
      split at h
      · cases h
      · rename_i m1 hm1
        rcases List.mem_cons.mp hn with rfl | hn'
        · rw [hinfo] at hi
          cases hi
          exact checkScope_preserve layers ns m1 m' h c n
            (addProvides_new n i.provides m m1 hm1 c hc)
        · exact ih m1 m' h n hn' i hi c hc

/-- Membership in `collectProvides`. -/
theorem collectProvides_mem (layers : Layers) (order : List String) (c : String) :
    c ∈ collectProvides layers order ↔
      ∃ n ∈ order, ∃ i, getLayerInfo layers n = some i ∧ c ∈ i.provides := by
  have general : ∀ (l : List String) (acc : List String),
      c ∈ l.foldl (fun acc n =>
        match getLayerInfo layers n with
        | none => acc
        | some info => acc ++ info.provides) acc ↔
      c ∈ acc ∨ ∃ n ∈ l, ∃ i, getLayerInfo layers n = some i ∧ c ∈ i.provides := by
    intro l
    induction l with
    | nil => simp
    | cons n ns ih =>
      intro acc
      simp only [List.foldl_cons]
      cases hinfo : getLayerInfo layers n with
      | none =>
        rw [ih]
        constructor
        · rintro (h | ⟨n', hn', i, hi, hc⟩)
          · exact Or.inl h
          · exact Or.inr ⟨n', List.mem_cons_of_mem _ hn', i, hi, hc⟩
        · rintro (h | ⟨n', hn', i, hi, hc⟩)
          · exact Or.inl h
          · rcases List.mem_cons.mp hn' with rfl | hn''
            · rw [hinfo] at hi
              cases hi
            · exact Or.inr ⟨n', hn'', i, hi, hc⟩
      | some info =>
        rw [ih]
        constructor
        · rintro (h | ⟨n', hn', i, hi, hc⟩)
          · rcases List.mem_append.mp h with h1 | h1
            · exact Or.inl h1
            · exact Or.inr ⟨n, List.mem_cons_self _ _, info, hinfo, h1⟩
          · exact Or.inr ⟨n', List.mem_cons_of_mem _ hn', i, hi, hc⟩
        · rintro (h | ⟨n', hn', i, hi, hc⟩)
          · exact Or.inl (List.mem_append_left _ h)
          · rcases List.mem_cons.mp hn' with rfl | hn''
            · rw [hinfo] at hi
              cases hi
              exact Or.inl (List.mem_append_right _ hc)
            · exact Or.inr ⟨n', hn'', i, hi, hc⟩
  have := general order []
  simpa [collectProvides] using this

/-- A successful per-layer provider check means every requirement is
available. -/
theorem checkLayerRPs_ok (layerName : String) (available : List String) :
    ∀ (rps : List String), checkLayerRPs layerName available rps = Except.ok () →
      ∀ rp ∈ rps, rp ∈ available := by
  intro rps
  induction rps with
  | nil =>
    intro _ rp hrp
    exact absurd hrp (List.not_mem_nil rp)
  | cons q qs ih =>
    intro h rp hrp
    simp only [checkLayerRPs] at h
    split at h
    · rcases List.mem_cons.mp hrp with rfl | hrp'
      · assumption
      · exact ih h rp hrp'
    · cases h

/-- A successful provider-requirement pass covers every layer in scope. -/
theorem checkRequiredProviders_ok (layers : Layers) (available : List String) :
    ∀ (order : List String),
      checkRequiredProviders layers available order = Except.ok () →
      ∀ n ∈ order, ∀ i, getLayerInfo layers n = some i →
        ∀ rp ∈ i.providerRequires, rp ∈ available := by
  intro order
  induction order with
  | nil =>
    intro _ n hn
    exact absurd hn (List.not_mem_nil n)
  | cons n0 ns ih =>
    intro h n hn i hi rp hrp
    simp only [checkRequiredProviders] at h
    split at h
    · rename_i hnone
      rcases List.mem_cons.mp hn with rfl | hn'
      · rw [hnone] at hi
        cases hi
      · exact ih h n hn' i hi rp hrp
    · rename_i info hinfo
      split at h
      · cases h
      · rename_i u hu
        cases u
        rcases List.mem_cons.mp hn with rfl | hn'
        · rw [hinfo] at hi
          cases hi
          exact checkLayerRPs_ok n available i.providerRequires hu rp hrp
        · exact ih h n hn' i hi rp hrp

end LayerManager

/-- C5: every build order returned by `get_build_order` satisfies the two
graph invariants (injective provider map within the order; every
`requires_provider` satisfied inside the order), and the two violating
scenarios raise the corresponding errors (scenario S3's message included). -/
theorem buildOrderInvariants :
    (∀ (layers : Layers) (loadErrors : List (String × String))
        (targets order : List String),
      getBuildOrder layers loadErrors targets = Except.ok order →
      (∀ n1 n2, n1 ∈ order → n2 ∈ order → n1 ≠ n2 →
        ∀ i1 i2 c, getLayerInfo layers n1 = some i1 →
          getLayerInfo layers n2 = some i2 →
          c ∈ i1.provides → c ∈ i2.provides → False) ∧
      (∀ n ∈ order, ∀ i, getLayerInfo layers n = some i →
        ∀ c ∈ i.providerRequires,
          ∃ n' ∈ order, ∃ i', getLayerInfo layers n' = some i' ∧
            c ∈ i'.provides)) ∧
    getBuildOrder s3Layers [] ["app"] =
      Except.error
        "Layer 'app' requires provider 'db' but no layer in the dependency chain provides it" ∧
    getBuildOrder dupLayers [] ["p1", "p2"] =
      Except.error "Provider conflict: 'cap' is provided by multiple layers: p1, p2" := by
  refine ⟨?_, rfl, rfl⟩
  intro layers loadErrors targets order h
  unfold getBuildOrder at h
  split at h
  · cases h
  · split at h
    · cases h
    · rename_i builtOrder hbuilt
      split at h
      · cases h
      · rename_i u hval
        cases u
        injection h with heq
        subst heq
        unfold validateProviderRequirements at hval
        split at hval
        · cases hval
        · rename_i m hscope
          constructor
          · intro n1 n2 hn1 hn2 hne i1 i2 c hi1 hi2 hc1 hc2
            have h1 := checkScope_provides layers builtOrder [] m hscope n1 hn1
              i1 hi1 c hc1
            have h2 := checkScope_provides layers builtOrder [] m hscope n2 hn2
              i2 hi2 c hc2
            rw [h1] at h2
            exact hne (Option.some.inj h2)
          · intro n hn i hi c hc
            have := checkRequiredProviders_ok layers
              (collectProvides layers builtOrder) builtOrder hval n hn i hi c hc
            rcases (collectProvides_mem layers builtOrder c).mp this with
              ⟨n', hn', i', hi', hc'⟩
            exact ⟨n', hn', i', hi', hc'⟩

/-- Once a layer is invalid, the result loop keeps it invalid. -/
theorem validateResultStep_false (ignore : Bool) (r : VResult) :
    validateResultStep ignore false r = false := by
  unfold validateResultStep
  repeat' split
  all_goals rfl

/-- A fold of the result loop from `false` stays `false`. -/
theorem foldl_validateResultStep_false (ignore : Bool) (l : List VResult) :
    l.foldl (validateResultStep ignore) false = false := by
  induction l with
  | nil => rfl
  | cons r rs ih =>
    simp only [List.foldl_cons, validateResultStep_false]
    exact ih

/-- With the strict default, a `missing_required_var` result fails the
whole layer. -/
theorem validateResults_false_of_missing (results : List VResult)
    (hmem : (⟨"missing_required_var", some false⟩ : VResult) ∈ results) :
    validateResults false results = false := by
  unfold validateResults
  induction results with
  | nil => exact absurd hmem (List.not_mem_nil _)
  | cons r rs ih =>
    simp only [List.foldl_cons]
    rcases List.mem_cons.mp hmem with rfl | hmem'
    · have : validateResultStep false true ⟨"missing_required_var", some false⟩ =
          false := by
        unfold validateResultStep
        simp
      rw [this]
      exact foldl_validateResultStep_false false rs
    · by_cases hstep : validateResultStep false true r = false
      · rw [hstep]
        exact foldl_validateResultStep_false false rs
      · rw [Bool.not_eq_false] at hstep
        rw [hstep]
        exact ih hmem'

/-- With `ignore_missing_required = true`, the required-variable results of
a `ReqLayer` never fail the loop. -/
theorem validateResults_ignore_true (layer : ReqLayer) (env : Env) :
    validateResults true (validateRequiredVariables layer env) = true := by
  unfold validateResults validateRequiredVariables
  have general : ∀ (vars : List String) (acc : Bool),
      (vars.map (fun reqVar =>
        match envGet env reqVar with
        | none => (⟨"missing_required_var", some false⟩ : VResult)
        | some _ => ⟨"required_no_validation", none⟩)).foldl
          (validateResultStep true) acc = acc := by
    intro vars
    induction vars with
    | nil => intro acc; rfl
    | cons v vs ih =>
      intro acc
      simp only [List.map_cons, List.foldl_cons]
      cases henv : envGet env v with
      | none =>
        have : validateResultStep true acc ⟨"missing_required_var", some false⟩ =
            acc := by
          unfold validateResultStep
          simp
        rw [this, ih]
      | some _ =>
        have : validateResultStep true acc ⟨"required_no_validation", none⟩ =
            acc := by
          unfold validateResultStep
          simp
        rw [this, ih]
  exact general layer.requiredVars true

/-- C3 counterexample: for a layer requiring `FOO` under an empty
environment the pre-apply validation of the pipeline fails — there is no
permissive first phase.  Passing `ignore_missing_required = true` (which
the pipeline never does) would have let the layer pass. -/
theorem validationPhasesCounterexample :
    pipelineValidateLayers c3Layers [] ["lay"] = false ∧
    validateLayer c3Layers [] "lay" false = false ∧
    validateLayer c3Layers [] "lay" true = true := ⟨rfl, rfl, rfl⟩

/-- C3 amended: layer validation before applying layers is a single strict
phase — `_validate_layers` validates each layer with
`ignore_missing_required` left at its default `false`, so a required
variable that is not yet set fails the run before triggers could inject
it; the permissive mode exists in `validate_layer`'s signature and would
accept such a layer, but the pipeline does not use it. -/
theorem validationSinglePhase :
    (∀ (layers : List (String × ReqLayer)) (env : Env) (names : List String),
      pipelineValidateLayers layers env names =
        names.all (fun n => validateLayer layers env n false)) ∧
    (∀ (layers : List (String × ReqLayer)) (env : Env) (name : String)
        (layer : ReqLayer) (req : String),
      alookup name layers = some layer → req ∈ layer.requiredVars →
      envGet env req = none → validateLayer layers env name false = false) ∧
    (∀ (layers : List (String × ReqLayer)) (env : Env) (name : String)
        (layer : ReqLayer),
      alookup name layers = some layer →
      validateLayer layers env name true = true) := by
  refine ⟨?_, ?_, ?_⟩
  · intro layers env names
    induction names with
    | nil => rfl
    | cons n ns ih =>
      simp only [pipelineValidateLayers, List.all_cons]
      cases hl : alookup n layers with
      | none =>
        have hv : validateLayer layers env n false = false := by
          unfold validateLayer
          rw [hl]
        simp [hl, hv]
      | some layer =>
        by_cases hv : validateLayer layers env n false = false
        · simp [hl, hv]
        · rw [Bool.not_eq_false] at hv
          simp [hl, hv, ih]
  · intro layers env name layer req hl hreq henv
    unfold validateLayer
    rw [hl]
    apply validateResults_false_of_missing
    unfold validateRequiredVariables
    refine List.mem_map.mpr ⟨req, hreq, ?_⟩
    rw [henv]
  · intro layers env name layer hl
    unfold validateLayer
    rw [hl]
    exact validateResults_ignore_true layer env

/-- Witness for C3 (amended): the strict phase fails on the missing
required variable and the unused permissive mode would pass. -/
theorem validationSinglePhaseWitness :
    validateLayer c3Layers [] "lay" false = false ∧
    validateLayer c3Layers [] "lay" true = true :=
  ⟨validationSinglePhase.2.1 c3Layers [] "lay" c3Layer "FOO" rfl
      (by simp [c3Layer]) rfl,
    validationSinglePhase.2.2 c3Layers [] "lay" c3Layer rfl⟩

/-- Witness for C5: a satisfiable two-layer order upholds both invariants. -/
theorem buildOrderInvariantsWitness :
    (∀ n1 n2, n1 ∈ ["dbl", "app2"] → n2 ∈ ["dbl", "app2"] → n1 ≠ n2 →
      ∀ i1 i2 c, getLayerInfo okLayers n1 = some i1 →
        getLayerInfo okLayers n2 = some i2 →
        c ∈ i1.provides → c ∈ i2.provides → False) ∧
    (∀ n ∈ ["dbl", "app2"], ∀ i, getLayerInfo okLayers n = some i →
      ∀ c ∈ i.providerRequires,
        ∃ n' ∈ ["dbl", "app2"], ∃ i', getLayerInfo okLayers n' = some i' ∧
          c ∈ i'.provides) :=
  buildOrderInvariants.1 okLayers [] ["app2"] ["dbl", "app2"] rfl

namespace EnvResolver

/-- `Char.toUpper` of a valid code point keeps its numeric value. -/
theorem charOfNat_toNat {n : Nat} (h : Nat.isValidChar n) :
    (Char.ofNat n).toNat = n := by
  unfold Char.ofNat
  split
  · rfl
  · rename_i h2
    exact absurd h h2

/-- `Char.toUpper` never yields a lowercase ASCII letter. -/
theorem toUpper_not_lower (c : Char) :
    (97 ≤ (Char.toUpper c).toNat && (Char.toUpper c).toNat ≤ 122) = false := by
  simp only [Char.toUpper]
  split
  · rename_i h
    have hrange : 97 ≤ c.toNat ∧ c.toNat ≤ 122 := h
    have hv : Nat.isValidChar (c.toNat - 32) := Or.inl (by omega)
    rw [charOfNat_toNat hv]
    simp only [Bool.and_eq_true, decide_eq_true_eq, Bool.and_eq_false_iff,
      decide_eq_false_iff_not]
    omega
  · rename_i h
    have hrange : ¬(97 ≤ c.toNat ∧ c.toNat ≤ 122) := h
    simp only [Bool.and_eq_true, decide_eq_true_eq, Bool.and_eq_false_iff,
      decide_eq_false_iff_not]
    omega

/-- The output of `normalize` is a normalized key. -/
theorem normalize_isNormKey (s k : String) (h : normalize s = Except.ok k) :
    isNormKey k = true := by
  unfold normalize at h
  split at h
  · cases h
  · have hk : k = pyUpper (if (pyStrip s).data.head? = some '@' then pyStrip s
        else "@" ++ pyStrip s) := by
      cases h
      rfl
    have hhead : (if (pyStrip s).data.head? = some '@' then pyStrip s
        else "@" ++ pyStrip s).data.head? = some '@' := by
      split
      · assumption
      · rfl
    unfold isNormKey
    rw [hk]
    apply Bool.and_eq_true_iff.mpr
    constructor
    · have : (pyUpper (if (pyStrip s).data.head? = some '@' then pyStrip s
          else "@" ++ pyStrip s)).data =
          ((if (pyStrip s).data.head? = some '@' then pyStrip s
          else "@" ++ pyStrip s)).data.map Char.toUpper := rfl
      rw [this, List.head?_map, hhead]
      simp
    · apply List.all_eq_true.mpr
      intro c hc
      have : (pyUpper (if (pyStrip s).data.head? = some '@' then pyStrip s
          else "@" ++ pyStrip s)).data =
          ((if (pyStrip s).data.head? = some '@' then pyStrip s
          else "@" ++ pyStrip s)).data.map Char.toUpper := rfl
      rw [this] at hc
      obtain ⟨c0, _, rfl⟩ := List.mem_map.mp hc
      simp only [toUpper_not_lower]
      rfl

/-- `dictSet` with a normalized key preserves registry normalization. -/
theorem dictSet_regNorm (reg : Registry) (k : String) (v : AnchorEntry)
    (hreg : RegNorm reg) (hk : isNormKey k = true) :
    RegNorm (dictSet reg k v) := by
  induction reg with
  | nil =>
    intro p hp
    simp only [dictSet, List.mem_singleton] at hp
    rw [hp]
    exact hk
  | cons q rest ih =>
    intro p hp
    obtain ⟨k', v'⟩ := q
    simp only [dictSet] at hp
    split at hp
    · rcases List.mem_cons.mp hp with rfl | hp'
      · exact hreg (k', v') (List.mem_cons_self _ _)
      · exact hreg p (List.mem_cons_of_mem _ hp')
    · rcases List.mem_cons.mp hp with rfl | hp'
      · exact hreg (k', v') (List.mem_cons_self _ _)
      · exact ih (fun q hq => hreg q (List.mem_cons_of_mem _ hq)) p hp'

/-- `setdefault` with a normalized key preserves normalization. -/
theorem registrySetdefault_regNorm (reg : Registry) (norm : String)
    (hreg : RegNorm reg) (hk : isNormKey norm = true) :
    RegNorm (registrySetdefault reg norm) := by
  unfold registrySetdefault
  split
  · exact hreg
  · intro p hp
    rcases List.mem_append.mp hp with h | h
    · exact hreg p h
    · simp only [List.mem_singleton] at h
      rw [h]
      exact hk

/-- `registryUpdate` keeps the key set, hence normalization. -/
theorem registryUpdate_regNorm (reg : Registry) (norm : String)
    (f : AnchorEntry → AnchorEntry) (hreg : RegNorm reg) :
    RegNorm (registryUpdate reg norm f) := by
  intro p hp
  obtain ⟨q, hq, hpq⟩ := List.mem_map.mp hp
  have : p.1 = q.1 := by
    rw [← hpq]
    split <;> rfl
  rw [this]
  exact hreg q hq

/-- `mark_usage` preserves registry normalization. -/
theorem markUsage_regNorm (reg : Registry) (a o : String) (reg' : Registry)
    (hreg : RegNorm reg) (h : markUsage reg a o = Except.ok reg') :
    RegNorm reg' := by
  unfold markUsage at h
  split at h
  · cases h
  · rename_i norm hnorm
    cases h
    exact registryUpdate_regNorm _ _ _
      (registrySetdefault_regNorm reg norm hreg (normalize_isNormKey a norm hnorm))

/-- `register` preserves registry normalization. -/
theorem registryRegister_regNorm (reg : Registry) (a : String)
    (vn : Option String) (reg' : Registry) (hreg : RegNorm reg)
    (h : registryRegister reg a vn = Except.ok reg') : RegNorm reg' := by
  unfold registryRegister at h
  split at h
  · cases h
  · rename_i norm hnorm
    have hsd := registrySetdefault_regNorm reg norm hreg
      (normalize_isNormKey a norm hnorm)
    split at h
    · cases h
      exact hsd
    · split at h
      · cases h
        exact hsd
      · dsimp only at h
        split at h
        · cases h
        · cases h
          exact registryUpdate_regNorm _ _ _ hsd

/-- `set_value` preserves registry normalization. -/
theorem registrySetValue_regNorm (reg : Registry) (a v : String)
    (reg' : Registry) (hreg : RegNorm reg)
    (h : registrySetValue reg a v = Except.ok reg') : RegNorm reg' := by
  unfold registrySetValue at h
  split at h
  · cases h
  · rename_i norm hnorm
    cases h
    exact registryUpdate_regNorm _ _ _
      (registrySetdefault_regNorm reg norm hreg (normalize_isNormKey a norm hnorm))

/-- `capture_values` keeps the key set, hence normalization. -/
theorem captureValues_regNorm (reg : Registry) (vals : List (String × String))
    (hreg : RegNorm reg) : RegNorm (captureValues reg vals) := by
  intro p hp
  obtain ⟨q, hq, hpq⟩ := List.mem_map.mp hp
  have : p.1 = q.1 := by
    rw [← hpq]
    cases hv : q.2.var with
    | none => rfl
    | some target =>
      split
      · split
        · split <;> rfl
        · rfl
      · rfl
  rw [this]
  exact hreg q hq

/-- Registry construction from a preloaded manifest normalizes every key. -/
theorem registryInitGo_regNorm :
    ∀ (initial : List (String × PreloadEntry)) (reg reg' : Registry),
      RegNorm reg → registryInitGo initial reg = Except.ok reg' →
      RegNorm reg' := by
  intro initial
  induction initial with
  | nil =>
    intro reg reg' hreg h
    simp only [registryInitGo] at h
    cases h
    exact hreg
  | cons p rest ih =>
    intro reg reg' hreg h
    obtain ⟨name, e⟩ := p
    simp only [registryInitGo] at h
    split at h
    · cases h
    · rename_i norm hnorm
      have hk := normalize_isNormKey name norm hnorm
      split at h
      · exact ih _ reg' (dictSet_regNorm reg norm _ hreg hk) h
      · exact ih _ reg' (dictSet_regNorm reg norm _ hreg hk) h

/-- Membership in a key-ordered insertion. -/
theorem insertByKey_mem {α : Type} (x y : String × α) (l : List (String × α)) :
    y ∈ insertByKey x l ↔ y = x ∨ y ∈ l := by
  induction l with
  | nil => simp [insertByKey]
  | cons z rest ih =>
    simp only [insertByKey]
    split
    · simp only [List.mem_cons, ih]
      tauto
    · exact List.mem_cons

/-- Key-ordered insertion preserves key-sortedness. -/
theorem insertByKey_sorted {α : Type} (x : String × α) (l : List (String × α))
    (h : l.Pairwise (fun a b => a.1 ≤ b.1)) :
    (insertByKey x l).Pairwise (fun a b => a.1 ≤ b.1) := by
  induction l with
  | nil => simp [insertByKey]
  | cons z rest ih =>
    simp only [insertByKey]
    rcases List.pairwise_cons.mp h with ⟨hz, hrest⟩
    split
    · rename_i hle
      apply List.pairwise_cons.mpr
      refine ⟨?_, ih hrest⟩
      intro a ha
      rcases (insertByKey_mem x a rest).mp ha with rfl | ha'
      · exact hle
      · exact hz a ha'
    · rename_i hnle
      apply List.pairwise_cons.mpr
      constructor
      · intro a ha
        have hxz : x.1 ≤ z.1 := le_of_not_le hnle
        rcases List.mem_cons.mp ha with rfl | ha'
        · exact hxz
        · exact le_trans hxz (hz a ha')
      · exact h

/-- `sortByKey` sorts by key. -/
theorem sortByKey_sorted {α : Type} (l : List (String × α)) :
    (sortByKey l).Pairwise (fun a b => a.1 ≤ b.1) := by
  unfold sortByKey
  have general : ∀ (l : List (String × α)) (acc : List (String × α)),
      acc.Pairwise (fun a b => a.1 ≤ b.1) →
      (l.foldl (fun acc x => insertByKey x acc) acc).Pairwise
        (fun a b => a.1 ≤ b.1) := by
    intro l
    induction l with
    | nil => exact fun acc h => h
    | cons x xs ih =>
      intro acc h
      exact ih _ (insertByKey_sorted x acc h)
  exact general l [] (List.Pairwise.nil)

/-- `sortByKey` is a permutation of its input. -/
theorem sortByKey_perm {α : Type} (l : List (String × α)) :
    (sortByKey l).Perm l := by
  unfold sortByKey
  have hins : ∀ (x : String × α) (acc : List (String × α)),
      (insertByKey x acc).Perm (x :: acc) := by
    intro x acc
    induction acc with
    | nil => simp [insertByKey]
    | cons z rest ih =>
      simp only [insertByKey]
      split
      · exact (List.Perm.cons z ih).trans (List.Perm.swap x z rest)
      · exact List.Perm.refl _
  have general : ∀ (l acc : List (String × α)),
      (l.foldl (fun acc x => insertByKey x acc) acc).Perm (l.reverse ++ acc) := by
    intro l
    induction l with
    | nil => simp
    | cons x xs ih =>
      intro acc
      simp only [List.foldl_cons, List.reverse_cons, List.append_assoc,
        List.singleton_append]
      exact (ih _).trans (List.Perm.append_left _ (hins x acc))
  have := general l []
  simp only [List.append_nil] at this
  exact this.trans (List.reverse_perm l)

/-- C8: every anchor key stored in an `AnchorRegistry` — at construction and
through `register`, `mark_usage`, `set_value` and `capture_values` — starts
with a leading `'@'` and contains no lowercase ASCII letter (it is
case-normalized to upper case); the manifest payload is sorted by anchor
name and enumerates exactly the registry's anchors; a missing `var` or
`value` field is serialized as `null` in the anchor's JSON object; and the
manifest content produced by `write_anchor_manifest` ends with a trailing
newline. -/
theorem anchorRegistryInvariants :
    (∀ initial reg, registryInit initial = Except.ok reg → RegNorm reg) ∧
    (∀ reg a o reg', RegNorm reg → markUsage reg a o = Except.ok reg' →
      RegNorm reg') ∧
    (∀ reg a vn reg', RegNorm reg →
      registryRegister reg a vn = Except.ok reg' → RegNorm reg') ∧
    (∀ reg a v reg', RegNorm reg →
      registrySetValue reg a v = Except.ok reg' → RegNorm reg') ∧
    (∀ reg vals, RegNorm reg → RegNorm (captureValues reg vals)) ∧
    (∀ reg, (toPayload reg).Pairwise (fun p q => p.1 ≤ q.1)) ∧
    (∀ reg, (toPayload reg).Perm
      (reg.map (fun p => (p.1, (p.2.var, p.2.value))))) ∧
    (∀ name var, renderAnchorEntry name var none =
      "    " ++ jsonString name ++ ": \x7b\n      \"value\": " ++ "null" ++
        ",\n      \"var\": " ++ jsonOptString var ++ "\n    \x7d") ∧
    (∀ name value, renderAnchorEntry name none value =
      "    " ++ jsonString name ++ ": \x7b\n      \"value\": " ++
        jsonOptString value ++ ",\n      \"var\": " ++ "null" ++
        "\n    \x7d") ∧
    (∀ reg vals, ∃ body, (writeAnchorManifest reg vals).2 = body ++ "\n") := by
  refine ⟨?_, ?_, ?_, ?_, ?_, ?_, ?_, ?_, ?_, ?_⟩
  · intro initial reg h
    cases initial with
    | none =>
      cases h
      intro p hp
      cases hp
    | some l =>
      exact registryInitGo_regNorm l [] reg
        (fun p hp => absurd hp (List.not_mem_nil p)) h
  · exact fun reg a o reg' hreg h => markUsage_regNorm reg a o reg' hreg h
  · exact fun reg a vn reg' hreg h =>
      registryRegister_regNorm reg a vn reg' hreg h
  · exact fun reg a v reg' hreg h =>
      registrySetValue_regNorm reg a v reg' hreg h
  · exact fun reg vals hreg => captureValues_regNorm reg vals hreg
  · exact fun reg => sortByKey_sorted _
  · exact fun reg => sortByKey_perm _
  · intro name var
    rfl
  · intro name value
    rfl
  · intro reg vals
    exact ⟨renderManifest (toPayload (writeAnchorManifest reg vals).1), rfl⟩

/-- Witness for C8: registering a usage of anchor `a` on an empty registry
stores it under the normalized key `@A`. -/
theorem anchorRegistryInvariants_witness :
    markUsage [] "a" "o" =
      Except.ok [("@A", (⟨none, none, ["o"]⟩ : AnchorEntry))] ∧
    RegNorm [("@A", (⟨none, none, ["o"]⟩ : AnchorEntry))] :=
  ⟨rfl, anchorRegistryInvariants.2.1 [] "a" "o"
    [("@A", ⟨none, none, ["o"]⟩)]
    (fun p hp => absurd hp (List.not_mem_nil p)) rfl⟩

/-- C10: a name that is absent from the assignment map but present in the
external context resolves to the external value verbatim and with the
resolver state completely unchanged — so the value is not expanded, not
memoized in the cache, and the name never enters the resolution stack —
whereas a name found in the assignment map is always expanded: the resolver
pushes it on the stack, records the expansion, and the result state is
exactly the state of expanding the scanned chunks of the raw value. -/
theorem externalContextVerbatim :
    (∀ cfg s name v fuel,
      alookup name s.cache = none → name ∉ s.stack →
      alookup name cfg.assignments = none →
      alookup name cfg.externalContext = some v →
      resolveVar cfg fuel s name = (s, Except.ok v)) ∧
    (∀ cfg s name raw fuel,
      alookup name s.cache = none → name ∉ s.stack →
      alookup name cfg.assignments = some raw →
      (resolveVar cfg (fuel + 1) s name).1.expansions =
        (expandChunks cfg fuel
          { s with stack := s.stack ++ [name],
                   expansions := s.expansions ++ [name] }
          name (scanChunks raw.data)).1.expansions) := by
  constructor
  · intro cfg s name v fuel hc hs ha he
    unfold resolveVar
    rw [hc]
    dsimp only
    rw [if_neg hs, ha]
    dsimp only
    rw [he]
  · intro cfg s name raw fuel hc hs ha
    unfold resolveVar
    rw [hc]
    dsimp only
    rw [if_neg hs, ha]
    dsimp only
    split
    · rename_i s2 v heq
      rw [heq]
    · rename_i s2 e heq
      rw [heq]

/-- Witness for C10 on `c10Cfg`: `B` lives only in the external context and
comes back verbatim (a reference-looking value, unexpanded, state
untouched); `A` lives in the assignment map and is expanded. -/
theorem externalContextVerbatim_witness :
    resolveVar c10Cfg 5 initResolverState "B" =
      (initResolverState, Except.ok (refText "NOPE")) ∧
    (resolveVar c10Cfg (4 + 1) initResolverState "A").1.expansions =
      (expandChunks c10Cfg 4
        { initResolverState with
            stack := initResolverState.stack ++ ["A"],
            expansions := initResolverState.expansions ++ ["A"] }
        "A" (scanChunks ("x").data)).1.expansions :=
  ⟨externalContextVerbatim.1 c10Cfg initResolverState "B" (refText "NOPE") 5
      rfl (List.not_mem_nil "B") rfl rfl,
   externalContextVerbatim.2 c10Cfg initResolverState "A" "x" 4
      rfl (List.not_mem_nil "A") rfl⟩

/-- String append concatenates the underlying character lists. -/
theorem strData_append (a b : String) : (a ++ b).data = a.data ++ b.data := rfl


/-- Rebuilding a string from its own characters is the identity. -/
theorem string_mk_data (s : String) : String.mk s.data = s := rfl

/-- `dropWhile` is the identity when no element satisfies the predicate. -/
theorem dropWhile_eq_self_of_all {p : Char → Bool} (cs : List Char)
    (h : ∀ c ∈ cs, p c = false) : cs.dropWhile p = cs := by
  induction cs with
  | nil => rfl
  | cons c rest ih =>
    simp [List.dropWhile_cons, h c (List.mem_cons_self c rest),
      ih (fun c' hc' => h c' (List.mem_cons_of_mem c hc'))]

/-- Stripping a space-free character list is the identity. -/
theorem pyStripL_eq_self (cs : List Char)
    (h : ∀ c ∈ cs, isPySpace c = false) : pyStripL cs = cs := by
  unfold pyStripL
  rw [dropWhile_eq_self_of_all cs h]
  rw [dropWhile_eq_self_of_all cs.reverse
    (fun c hc => h c (List.mem_reverse.mp hc))]
  exact List.reverse_reverse cs

/-- Stripping a space-free string is the identity. -/
theorem pyStrip_eq_self (s : String) (h : ∀ c ∈ s.data, isPySpace c = false) :
    pyStrip s = s := by
  unfold pyStrip
  rw [pyStripL_eq_self s.data h]

/-- A word character (alphanumeric or underscore) is not whitespace, not a
closing brace, and not an `@`. -/
theorem plainChar_facts (c : Char) (h : (c.isAlphanum || c = '_') = true) :
    isPySpace c = false ∧ c ≠ '}' ∧ c ≠ '@' := by
  refine ⟨?_, ?_, ?_⟩
  · cases hx : isPySpace c with
    | false => rfl
    | true =>
      have : c = ' ' ∨ c = '\t' ∨ c = '\n' ∨ c = '\x0b' ∨ c = '\x0c' ∨
          c = '\r' := by
        simpa [isPySpace, decide_eq_true_eq] using hx
      rcases this with rfl | rfl | rfl | rfl | rfl | rfl <;>
        exact absurd h (by decide)
  · intro hc
    subst hc
    exact absurd h (by decide)
  · intro hc
    subst hc
    exact absurd h (by decide)

/-- A string matching the `_VALID_VAR` regex is nonempty, strip-invariant,
does not start with `@`, and contains no closing brace. -/
theorem isValidVar_facts (s : String) (h : isValidVar s = true) :
    s ≠ "" ∧ pyStrip s = s ∧ s.data.head? ≠ some '@' ∧
    s.data ≠ [] ∧ ∀ c ∈ s.data, c ≠ '}' := by
  unfold isValidVar at h
  cases hd : s.data with
  | nil =>
    rw [hd] at h
    cases h
  | cons c0 rest =>
    rw [hd] at h
    simp only [Bool.and_eq_true] at h
    obtain ⟨hhead, hrest⟩ := h
    have hall : ∀ c ∈ c0 :: rest, (c.isAlphanum || c = '_') = true := by
      intro c hc
      rcases List.mem_cons.mp hc with rfl | hcr
      · have hh := hhead
        simp only [Bool.or_eq_true] at hh ⊢
        rcases hh with ha | hu
        · left
          simp [Char.isAlphanum, ha]
        · right
          exact hu
      · exact List.all_eq_true.mp hrest c hcr
    have hfacts := fun c hc => plainChar_facts c (hall c hc)
    refine ⟨?_, ?_, ?_, ?_, ?_⟩
    · intro hs
      rw [hs] at hd
      have hnil : ([] : List Char) = c0 :: rest := hd
      cases hnil
    · apply pyStrip_eq_self
      intro c hc
      rw [hd] at hc
      exact (hfacts c hc).1
    · intro hh
      simp only [List.head?_cons] at hh
      injection hh with hh
      exact (hfacts c0 (List.mem_cons_self c0 rest)).2.2 hh
    · exact List.cons_ne_nil c0 rest
    · intro c hc
      exact (hfacts c hc).2.1

/-- `takeWhile` up to the first closing brace takes the brace-free prefix. -/
theorem takeWhile_ne_brace (cs tail : List Char) (h : ∀ c ∈ cs, c ≠ '}') :
    (cs ++ '}' :: tail).takeWhile (fun c => c ≠ '}') = cs := by
  induction cs with
  | nil => simp [List.takeWhile_cons]
  | cons c rest ih =>
    have hc := h c (List.mem_cons_self c rest)
    rw [List.cons_append, List.takeWhile_cons, if_pos (by simpa using hc)]
    rw [ih (fun c' hc' => h c' (List.mem_cons_of_mem c hc'))]

/-- The scanner consumes the empty input. -/
theorem scanChunks_nil : scanChunks [] = [] := by
  rw [scanChunks]

/-- The `_VAR_PATTERN` scan of `$\x7bname\x7d` followed by anything, for a
brace-free nonempty `name`, emits one reference chunk and scans on. -/
theorem scanChunks_refText_append (b : String) (cs : List Char)
    (hne : b.data ≠ []) (hnb : ∀ c ∈ b.data, c ≠ '}') :
    scanChunks ((refText b).data ++ cs) = Chunk.ref b :: scanChunks cs := by
  have hdata : (refText b).data ++ cs = '$' :: '{' :: (b.data ++ '}' :: cs) := by
    show (("$\x7b" ++ b) ++ "\x7d").data ++ cs = _
    rw [strData_append, strData_append, List.append_assoc, List.append_assoc]
    rfl
  rw [hdata]
  rw [scanChunks]
  rw [takeWhile_ne_brace b.data cs hnb]
  rw [if_neg]
  · rw [string_mk_data]
    have hdrop : (b.data ++ '}' :: cs).drop (b.data.length + 1) = cs := by
      have h1 : b.data ++ '}' :: cs = (b.data ++ ['}']) ++ cs := by
        rw [List.append_assoc]
        rfl
      have h2 : b.data.length + 1 = (b.data ++ ['}']).length := by
        simp
      rw [h1, h2, List.drop_left]
    rw [hdrop]
  · simp only [List.length_append, List.length_cons, not_or]
    constructor
    · intro hlen
      exact hne (List.eq_nil_of_length_eq_zero hlen)
    · omega

/-- The scan of a single reference `$\x7bname\x7d`. -/
theorem scanChunks_refText (b : String) (hne : b.data ≠ [])
    (hnb : ∀ c ∈ b.data, c ≠ '}') :
    scanChunks (refText b).data = [Chunk.ref b] := by
  have h := scanChunks_refText_append b [] hne hnb
  rw [List.append_nil] at h
  rw [h, scanChunks_nil]

/-- Looking up the key just written by `dictSet` yields the new value. -/
theorem alookup_dictSet_self {α : Type} (l : List (String × α)) (k : String)
    (v : α) : alookup k (dictSet l k v) = some v := by
  induction l with
  | nil => simp [dictSet, alookup]
  | cons p rest ih =>
    obtain ⟨k', v'⟩ := p
    simp only [dictSet]
    split
    · rename_i hk
      simp [alookup, hk]
    · rename_i hk
      simp [alookup, hk, ih]

/-- `resolve` on a name already on the resolution stack raises the circular
reference error with the chain joined by arrows. -/
theorem resolveVar_cycle (cfg : ResolverConfig) (fuel : Nat)
    (s : ResolverState) (name : String)
    (hc : alookup name s.cache = none) (hs : name ∈ s.stack) :
    resolveVar cfg fuel s name =
      (s, Except.error (ResolveErr.circular
        ("Circular reference detected: " ++
          joinSep " -> " (s.stack ++ [name])))) := by
  unfold resolveVar
  rw [hc]
  dsimp only
  rw [if_pos hs]

/-- `resolve` on a fully unknown name (not cached, not on the stack, not in
the assignment map, not in the external context) raises
`UndefinedVariableError`. -/
theorem resolveVar_undefined (cfg : ResolverConfig) (fuel : Nat)
    (s : ResolverState) (name : String)
    (hc : alookup name s.cache = none) (hs : name ∉ s.stack)
    (ha : alookup name cfg.assignments = none)
    (he : alookup name cfg.externalContext = none) :
    resolveVar cfg fuel s name =
      (s, Except.error (ResolveErr.undefined
        ("Undefined variable '" ++ name ++ "'"))) := by
  unfold resolveVar
  rw [hc]
  dsimp only
  rw [if_neg hs, ha]
  dsimp only
  rw [he]

/-- Expanding a reference chunk to a plain valid name propagates a
resolution error of that name unchanged, whatever follows. -/
theorem expandChunks_refCons_error (cfg : ResolverConfig) (fuel : Nat)
    (s s' : ResolverState) (cv tok : String) (rest : List Chunk)
    (e : ResolveErr)
    (hv : isValidVar tok = true) (hstrip : pyStrip tok = tok)
    (hne : tok ≠ "") (hat : tok.data.head? ≠ some '@')
    (hres : resolveVar cfg fuel s tok = (s', Except.error e)) :
    expandChunks cfg (fuel + 1) s cv (Chunk.ref tok :: rest) =
      (s', Except.error e) := by
  unfold expandChunks
  dsimp only
  rw [hstrip]
  rw [if_neg hne, if_neg hat, if_neg (not_not_intro hv)]
  rw [hres]

/-- `resolve` on an assignment-map name whose expansion fails pops the
stack and propagates the error. -/
theorem resolveVar_assign_error (cfg : ResolverConfig) (fuel : Nat)
    (s s2 : ResolverState) (name raw : String) (e : ResolveErr)
    (hc : alookup name s.cache = none) (hs : name ∉ s.stack)
    (ha : alookup name cfg.assignments = some raw)
    (hexp : expandChunks cfg fuel
      { s with stack := s.stack ++ [name],
               expansions := s.expansions ++ [name] }
      name (scanChunks raw.data) = (s2, Except.error e)) :
    resolveVar cfg (fuel + 1) s name =
      ({ s2 with stack := s2.stack.dropLast }, Except.error e) := by
  unfold resolveVar
  rw [hc]
  dsimp only
  rw [if_neg hs, ha]
  dsimp only
  rw [hexp]

/-- C6 counterexample: in `c6Cfg` the variable `A` participates in the
reference cycle `A -> B -> A` (its value references `B`, whose value
references `A`), yet resolving `A` raises `UndefinedVariableError` for the
undefined `U` referenced before `B` — not `CircularReferenceError`. -/
theorem cycleDetectionCounterexample :
    alookup "A" c6Cfg.assignments = some (refText "U" ++ refText "B") ∧
    alookup "B" c6Cfg.assignments = some (refText "A") ∧
    (resolveVar c6Cfg 10 initResolverState "A").2 =
      Except.error (ResolveErr.undefined "Undefined variable 'U'") := by
  refine ⟨rfl, rfl, ?_⟩
  have hU : resolveVar c6Cfg 8 ⟨[], [], ["A"], ["A"]⟩ "U" =
      (⟨[], [], ["A"], ["A"]⟩, Except.error (ResolveErr.undefined
        "Undefined variable 'U'")) :=
    resolveVar_undefined c6Cfg 8 ⟨[], [], ["A"], ["A"]⟩ "U" rfl
      (by decide) rfl rfl
  have hexp : expandChunks c6Cfg 9 ⟨[], [], ["A"], ["A"]⟩ "A"
      [Chunk.ref "U", Chunk.ref "B"] =
      (⟨[], [], ["A"], ["A"]⟩, Except.error (ResolveErr.undefined
        "Undefined variable 'U'")) :=
    expandChunks_refCons_error c6Cfg 8 ⟨[], [], ["A"], ["A"]⟩
      ⟨[], [], ["A"], ["A"]⟩ "A" "U" [Chunk.ref "B"]
      (ResolveErr.undefined "Undefined variable 'U'")
      rfl rfl (by decide) (by decide) hU
  have hscan : scanChunks ((refText "U" ++ refText "B")).data =
      [Chunk.ref "U", Chunk.ref "B"] := by
    rw [strData_append]
    rw [scanChunks_refText_append "U" (refText "B").data (by decide)
      (by decide)]
    rw [scanChunks_refText "B" (by decide) (by decide)]
  have hexpFull : expandChunks c6Cfg 9
      { initResolverState with
          stack := initResolverState.stack ++ ["A"],
          expansions := initResolverState.expansions ++ ["A"] } "A"
      (scanChunks ((refText "U" ++ refText "B")).data) =
      (⟨[], [], ["A"], ["A"]⟩, Except.error (ResolveErr.undefined
        "Undefined variable 'U'")) := by
    rw [hscan]
    exact hexp
  have hA : resolveVar c6Cfg 10 initResolverState "A" =
      (⟨[], [], (["A"] : List String).dropLast, ["A"]⟩,
        Except.error (ResolveErr.undefined "Undefined variable 'U'")) :=
    resolveVar_assign_error c6Cfg 9 initResolverState
      ⟨[], [], ["A"], ["A"]⟩ "A" (refText "U" ++ refText "B")
      (ResolveErr.undefined "Undefined variable 'U'") rfl
      (List.not_mem_nil "A") rfl hexpFull
  rw [hA]

/-- C6 amended: for a direct two-variable cycle `a = $\x7bb\x7d`,
`b = $\x7ba\x7d` over valid distinct names — whatever the external context
and anchor mode — resolving `a` with enough fuel raises
`CircularReferenceError` whose message is the chain `a -> b -> a` joined by
arrows; moreover resolution is memoized: a cached name is answered from the
cache with the state untouched, and a fresh successful resolution writes
its value into the cache, where it is then found. -/
theorem cycleDetectionAmended :
    (∀ a b ext pa f, a ≠ b → isValidVar a = true → isValidVar b = true →
      (resolveVar ⟨[(a, refText b), (b, refText a)], ext, pa⟩ (f + 4)
        initResolverState a).2 =
        Except.error (ResolveErr.circular
          ("Circular reference detected: " ++
            joinSep " -> " [a, b, a]))) ∧
    (∀ cfg s name v fuel, alookup name s.cache = some v →
      resolveVar cfg fuel s name = (s, Except.ok v)) ∧
    (∀ cfg s name raw fuel s2 v,
      alookup name s.cache = none → name ∉ s.stack →
      alookup name cfg.assignments = some raw →
      expandChunks cfg fuel
        { s with stack := s.stack ++ [name],
                 expansions := s.expansions ++ [name] }
        name (scanChunks raw.data) = (s2, Except.ok v) →
      resolveVar cfg (fuel + 1) s name =
        ({ s2 with stack := s2.stack.dropLast,
                   cache := dictSet s2.cache name v }, Except.ok v) ∧
      alookup name (dictSet s2.cache name v) = some v) := by
  refine ⟨?_, ?_, ?_⟩
  · intro a b ext pa f hne hva hvb
    obtain ⟨ha1, ha2, ha3, ha4, ha5⟩ := isValidVar_facts a hva
    obtain ⟨hb1, hb2, hb3, hb4, hb5⟩ := isValidVar_facts b hvb
    have hcycle : resolveVar ⟨[(a, refText b), (b, refText a)], ext, pa⟩ f
        ⟨[], [], [a, b], [a, b]⟩ a =
        (⟨[], [], [a, b], [a, b]⟩, Except.error (ResolveErr.circular
          ("Circular reference detected: " ++
            joinSep " -> " ([a, b] ++ [a])))) :=
      resolveVar_cycle _ f ⟨[], [], [a, b], [a, b]⟩ a rfl
        (List.mem_cons_self a [b])
    have hexpB : expandChunks ⟨[(a, refText b), (b, refText a)], ext, pa⟩
        (f + 1) ⟨[], [], [a, b], [a, b]⟩ b [Chunk.ref a] =
        (⟨[], [], [a, b], [a, b]⟩, Except.error (ResolveErr.circular
          ("Circular reference detected: " ++
            joinSep " -> " ([a, b] ++ [a])))) :=
      expandChunks_refCons_error _ f ⟨[], [], [a, b], [a, b]⟩
        ⟨[], [], [a, b], [a, b]⟩ b a [] _ hva ha2 ha1 ha3 hcycle
    have hresB : resolveVar ⟨[(a, refText b), (b, refText a)], ext, pa⟩
        (f + 2) ⟨[], [], [a], [a]⟩ b =
        (⟨[], [], ([a, b] : List String).dropLast, [a, b]⟩,
          Except.error (ResolveErr.circular
            ("Circular reference detected: " ++
              joinSep " -> " ([a, b] ++ [a])))) := by
      refine resolveVar_assign_error _ (f + 1) ⟨[], [], [a], [a]⟩
        ⟨[], [], [a, b], [a, b]⟩ b (refText a) _ rfl ?_ ?_ ?_
      · intro hmem
        rcases List.mem_singleton.mp hmem with rfl
        exact hne rfl
      · simp [alookup, hne]
      · rw [scanChunks_refText a ha4 ha5]
        exact hexpB
    have hexpA : expandChunks ⟨[(a, refText b), (b, refText a)], ext, pa⟩
        (f + 3) ⟨[], [], [a], [a]⟩ a [Chunk.ref b] =
        (⟨[], [], ([a, b] : List String).dropLast, [a, b]⟩,
          Except.error (ResolveErr.circular
            ("Circular reference detected: " ++
              joinSep " -> " ([a, b] ++ [a])))) :=
      expandChunks_refCons_error _ (f + 2) ⟨[], [], [a], [a]⟩
        ⟨[], [], ([a, b] : List String).dropLast, [a, b]⟩ a b [] _
        hvb hb2 hb1 hb3 hresB
    have hresA : resolveVar ⟨[(a, refText b), (b, refText a)], ext, pa⟩
        (f + 4) initResolverState a =
        ({ (⟨[], [], ([a, b] : List String).dropLast, [a, b]⟩ :
              ResolverState) with
            stack := (([a, b] : List String).dropLast).dropLast },
          Except.error (ResolveErr.circular
            ("Circular reference detected: " ++
              joinSep " -> " ([a, b] ++ [a])))) := by
      refine resolveVar_assign_error _ (f + 3) initResolverState
        ⟨[], [], ([a, b] : List String).dropLast, [a, b]⟩ a (refText b) _
        rfl (List.not_mem_nil a) ?_ ?_
      · simp [alookup]
      · rw [scanChunks_refText b hb4 hb5]
        exact hexpA
    rw [hresA]
    simp only [List.cons_append, List.nil_append]
  · intro cfg s name v fuel hcache
    unfold resolveVar
    rw [hcache]
  · intro cfg s name raw fuel s2 v hc hs ha hexp
    constructor
    · unfold resolveVar
      rw [hc]
      dsimp only
      rw [if_neg hs, ha]
      dsimp only
      rw [hexp]
    · exact alookup_dictSet_self s2.cache name v

/-- Witness for C6 amended: the concrete cycle `A = $\x7bB\x7d`,
`B = $\x7bA\x7d` yields the chain `A -> B -> A`, and a concrete cache hit
is answered from the cache. -/
theorem cycleDetectionAmendedWitness :
    (resolveVar ⟨[("A", refText "B"), ("B", refText "A")], [], false⟩ 4
      initResolverState "A").2 =
      Except.error (ResolveErr.circular
        ("Circular reference detected: " ++
          joinSep " -> " ["A", "B", "A"])) ∧
    resolveVar c6Cfg 0 ⟨[], [("A", "done")], [], []⟩ "A" =
      (⟨[], [("A", "done")], [], []⟩, Except.ok "done") :=
  ⟨cycleDetectionAmended.1 "A" "B" [] false 0 (by decide) rfl rfl,
   cycleDetectionAmended.2.1 c6Cfg ⟨[], [("A", "done")], [], []⟩ "A"
     "done" 0 rfl⟩

/-- `dictSet` at a different key does not change a lookup. -/
theorem alookup_dictSet_ne {α : Type} (l : List (String × α)) (k k' : String)
    (v : α) (h : k' ≠ k) : alookup k (dictSet l k' v) = alookup k l := by
  induction l with
  | nil => simp [dictSet, alookup, h]
  | cons p rest ih =>
    obtain ⟨k0, v0⟩ := p
    simp only [dictSet]
    split
    · rename_i hk
      subst hk
      simp [alookup, h]
    · simp only [alookup, ih]

/-- Membership after a `dictSet`. -/
theorem mem_dictSet {α : Type} (l : List (String × α)) (k : String) (v : α)
    (p : String × α) (hp : p ∈ dictSet l k v) : p ∈ l ∨ p = (k, v) := by
  induction l with
  | nil =>
    simp only [dictSet, List.mem_singleton] at hp
    exact Or.inr hp
  | cons q rest ih =>
    obtain ⟨k0, v0⟩ := q
    simp only [dictSet] at hp
    split at hp
    · rcases List.mem_cons.mp hp with rfl | hp'
      · rename_i hk
        subst hk
        exact Or.inr rfl
      · exact Or.inl (List.mem_cons_of_mem _ hp')
    · rcases List.mem_cons.mp hp with rfl | hp'
      · exact Or.inl (List.mem_cons_self _ _)
      · rcases ih hp' with h | h
        · exact Or.inl (List.mem_cons_of_mem _ h)
        · exact Or.inr h

/-- `dictSet` on an absent key appends. -/
theorem dictSet_append_of_not_mem {α : Type} (l : List (String × α))
    (k : String) (v : α) (h : k ∉ l.map Prod.fst) :
    dictSet l k v = l ++ [(k, v)] := by
  induction l with
  | nil => rfl
  | cons p rest ih =>
    obtain ⟨k0, v0⟩ := p
    simp only [List.map_cons, List.mem_cons] at h
    push_neg at h
    simp only [dictSet]
    rw [if_neg (fun hk => h.1 hk.symm)]
    rw [ih h.2]
    rfl

/-- `dictSet` on a present key keeps the key list. -/
theorem dictSet_keys_of_mem {α : Type} (l : List (String × α)) (k : String)
    (v : α) (h : k ∈ l.map Prod.fst) :
    (dictSet l k v).map Prod.fst = l.map Prod.fst := by
  induction l with
  | nil => cases h
  | cons p rest ih =>
    obtain ⟨k0, v0⟩ := p
    simp only [dictSet]
    split
    · rfl
    · rename_i hk
      simp only [List.map_cons, List.mem_cons] at h
      rcases h with h | h
      · exact absurd h.symm hk
      · simp only [List.map_cons, ih h]

/-- `dictSet` preserves distinctness of the keys. -/
theorem dictSet_keys_nodup {α : Type} (l : List (String × α)) (k : String)
    (v : α) (h : (l.map Prod.fst).Nodup) :
    ((dictSet l k v).map Prod.fst).Nodup := by
  by_cases hk : k ∈ l.map Prod.fst
  · rw [dictSet_keys_of_mem l k v hk]
    exact h
  · rw [dictSet_append_of_not_mem l k v hk]
    simp only [List.map_append, List.map_cons, List.map_nil]
    rw [List.nodup_append]
    refine ⟨h, List.nodup_singleton k, ?_⟩
    intro x hx hx'
    simp only [List.mem_singleton] at hx'
    subst hx'
    exact hk hx

/-- A successful lookup means the key occurs. -/
theorem alookup_some_mem_keys {α : Type} (l : List (String × α)) (k : String)
    (v : α) (h : alookup k l = some v) : k ∈ l.map Prod.fst := by
  induction l with
  | nil => cases h
  | cons p rest ih =>
    obtain ⟨k0, v0⟩ := p
    simp only [alookup] at h
    split at h
    · rename_i hk
      subst hk
      exact List.mem_cons_self _ _
    · exact List.mem_cons_of_mem _ (ih h)

/-- With distinct keys, every member's key looks up to its own value. -/
theorem alookup_mem_nodup {α : Type} (l : List (String × α))
    (h : (l.map Prod.fst).Nodup) (p : String × α) (hp : p ∈ l) :
    alookup p.1 l = some p.2 := by
  induction l with
  | nil => cases hp
  | cons q rest ih =>
    obtain ⟨k0, v0⟩ := q
    simp only [List.map_cons, List.nodup_cons] at h
    rcases List.mem_cons.mp hp with rfl | hp'
    · simp [alookup]
    · simp only [alookup]
      rw [if_neg]
      · exact ih h.2 hp'
      · intro hk
        exact h.1 (hk ▸ List.mem_map_of_mem Prod.fst hp')

/-- `noDollarBrace` passes to the tail. -/
theorem noDollarBrace_cons (c : Char) (rest : List Char)
    (h : noDollarBrace (c :: rest) = true) : noDollarBrace rest = true := by
  unfold noDollarBrace at h
  split at h
  · rename_i heq
    exact absurd heq (by simp)
  · exact Bool.noConfusion h
  · rename_i c2 t hover heq2
    injection heq2 with h1 h3
    subst h3
    exact h

/-- The `_VAR_PATTERN` scan of `$\x7b`-free text is one literal chunk per
character. -/
theorem scanChunks_noDB : ∀ cs, noDollarBrace cs = true →
    scanChunks cs = cs.map (fun c => Chunk.lit (String.mk [c])) := by
  intro cs
  induction cs with
  | nil =>
    intro h
    rw [scanChunks]
    rfl
  | cons c rest ih =>
    intro h
    have hside : ∀ tail, c = '$' → rest = '{' :: tail → False := by
      intro tail h1 h2
      subst h1
      subst h2
      exact Bool.noConfusion h
    rw [scanChunks.eq_3 c rest hside]
    rw [ih (noDollarBrace_cons c rest h)]
    rfl

/-- Expanding no chunks yields the empty string. -/
theorem expandChunks_nil (cfg : ResolverConfig) (fuel : Nat)
    (s : ResolverState) (cv : String) :
    expandChunks cfg fuel s cv [] = (s, Except.ok "") := by
  rw [expandChunks]

/-- Expanding a list of literal chunks rebuilds the text and leaves the
state untouched. -/
theorem expandChunks_lits (cfg : ResolverConfig) (fuel : Nat) (cv : String) :
    ∀ cs (s : ResolverState),
      expandChunks cfg fuel s cv
        (cs.map (fun c => Chunk.lit (String.mk [c]))) =
        (s, Except.ok (String.mk cs)) := by
  intro cs
  induction cs with
  | nil =>
    intro s
    exact expandChunks_nil cfg fuel s cv
  | cons c rest ih =>
    intro s
    simp only [List.map_cons]
    rw [expandChunks]
    rw [ih s]
    rfl

/-- `resolve` of an assignment-map name whose raw value contains no
reference expands it to itself: the value is cached, the stack is restored,
and the expansion is recorded. -/
theorem resolveVar_plain (cfg : ResolverConfig) (fuel : Nat)
    (s : ResolverState) (name raw : String)
    (hc : alookup name s.cache = none) (hs : name ∉ s.stack)
    (ha : alookup name cfg.assignments = some raw)
    (hdb : noDollarBrace raw.data = true) :
    resolveVar cfg (fuel + 1) s name =
      (⟨s.registry, dictSet s.cache name raw, s.stack,
        s.expansions ++ [name]⟩, Except.ok raw) := by
  unfold resolveVar
  rw [hc]
  dsimp only
  rw [if_neg hs, ha]
  dsimp only
  rw [scanChunks_noDB raw.data hdb]
  rw [expandChunks_lits]
  dsimp only
  rw [string_mk_data]
  congr 1
  rw [List.dropLast_concat]

/-- A successful lookup's pair is a member. -/
theorem alookup_some_mem {α : Type} (l : List (String × α)) (k : String)
    (v : α) (h : alookup k l = some v) : (k, v) ∈ l := by
  induction l with
  | nil => cases h
  | cons p rest ih =>
    obtain ⟨k0, v0⟩ := p
    simp only [alookup] at h
    split at h
    · rename_i hk
      subst hk
      injection h with h
      subst h
      exact List.mem_cons_self _ _
    · exact List.mem_cons_of_mem _ (ih h)

/-- `resolve` answers a cached name from the cache, state untouched. -/
theorem resolveVar_cacheHit (cfg : ResolverConfig) (fuel : Nat)
    (s : ResolverState) (name v : String)
    (hcache : alookup name s.cache = some v) :
    resolveVar cfg fuel s name = (s, Except.ok v) := by
  unfold resolveVar
  rw [hcache]

/-- `resolve_all` over names whose raw values are reference-free: every
name resolves to its raw value, the cache-agreement invariant is kept and
the stack is restored. -/
theorem resolveAllGo_plain (cfg : ResolverConfig) (fuel : Nat) :
    ∀ (names : List String) (s : ResolverState),
      (∀ n ∈ names, ∃ v, alookup n cfg.assignments = some v ∧
        noDollarBrace v.data = true) →
      (∀ n ∈ names, n ∉ s.stack) →
      CacheSub cfg s →
      ∃ s', resolveAllGo cfg (fuel + 1) s names =
        (s', Except.ok (names.map (fun n =>
          (n, (alookup n cfg.assignments).getD "")))) ∧
        CacheSub cfg s' ∧ s'.stack = s.stack := by
  intro names
  induction names with
  | nil =>
    intro s _ _ hsub
    exact ⟨s, rfl, hsub, rfl⟩
  | cons n rest ih =>
    intro s hplain hstack hsub
    obtain ⟨v, hav, hdb⟩ := hplain n (List.mem_cons_self n rest)
    cases hcn : alookup n s.cache with
    | some cv =>
      have hcv : alookup n cfg.assignments = some cv :=
        hsub (n, cv) (alookup_some_mem s.cache n cv hcn)
      obtain ⟨s', hgo, hsub', hstk⟩ := ih s
        (fun m hm => hplain m (List.mem_cons_of_mem n hm))
        (fun m hm => hstack m (List.mem_cons_of_mem n hm)) hsub
      refine ⟨s', ?_, hsub', hstk⟩
      rw [resolveAllGo]
      rw [resolveVar_cacheHit cfg (fuel + 1) s n cv hcn]
      dsimp only
      rw [hgo]
      simp only [List.map_cons, hcv]
      rfl
    | none =>
      have hres := resolveVar_plain cfg fuel s n v hcn
        (hstack n (List.mem_cons_self n rest)) hav hdb
      have hsub1 : CacheSub cfg
          ⟨s.registry, dictSet s.cache n v, s.stack,
            s.expansions ++ [n]⟩ := by
        intro p hp
        rcases mem_dictSet s.cache n v p hp with h | h
        · exact hsub p h
        · rw [h]
          exact hav
      obtain ⟨s', hgo, hsub', hstk⟩ := ih
        ⟨s.registry, dictSet s.cache n v, s.stack, s.expansions ++ [n]⟩
        (fun m hm => hplain m (List.mem_cons_of_mem n hm))
        (fun m hm => hstack m (List.mem_cons_of_mem n hm)) hsub1
      refine ⟨s', ?_, hsub', hstk⟩
      rw [resolveAllGo]
      rw [hres]
      dsimp only
      rw [hgo]
      simp only [List.map_cons, hav]
      rfl

/-- `String.join` unfolds on a cons. -/
theorem stringJoin_cons (x : String) (l : List String) :
    String.join (x :: l) = x ++ String.join l := by
  have general : ∀ (l : List String) (a : String),
      l.foldl (fun r s => r ++ s) a = a ++ l.foldl (fun r s => r ++ s) "" := by
    intro l
    induction l with
    | nil =>
      intro a
      show a = a ++ ""
      rw [String.append_empty]
    | cons y ys ih =>
      intro a
      rw [List.foldl_cons, List.foldl_cons]
      rw [ih (a ++ y), ih ("" ++ y)]
      rw [String.empty_append, String.append_assoc]
  show (x :: l).foldl (fun r s => r ++ s) "" = _
  rw [List.foldl_cons]
  rw [general l ("" ++ x), String.empty_append]
  rfl

/-- `String.join` distributes over append. -/
theorem stringJoin_append (l1 l2 : List String) :
    String.join (l1 ++ l2) = String.join l1 ++ String.join l2 := by
  induction l1 with
  | nil =>
    rw [List.nil_append]
    show _ = String.join [] ++ _
    rw [show String.join [] = "" from rfl, String.empty_append]
  | cons x xs ih =>
    rw [List.cons_append, stringJoin_cons, stringJoin_cons, ih,
      String.append_assoc]

/-- `write_env_file` content of a cons. -/
theorem writeEnvContent_cons (p : String × String)
    (l r : List (String × String)) :
    writeEnvContent (p :: l) r =
      (p.1 ++ "=" ++ ((alookup p.1 r).getD "") ++ "\n") ++
        writeEnvContent l r := by
  unfold writeEnvContent
  rw [List.map_cons, stringJoin_cons]

/-- `write_env_file` content of an append. -/
theorem writeEnvContent_append (l1 l2 r : List (String × String)) :
    writeEnvContent (l1 ++ l2) r =
      writeEnvContent l1 r ++ writeEnvContent l2 r := by
  unfold writeEnvContent
  rw [List.map_append, stringJoin_append]

/-- A present key has a value. -/
theorem mem_keys_exists_alookup {α : Type} (l : List (String × α))
    (k : String) (h : k ∈ l.map Prod.fst) : ∃ v, alookup k l = some v := by
  induction l with
  | nil => cases h
  | cons p rest ih =>
    obtain ⟨k0, v0⟩ := p
    simp only [alookup]
    by_cases hk : k0 = k
    · exact ⟨v0, if_pos hk⟩
    · rw [if_neg hk]
      simp only [List.map_cons, List.mem_cons] at h
      rcases h with h | h
      · exact absurd h.symm hk
      · exact ih h

/-- Looking a key up in a keyed map image. -/
theorem alookup_map_keys (names : List String) (f : String → String)
    (k : String) (h : k ∈ names) :
    alookup k (names.map (fun n => (n, f n))) = some (f k) := by
  induction names with
  | nil => cases h
  | cons n rest ih =>
    simp only [List.map_cons, alookup]
    by_cases hk : n = k
    · subst hk
      rw [if_pos rfl]
    · rw [if_neg hk]
      rcases List.mem_cons.mp h with rfl | h'
      · exact absurd rfl hk
      · exact ih h'

/-- A plain value has no reference syntax. -/
theorem plainValue_noDB (v : String) (h : plainValue v = true) :
    noDollarBrace v.data = true := by
  simp only [plainValue, Bool.and_eq_true] at h
  exact h.1.1.1

/-- A plain value is strip-invariant. -/
theorem plainValue_strip (v : String) (h : plainValue v = true) :
    pyStrip v = v := by
  simp only [plainValue, Bool.and_eq_true] at h
  exact eq_of_beq h.1.1.2

/-- Folding `dictSet`s over keys different from `k` does not change the
lookup at `k`. -/
theorem foldl_dictSet_ne (k : String) :
    ∀ (applied : List (String × String)) (a : List (String × String)),
      (∀ p ∈ applied, p.1 ≠ k) →
      alookup k (applied.foldl (fun acc q => dictSet acc q.1 q.2) a) =
        alookup k a := by
  intro applied
  induction applied with
  | nil => intro a _; rfl
  | cons q rest ih =>
    intro a hne
    rw [List.foldl_cons]
    rw [ih (dictSet a q.1 q.2) (fun p hp => hne p (List.mem_cons_of_mem q hp))]
    exact alookup_dictSet_ne a k q.1 q.2
      (hne q (List.mem_cons_self q rest))

/-- The seeding loop: the environment keeps a pre-existing value at `k`,
and the assignment map receives it as soon as `k` occurs among the walked
assignments. -/
theorem seedGo_spec (k venv : String) :
    ∀ (assignments a : List (String × String)) (e : Env),
      alookup k e = some venv →
      alookup k (Pipeline.seedGo assignments (a, e)).2 = some venv ∧
      (k ∈ assignments.map Prod.fst →
        alookup k (Pipeline.seedGo assignments (a, e)).1 = some venv) ∧
      (k ∉ assignments.map Prod.fst →
        alookup k (Pipeline.seedGo assignments (a, e)).1 = alookup k a) := by
  intro assignments
  induction assignments with
  | nil =>
    intro a e he
    refine ⟨he, ?_, ?_⟩
    · intro h
      cases h
    · intro _
      rfl
  | cons p rest ih =>
    intro a e he
    obtain ⟨k0, v0⟩ := p
    cases h0 : alookup k0 e with
    | some ev =>
      have hstep : Pipeline.seedGo ((k0, v0) :: rest) (a, e) =
          Pipeline.seedGo rest (dictSet a k0 ev, e) := by
        rw [Pipeline.seedGo]
        rw [h0]
      by_cases hk : k0 = k
      · subst hk
        have hev : ev = venv := by
          rw [he] at h0
          injection h0 with h0
          exact h0.symm
        subst hev
        obtain ⟨ih1, ih2, ih3⟩ := ih (dictSet a k0 ev) e he
        rw [hstep]
        refine ⟨ih1, ?_, ?_⟩
        · intro _
          by_cases hm : k0 ∈ rest.map Prod.fst
          · exact ih2 hm
          · rw [ih3 hm]
            exact alookup_dictSet_self a k0 ev
        · intro hnot
          exact absurd (List.mem_cons_self k0 (rest.map Prod.fst)) hnot
      · obtain ⟨ih1, ih2, ih3⟩ := ih (dictSet a k0 ev) e he
        rw [hstep]
        refine ⟨ih1, ?_, ?_⟩
        · intro hm
          rcases List.mem_cons.mp hm with h | h
          · exact absurd h.symm hk
          · exact ih2 h
        · intro hnm
          have hnm' : k ∉ rest.map Prod.fst :=
            fun h => hnm (List.mem_cons_of_mem k0 h)
          rw [ih3 hnm']
          exact alookup_dictSet_ne a k k0 ev hk
    | none =>
      have hk : k0 ≠ k := by
        intro hk
        subst hk
        rw [he] at h0
        cases h0
      have hstep : Pipeline.seedGo ((k0, v0) :: rest) (a, e) =
          Pipeline.seedGo rest (a, dictSet e k0 v0) := by
        rw [Pipeline.seedGo]
        rw [h0]
      have he' : alookup k (dictSet e k0 v0) = some venv := by
        rw [alookup_dictSet_ne e k k0 v0 hk]
        exact he
      obtain ⟨ih1, ih2, ih3⟩ := ih a (dictSet e k0 v0) he'
      rw [hstep]
      refine ⟨ih1, ?_, ?_⟩
      · intro hm
        rcases List.mem_cons.mp hm with h | h
        · exact absurd h.symm hk
        · exact ih2 h
      · intro hnm
        have hnm' : k ∉ rest.map Prod.fst :=
          fun h => hnm (List.mem_cons_of_mem k0 h)
        exact ih3 hnm'

/-- C9: seeding the environment from the input assignments leaves a key
that is already present in the environment unchanged there and writes the
environment's value back into the in-memory assignment map; consequently,
when the pipeline's resolution succeeds on plain values and no layer write
touches the key, the final env-out content records the pre-existing
environment value for that key — as its resolved value and as a
`key=value` line — rather than the value from the input env file. -/
theorem seedWriteback :
    (∀ assignments env k venv,
      alookup k env = some venv →
      k ∈ assignments.map Prod.fst →
      alookup k (Pipeline.seedEnvironment assignments env).1 = some venv ∧
      alookup k (Pipeline.seedEnvironment assignments env).2 = some venv) ∧
    (∀ env0 assignments0 applied reg fuel k venv,
      alookup k env0 = some venv →
      k ∈ assignments0.map Prod.fst →
      (∀ p ∈ applied, p.1 ≠ k) →
      (∀ p ∈ applied.foldl (fun acc q => dictSet acc q.1 q.2)
          (Pipeline.seedEnvironment assignments0 env0).1,
        plainValue p.2 = true) →
      ∃ content a2 final,
        Pipeline.pipelineEnvOut env0 assignments0 applied reg (fuel + 1) =
          Except.ok (content, a2, final) ∧
        alookup k a2 = some venv ∧
        alookup k final = some venv ∧
        ∃ pre post, content = pre ++ (k ++ "=" ++ venv ++ "\n") ++ post) := by
  constructor
  · intro assignments env k venv he hin
    have h := seedGo_spec k venv assignments assignments env he
    exact ⟨h.2.1 hin, h.1⟩
  · intro env0 assignments0 applied reg fuel k venv henv hkin hne hplain
    set A2 := applied.foldl (fun acc q => dictSet acc q.1 q.2)
      (Pipeline.seedEnvironment assignments0 env0).1 with hA2def
    set E2 := Pipeline.applyEnvWrites
      (Pipeline.seedEnvironment assignments0 env0).2 applied with hE2def
    set F := (A2.map Prod.fst).map
      (fun n => (n, (alookup n A2).getD "")) with hFdef
    have hsg := seedGo_spec k venv assignments0 assignments0 env0 henv
    have ha1 : alookup k (Pipeline.seedEnvironment assignments0 env0).1 =
        some venv := hsg.2.1 hkin
    have hka2 : alookup k A2 = some venv := by
      rw [hA2def, foldl_dictSet_ne k applied _ hne]
      exact ha1
    obtain ⟨s', hgo, hsub', hstk⟩ := resolveAllGo_plain ⟨A2, E2, false⟩ fuel
      (A2.map Prod.fst) ⟨reg, [], [], []⟩
      (by
        intro n hn
        obtain ⟨v, hv⟩ := mem_keys_exists_alookup A2 n hn
        exact ⟨v, hv,
          plainValue_noDB v (hplain (n, v) (alookup_some_mem A2 n v hv))⟩)
      (fun n hn => List.not_mem_nil n)
      (fun p hp => absurd hp (List.not_mem_nil p))
    dsimp only at hgo
    rw [← hFdef] at hgo
    have hkfin : alookup k F = some venv := by
      rw [hFdef]
      rw [alookup_map_keys (A2.map Prod.fst)
        (fun n => (alookup n A2).getD "") k
        (alookup_some_mem_keys A2 k venv hka2)]
      rw [hka2]
      rfl
    have hpipe : Pipeline.pipelineEnvOut env0 assignments0 applied reg
        (fuel + 1) = Except.ok (writeEnvContent A2 F, A2, F) := by
      unfold Pipeline.pipelineEnvOut
      dsimp only
      rw [← hA2def, ← hE2def]
      unfold resolveAll
      dsimp only
      rw [hgo]
    refine ⟨writeEnvContent A2 F, A2, F, hpipe, hka2, hkfin, ?_⟩
    obtain ⟨p, hpmem, hpfst⟩ := List.mem_map.mp
      (alookup_some_mem_keys A2 k venv hka2)
    obtain ⟨l1, l2, hsplit⟩ := List.append_of_mem hpmem
    refine ⟨writeEnvContent l1 F, writeEnvContent l2 F, ?_⟩
    rw [hsplit, writeEnvContent_append, writeEnvContent_cons]
    rw [hpfst, hkfin]
    simp only [Option.getD_some, String.append_assoc]

/-- Witness for C9 at a one-key environment and env file. -/
theorem seedWriteback_witness :
    alookup "K" (Pipeline.seedEnvironment [("K", "file")] [("K", "v0")]).1 =
      some "v0" ∧
    ∃ content a2 final,
      Pipeline.pipelineEnvOut [("K", "v0")] [("K", "file")] [] [] (0 + 1) =
        Except.ok (content, a2, final) ∧
      alookup "K" a2 = some "v0" ∧
      alookup "K" final = some "v0" ∧
      ∃ pre post, content = pre ++ ("K" ++ "=" ++ "v0" ++ "\n") ++ post :=
  ⟨(seedWriteback.1 [("K", "file")] [("K", "v0")] "K" "v0" rfl
      (List.mem_cons_self "K" [])).1,
   seedWriteback.2 [("K", "v0")] [("K", "file")] [] [] 0 "K" "v0" rfl
    (List.mem_cons_self "K" []) (fun p hp => absurd hp (List.not_mem_nil p))
    (by decide)⟩

/-- A word-leading character is a word character. -/
theorem headChar_word (c : Char) (h : (c.isAlpha || c = '_') = true) :
    (c.isAlphanum || c = '_') = true := by
  simp only [Bool.or_eq_true] at h ⊢
  rcases h with ha | hu
  · left
    simp [Char.isAlphanum, ha]
  · right
    exact hu

/-- Every character of a valid variable name is a word character. -/
theorem isValidVar_all (s : String) (h : isValidVar s = true) :
    ∀ c ∈ s.data, (c.isAlphanum || c = '_') = true := by
  unfold isValidVar at h
  cases hd : s.data with
  | nil =>
    rw [hd] at h
    cases h
  | cons c0 rest =>
    rw [hd] at h
    simp only [Bool.and_eq_true] at h
    intro c hc
    rcases List.mem_cons.mp hc with rfl | hcr
    · exact headChar_word c h.1
    · exact List.all_eq_true.mp h.2 c hcr

/-- A valid variable name starts with a word-leading character. -/
theorem isValidVar_head (s : String) (h : isValidVar s = true) :
    ∃ c0, s.data.head? = some c0 ∧ (c0.isAlpha || c0 = '_') = true := by
  unfold isValidVar at h
  cases hd : s.data with
  | nil =>
    rw [hd] at h
    cases h
  | cons c0 rest =>
    rw [hd] at h
    simp only [Bool.and_eq_true] at h
    exact ⟨c0, rfl, h.1⟩

/-- A word character is not a separator, comment or line-break character. -/
theorem wordChar_extra (c : Char) (h : (c.isAlphanum || c = '_') = true) :
    c ≠ '=' ∧ c ≠ '#' ∧ c ≠ '\n' := by
  refine ⟨?_, ?_, ?_⟩ <;> intro hc <;> subst hc <;> exact absurd h (by decide)

/-- `dropWhile` is the identity when the head does not satisfy the
predicate. -/
theorem dropWhile_head_false {p : Char → Bool} (cs : List Char)
    (h : ∀ c, cs.head? = some c → p c = false) : cs.dropWhile p = cs := by
  cases cs with
  | nil => rfl
  | cons c rest =>
    simp [List.dropWhile_cons, h c rfl]

/-- The head surviving a `dropWhile` fails the predicate. -/
theorem head_dropWhile_false {p : Char → Bool} :
    ∀ (cs : List Char) (c : Char),
      (cs.dropWhile p).head? = some c → p c = false := by
  intro cs
  induction cs with
  | nil =>
    intro c h
    cases h
  | cons a rest ih =>
    intro c h
    rw [List.dropWhile_cons] at h
    split at h
    · exact ih c h
    · rename_i hpa
      simp only [List.head?_cons] at h
      injection h with h
      subst h
      cases hpc : p a with
      | false => rfl
      | true => exact absurd hpc hpa

/-- A string that is fixed by `strip` does not end in whitespace. -/
theorem pyStrip_self_getLast (v : String) (h : pyStrip v = v) :
    ∀ c, v.data.getLast? = some c → isPySpace c = false := by
  intro c hc
  have hL : pyStripL v.data = v.data := congrArg String.data h
  have hrev : (v.data.dropWhile isPySpace).reverse.dropWhile isPySpace =
      v.data.reverse := by
    have h2 := congrArg List.reverse hL
    rw [pyStripL, List.reverse_reverse] at h2
    exact h2
  apply head_dropWhile_false ((v.data.dropWhile isPySpace).reverse) c
  rw [hrev, List.head?_reverse]
  exact hc

/-- `strip` is the identity when neither end is whitespace. -/
theorem pyStrip_of_ends (s : String)
    (h1 : ∀ c, s.data.head? = some c → isPySpace c = false)
    (h2 : ∀ c, s.data.getLast? = some c → isPySpace c = false) :
    pyStrip s = s := by
  unfold pyStrip pyStripL
  rw [dropWhile_head_false s.data h1]
  rw [dropWhile_head_false s.data.reverse (by
    intro c hc
    rw [List.head?_reverse] at hc
    exact h2 c hc)]
  rw [List.reverse_reverse]

/-- A plain value contains no newline. -/
theorem plainValue_noNl (v : String) (h : plainValue v = true) :
    ∀ c ∈ v.data, c ≠ '\n' := by
  simp only [plainValue, Bool.and_eq_true] at h
  intro c hc hcn
  have := List.all_eq_true.mp h.2 c hc
  subst hcn
  simp at this

/-- A plain value is not unquoted by the loader. -/
theorem plainValue_stripQuotes (v : String) (h : plainValue v = true) :
    stripQuotes v = v := by
  unfold stripQuotes
  rw [if_neg]
  intro hcond
  obtain ⟨h1, h2, h3⟩ := hcond
  simp only [plainValue, Bool.and_eq_true] at h
  have hX : decide (2 ≤ v.data.length) = true := decide_eq_true h1
  have hY : (v.data.head? == some '"') = true := beq_iff_eq.mpr h2
  have hZ : (v.data.getLast? == some '"') = true := beq_iff_eq.mpr h3
  have hb := h.1.2
  rw [hX, hY, hZ] at hb
  exact Bool.noConfusion hb

/-- `split("=", 1)` on a key, a separator and a remainder. -/
theorem findSplitEq_append : ∀ (cs1 : List Char), (∀ c ∈ cs1, c ≠ '=') →
    ∀ cs2, findSplitEq (cs1 ++ '=' :: cs2) = some (cs1, cs2) := by
  intro cs1
  induction cs1 with
  | nil =>
    intro _ cs2
    rw [List.nil_append, findSplitEq]
  | cons c rest ih =>
    intro h cs2
    rw [List.cons_append]
    rw [findSplitEq.eq_3 c (rest ++ '=' :: cs2)
      (fun heq => h c (List.mem_cons_self c rest) heq)]
    rw [ih (fun c' hc' => h c' (List.mem_cons_of_mem c hc')) cs2]
    rfl

/-- Text-file line splitting: the first newline ends the first line. -/
theorem splitLinesAux_append : ∀ (cs1 : List Char),
    (∀ c ∈ cs1, c ≠ '\n') → ∀ (cs2 acc : List Char),
      splitLinesAux (cs1 ++ '\n' :: cs2) acc =
        String.mk (acc.reverse ++ cs1) :: splitLinesAux cs2 [] := by
  intro cs1
  induction cs1 with
  | nil =>
    intro _ cs2 acc
    rw [List.nil_append, splitLinesAux, List.append_nil]
  | cons c rest ih =>
    intro h cs2 acc
    rw [List.cons_append]
    rw [splitLinesAux.eq_3 acc c (rest ++ '\n' :: cs2)
      (fun heq => h c (List.mem_cons_self c rest) heq)]
    rw [ih (fun c' hc' => h c' (List.mem_cons_of_mem c hc')) cs2 (c :: acc)]
    rw [List.reverse_cons, List.append_assoc]
    rfl

/-- Parsing a `key=value` line with a valid key and a plain value stores
exactly that pair. -/
theorem parseEnvLine_roundtrip (acc : List (String × String)) (k v : String)
    (hk : isValidVar k = true) (hv : plainValue v = true) :
    parseEnvLine acc (k ++ "=" ++ v) = Except.ok (dictSet acc k v) := by
  obtain ⟨c0, hc0, hc0w⟩ := isValidVar_head k hk
  have hall := isValidVar_all k hk
  have hdata : (k ++ "=" ++ v).data = k.data ++ '=' :: v.data := by
    rw [strData_append, strData_append, List.append_assoc]
    rfl
  have hkd : k.data = c0 :: k.data.tail := by
    cases hkd0 : k.data with
    | nil =>
      rw [hkd0] at hc0
      cases hc0
    | cons a t =>
      rw [hkd0] at hc0
      have hc0x : some a = some c0 := hc0
      injection hc0x with hc0x
      subst hc0x
      rfl
  have hstrip : pyStrip (k ++ "=" ++ v) = k ++ "=" ++ v := by
    apply pyStrip_of_ends
    · intro c hc
      rw [hdata, hkd] at hc
      simp only [List.cons_append, List.head?_cons] at hc
      injection hc with hc
      rw [← hc]
      exact (plainChar_facts c0 (headChar_word c0 hc0w)).1
    · intro c hc
      rw [hdata, List.getLast?_append] at hc
      cases hvd : v.data with
      | nil =>
        rw [hvd] at hc
        simp only [List.getLast?_singleton, Option.or] at hc
        injection hc with hc
        rw [← hc]
        decide
      | cons a t =>
        rw [hvd, List.getLast?_cons_cons] at hc
        cases hlast : (a :: t).getLast? with
        | none => simp at hlast
        | some b =>
          rw [hlast] at hc
          simp only [Option.or] at hc
          injection hc with hc
          rw [← hc]
          apply pyStrip_self_getLast v (plainValue_strip v hv)
          rw [hvd]
          exact hlast
  unfold parseEnvLine
  dsimp only
  rw [hstrip]
  rw [if_neg (by
    intro hemp
    have hnil : (k ++ "=" ++ v).data = [] := by rw [hemp]
    rw [hdata, hkd] at hnil
    cases hnil)]
  rw [if_neg (by
    intro hh
    rw [hdata, hkd] at hh
    simp only [List.cons_append, List.head?_cons] at hh
    injection hh with hh
    exact (wordChar_extra c0 (headChar_word c0 hc0w)).2.1 hh)]
  rw [hdata]
  rw [findSplitEq_append k.data
    (fun c hc => (wordChar_extra c (hall c hc)).1) v.data]
  dsimp only
  simp only [string_mk_data]
  rw [pyStrip_eq_self k (fun c hc => (plainChar_facts c (hall c hc)).1)]
  rw [plainValue_strip v hv]
  rw [if_neg (not_not_intro hk)]
  rw [plainValue_stripQuotes v hv]

/-- The line loop of `load_env_file` over `key=value` lines (with a final
blank line) accumulates exactly the written pairs. -/
theorem loadEnvGo_lines : ∀ (entries acc : List (String × String)),
    (∀ p ∈ entries, isValidVar p.1 = true) →
    (∀ p ∈ entries, plainValue p.2 = true) →
    loadEnvGo (entries.map (fun p => p.1 ++ "=" ++ p.2) ++ [""]) acc =
      Except.ok (entries.foldl (fun a p => dictSet a p.1 p.2) acc) := by
  intro entries
  induction entries with
  | nil =>
    intro acc _ _
    rfl
  | cons p rest ih =>
    intro acc hk hv
    rw [List.map_cons, List.cons_append, loadEnvGo]
    rw [parseEnvLine_roundtrip acc p.1 p.2
      (hk p (List.mem_cons_self p rest)) (hv p (List.mem_cons_self p rest))]
    dsimp only
    rw [ih (dictSet acc p.1 p.2)
      (fun q hq => hk q (List.mem_cons_of_mem p hq))
      (fun q hq => hv q (List.mem_cons_of_mem p hq))]
    rfl

/-- Splitting the joined `key=value\n` lines recovers the lines (plus the
final empty piece). -/
theorem splitLines_join : ∀ (entries : List (String × String)),
    (∀ p ∈ entries, isValidVar p.1 = true) →
    (∀ p ∈ entries, plainValue p.2 = true) →
    splitLines (String.join (entries.map
      (fun p => p.1 ++ "=" ++ p.2 ++ "\n"))) =
      entries.map (fun p => p.1 ++ "=" ++ p.2) ++ [""] := by
  intro entries
  induction entries with
  | nil =>
    intro _ _
    rfl
  | cons p rest ih =>
    intro hk hv
    rw [List.map_cons, stringJoin_cons]
    unfold splitLines
    have hdata : ((p.1 ++ "=" ++ p.2 ++ "\n") ++
        String.join (rest.map (fun q => q.1 ++ "=" ++ q.2 ++ "\n"))).data =
        (p.1 ++ "=" ++ p.2).data ++ '\n' ::
          (String.join (rest.map (fun q => q.1 ++ "=" ++ q.2 ++ "\n"))).data := by
      rw [strData_append, strData_append, List.append_assoc]
      rfl
    rw [hdata]
    rw [splitLinesAux_append (p.1 ++ "=" ++ p.2).data
      (by
        intro c hc
        have hc' : c ∈ p.1.data ++ '=' :: p.2.data := by
          rw [strData_append, strData_append, List.append_assoc] at hc
          exact hc
        rcases List.mem_append.mp hc' with h | h
        · exact (wordChar_extra c (isValidVar_all p.1
            (hk p (List.mem_cons_self p rest)) c h)).2.2
        · rcases List.mem_cons.mp h with rfl | h
          · decide
          · exact plainValue_noNl p.2 (hv p (List.mem_cons_self p rest)) c h)
      _ []]
    simp only [List.reverse_nil, List.nil_append, string_mk_data]
    have ihx := ih (fun q hq => hk q (List.mem_cons_of_mem p hq))
      (fun q hq => hv q (List.mem_cons_of_mem p hq))
    unfold splitLines at ihx
    rw [ihx]
    rfl

/-- `write_env_file` content depends only on the keys of the assignment
list. -/
theorem writeEnvContent_keys : ∀ (l1 l2 r : List (String × String)),
    l1.map Prod.fst = l2.map Prod.fst →
    writeEnvContent l1 r = writeEnvContent l2 r := by
  intro l1
  induction l1 with
  | nil =>
    intro l2 r h
    cases l2 with
    | nil => rfl
    | cons q t => cases h
  | cons p t1 ih =>
    intro l2 r h
    cases l2 with
    | nil => cases h
    | cons q t2 =>
      simp only [List.map_cons] at h
      injection h with h1 h2
      rw [writeEnvContent_cons, writeEnvContent_cons, h1, ih t2 r h2]

/-- Writing the resolved map against its own keys lines up each pair. -/
theorem writeEnvContent_self (r : List (String × String))
    (h : (r.map Prod.fst).Nodup) :
    writeEnvContent r r =
      String.join (r.map (fun p => p.1 ++ "=" ++ p.2 ++ "\n")) := by
  unfold writeEnvContent
  congr 1
  apply List.map_congr_left
  intro p hp
  rw [alookup_mem_nodup r h p hp]
  rfl

/-- Re-keying a distinct-key map by lookup reconstructs it. -/
theorem map_keys_getD (l : List (String × String))
    (h : (l.map Prod.fst).Nodup) :
    (l.map Prod.fst).map (fun n => (n, (alookup n l).getD "")) = l := by
  induction l with
  | nil => rfl
  | cons p t ih =>
    simp only [List.map_cons]
    have hsplit : alookup p.1 (p :: t) = some p.2 := by
      rcases p with ⟨k0, v0⟩
      simp [alookup]
    rw [hsplit]
    simp only [List.map_cons, List.nodup_cons] at h
    have htail : (t.map Prod.fst).map
        (fun n => (n, (alookup n (p :: t)).getD "")) =
        (t.map Prod.fst).map (fun n => (n, (alookup n t).getD "")) := by
      apply List.map_congr_left
      intro n hn
      rcases p with ⟨k0, v0⟩
      have hne : k0 ≠ n := by
        intro hk
        exact h.1 (hk ▸ hn)
      simp [alookup, hne]
    rw [htail, ih h.2]
    rfl

/-- Folding `dictSet` over fresh distinct keys appends. -/
theorem foldl_dictSet_nodup : ∀ (l acc : List (String × String)),
    (((acc ++ l).map Prod.fst)).Nodup →
    l.foldl (fun a p => dictSet a p.1 p.2) acc = acc ++ l := by
  intro l
  induction l with
  | nil =>
    intro acc _
    rw [List.append_nil]
    rfl
  | cons p t ih =>
    intro acc h
    rw [List.foldl_cons]
    have hmem : p.1 ∉ acc.map Prod.fst := by
      intro hm
      simp only [List.map_append, List.nodup_append, List.map_cons,
        List.nodup_cons] at h
      exact h.2.2 hm (List.mem_cons_self p.1 _)
    rw [dictSet_append_of_not_mem acc p.1 p.2 hmem]
    have h' : (((acc ++ [(p.1, p.2)]) ++ t).map Prod.fst).Nodup := by
      have : (acc ++ [(p.1, p.2)]) ++ t = acc ++ (p.1, p.2) :: t := by
        rw [List.append_assoc]
        rfl
      rw [this]
      exact h
    rw [ih (acc ++ [(p.1, p.2)]) h']
    rw [List.append_assoc]
    rfl

/-- A successful `resolve_all` loop returns one pair per requested name, in
order. -/
theorem resolveAllGo_keys (cfg : ResolverConfig) (fuel : Nat) :
    ∀ (names : List String) (s s' : ResolverState)
      (m : List (String × String)),
      resolveAllGo cfg fuel s names = (s', Except.ok m) →
      m.map Prod.fst = names := by
  intro names
  induction names with
  | nil =>
    intro s s' m h
    simp only [resolveAllGo] at h
    injection h with h1 h2
    injection h2 with h2
    rw [← h2]
    rfl
  | cons n rest ih =>
    intro s s' m h
    rw [resolveAllGo] at h
    split at h
    · rename_i s1 v heq
      split at h
      · rename_i s2 m2 heq2
        injection h with h1 h2
        injection h2 with h2
        rw [← h2]
        simp only [List.map_cons]
        rw [ih s1 s2 m2 heq2]
      · injection h with h1 h2
        cases h2
    · injection h with h1 h2
      cases h2

/-- One parsed line keeps keys valid and distinct. -/
theorem parseEnvLine_invariants (acc acc' : List (String × String))
    (line : String) (h : parseEnvLine acc line = Except.ok acc')
    (hval : ∀ p ∈ acc, isValidVar p.1 = true)
    (hnd : (acc.map Prod.fst).Nodup) :
    (∀ p ∈ acc', isValidVar p.1 = true) ∧ (acc'.map Prod.fst).Nodup := by
  unfold parseEnvLine at h
  dsimp only at h
  split at h
  · injection h with h
    subst h
    exact ⟨hval, hnd⟩
  · split at h
    · injection h with h
      subst h
      exact ⟨hval, hnd⟩
    · split at h
      · cases h
      · rename_i nameCs valueCs heq
        split at h
        · cases h
        · rename_i hvalid
          injection h with h
          subst h
          have hvn := not_not.mp hvalid
          constructor
          · intro p hp
            rcases mem_dictSet _ _ _ p hp with hmem | hmem
            · exact hval p hmem
            · rw [hmem]
              exact hvn
          · exact dictSet_keys_nodup _ _ _ hnd

/-- The `load_env_file` loop keeps keys valid and distinct. -/
theorem loadEnvGo_invariants : ∀ (lines : List String)
    (acc res : List (String × String)),
    loadEnvGo lines acc = Except.ok res →
    (∀ p ∈ acc, isValidVar p.1 = true) → (acc.map Prod.fst).Nodup →
    (∀ p ∈ res, isValidVar p.1 = true) ∧ (res.map Prod.fst).Nodup := by
  intro lines
  induction lines with
  | nil =>
    intro acc res h hval hnd
    injection h with h
    subst h
    exact ⟨hval, hnd⟩
  | cons l rest ih =>
    intro acc res h hval hnd
    rw [loadEnvGo] at h
    split at h
    · cases h
    · rename_i acc' heq
      obtain ⟨hval', hnd'⟩ := parseEnvLine_invariants acc acc' l heq hval hnd
      exact ih acc' res h hval' hnd'

/-- `load_env_file` produces valid, distinct keys. -/
theorem loadEnvFile_invariants (content : String)
    (assignments : List (String × String))
    (h : loadEnvFile content = Except.ok assignments) :
    (∀ p ∈ assignments, isValidVar p.1 = true) ∧
    (assignments.map Prod.fst).Nodup := by
  exact loadEnvGo_invariants (splitLines content) [] assignments h
    (fun p hp => absurd hp (List.not_mem_nil p)) List.Pairwise.nil

/-- `resolve` falls back to the external context verbatim. -/
theorem resolveVar_external (cfg : ResolverConfig) (fuel : Nat)
    (s : ResolverState) (name v : String)
    (hc : alookup name s.cache = none) (hs : name ∉ s.stack)
    (ha : alookup name cfg.assignments = none)
    (he : alookup name cfg.externalContext = some v) :
    resolveVar cfg fuel s name = (s, Except.ok v) := by
  unfold resolveVar
  rw [hc]
  dsimp only
  rw [if_neg hs, ha]
  dsimp only
  rw [he]

/-- Expanding a single valid reference chunk returns the referenced name's
resolution. -/
theorem expandChunks_singleRef_ok (cfg : ResolverConfig) (fuel : Nat)
    (s s' : ResolverState) (cv tok v : String)
    (hv : isValidVar tok = true) (hstrip : pyStrip tok = tok)
    (hne : tok ≠ "") (hat : tok.data.head? ≠ some '@')
    (hres : resolveVar cfg fuel s tok = (s', Except.ok v)) :
    expandChunks cfg (fuel + 1) s cv [Chunk.ref tok] =
      (s', Except.ok (v ++ "")) := by
  unfold expandChunks
  dsimp only
  rw [hstrip]
  rw [if_neg hne, if_neg hat, if_neg (not_not_intro hv)]
  rw [hres]
  dsimp only
  rw [expandChunks_nil]

/-- `resolve` on an assignment-map name whose expansion succeeds pops the
stack, caches the value and returns it. -/
theorem resolveVar_assign_ok (cfg : ResolverConfig) (fuel : Nat)
    (s s2 : ResolverState) (name raw v : String)
    (hc : alookup name s.cache = none) (hs : name ∉ s.stack)
    (ha : alookup name cfg.assignments = some raw)
    (hexp : expandChunks cfg fuel
      { s with stack := s.stack ++ [name],
               expansions := s.expansions ++ [name] }
      name (scanChunks raw.data) = (s2, Except.ok v)) :
    resolveVar cfg (fuel + 1) s name =
      ({ s2 with stack := s2.stack.dropLast,
                 cache := dictSet s2.cache name v }, Except.ok v) := by
  unfold resolveVar
  rw [hc]
  dsimp only
  rw [if_neg hs, ha]
  dsimp only
  rw [hexp]

/-- C7 counterexample: resolving `A=$\x7bB\x7d` against an external context
in which `B` is the quoted text `"hi"` writes `A="hi"`; re-parsing that
env-out strips the quotes, so re-resolution yields `hi` — not the same
mapping. -/
theorem fixpointCounterexample :
    resolveEnvFile "A=$\x7bB\x7d\n" none false [("B", "\"hi\"")] (4 + 1) =
      Except.ok ("A=\"hi\"\n", [], [("A", "\"hi\"")]) ∧
    loadEnvFile "A=\"hi\"\n" = Except.ok [("A", "hi")] ∧
    (resolveAll ⟨[("A", "hi")], [("B", "\"hi\"")], false⟩ (4 + 1)
      ⟨[], [], [], []⟩).2 = Except.ok [("A", "hi")] ∧
    [("A", "hi")] ≠ [("A", "\"hi\"")] := by
  refine ⟨?_, rfl, ?_, by decide⟩
  · have hB : resolveVar ⟨[("A", "$\x7bB\x7d")], [("B", "\"hi\"")], false⟩ 3
        ⟨[], [], ["A"], ["A"]⟩ "B" =
        (⟨[], [], ["A"], ["A"]⟩, Except.ok "\"hi\"") :=
      resolveVar_external _ 3 _ "B" "\"hi\"" rfl (by decide) rfl rfl
    have hexp : expandChunks ⟨[("A", "$\x7bB\x7d")], [("B", "\"hi\"")], false⟩
        (3 + 1) ⟨[], [], ["A"], ["A"]⟩ "A" [Chunk.ref "B"] =
        (⟨[], [], ["A"], ["A"]⟩, Except.ok ("\"hi\"" ++ "")) :=
      expandChunks_singleRef_ok _ 3 _ _ "A" "B" "\"hi\"" rfl rfl
        (by decide) (by decide) hB
    have hscan : scanChunks ("$\x7bB\x7d" : String).data = [Chunk.ref "B"] :=
      scanChunks_refText "B" (by decide) (by decide)
    have hA : resolveVar ⟨[("A", "$\x7bB\x7d")], [("B", "\"hi\"")], false⟩
        (4 + 1) ⟨[], [], [], []⟩ "A" =
        (⟨[], dictSet [] "A" ("\"hi\"" ++ ""),
          (["A"] : List String).dropLast, ["A"]⟩,
          Except.ok ("\"hi\"" ++ "")) :=
      resolveVar_assign_ok _ 4 ⟨[], [], [], []⟩ ⟨[], [], ["A"], ["A"]⟩
        "A" "$\x7bB\x7d" ("\"hi\"" ++ "") rfl (List.not_mem_nil "A") rfl
        (by rw [hscan]; exact hexp)
    have hgo : resolveAllGo ⟨[("A", "$\x7bB\x7d")], [("B", "\"hi\"")], false⟩
        (4 + 1) ⟨[], [], [], []⟩ ["A"] =
        (⟨[], dictSet [] "A" ("\"hi\"" ++ ""),
          (["A"] : List String).dropLast, ["A"]⟩,
          Except.ok [("A", "\"hi\"" ++ "")]) := by
      rw [resolveAllGo]
      rw [hA]
      dsimp only
      rw [resolveAllGo]
    have hld : loadEnvFile "A=$\x7bB\x7d\n" =
        Except.ok [("A", "$\x7bB\x7d")] := rfl
    have hri : registryInit none = Except.ok [] := rfl
    have hnames : ([("A", "$\x7bB\x7d")] : List (String × String)).map
        Prod.fst = ["A"] := rfl
    unfold resolveEnvFile
    rw [hld]
    dsimp only
    rw [hri]
    dsimp only
    unfold resolveAll
    dsimp only
    rw [hnames]
    rw [hgo]
    rfl
  · obtain ⟨s', hgo, hsub, hstk⟩ := resolveAllGo_plain
      ⟨[("A", "hi")], [("B", "\"hi\"")], false⟩ 4 ["A"] ⟨[], [], [], []⟩
      (by
        intro n hn
        rcases List.mem_singleton.mp hn with rfl
        exact ⟨"hi", rfl, rfl⟩)
      (fun n hn => List.not_mem_nil n)
      (fun p hp => absurd hp (List.not_mem_nil p))
    show (resolveAllGo ⟨[("A", "hi")], [("B", "\"hi\"")], false⟩ (4 + 1)
      ⟨[], [], [], []⟩ (([("A", "hi")] : List (String × String)).map
        Prod.fst)).2 = Except.ok [("A", "hi")]
    rw [show (([("A", "hi")] : List (String × String)).map Prod.fst) =
      ["A"] from rfl]
    rw [hgo]
    rfl

/-- C7 amended: when `resolve_env_file` succeeds and every resolved value
is plain (reference-free, strip-invariant, not quote-wrapped, newline-free),
the written env-out is a fixed point: re-parsing it with `load_env_file`
recovers exactly the resolved mapping, and re-resolving that mapping — with
any registry, anchor mode and external context — returns it unchanged.
Without the plainness proviso the fixed point fails: quote-wrapped resolved
values are unquoted by re-parsing. -/
theorem fixpointAmended :
    ∀ envIn anchors pa ext fuel content reg2 resolved,
      resolveEnvFile envIn anchors pa ext fuel =
        Except.ok (content, reg2, resolved) →
      (∀ p ∈ resolved, plainValue p.2 = true) →
      loadEnvFile content = Except.ok resolved ∧
      (∀ ext2 pa2 reg3 f2,
        (resolveAll ⟨resolved, ext2, pa2⟩ (f2 + 1) ⟨reg3, [], [], []⟩).2 =
          Except.ok resolved) := by
  intro envIn anchors pa ext fuel content reg2 resolved heq hplain
  unfold resolveEnvFile at heq
  split at heq
  · cases heq
  · rename_i assignments hld
    split at heq
    · cases heq
    · rename_i reg0 hri
      split at heq
      · cases heq
      · rename_i s' resolved0 hra
        injection heq with heq
        have hcontent : content = writeEnvContent assignments resolved0 :=
          (congrArg Prod.fst heq).symm
        have hresolved : resolved = resolved0 :=
          (congrArg (fun t => t.2.2) heq).symm
        subst hresolved
        obtain ⟨hvalid, hnodup⟩ := loadEnvFile_invariants envIn assignments hld
        unfold resolveAll at hra
        dsimp only at hra
        have hkeys : resolved.map Prod.fst = assignments.map Prod.fst :=
          resolveAllGo_keys _ fuel (assignments.map Prod.fst) _ s' resolved hra
        have hnd0 : (resolved.map Prod.fst).Nodup := by
          rw [hkeys]
          exact hnodup
        have hval0 : ∀ p ∈ resolved, isValidVar p.1 = true := by
          intro p hp
          have hpm : p.1 ∈ assignments.map Prod.fst := by
            rw [← hkeys]
            exact List.mem_map_of_mem Prod.fst hp
          obtain ⟨q, hq, hq1⟩ := List.mem_map.mp hpm
          rw [← hq1]
          exact hvalid q hq
        constructor
        · rw [hcontent]
          rw [writeEnvContent_keys assignments resolved _ hkeys.symm]
          rw [writeEnvContent_self resolved hnd0]
          show loadEnvGo (splitLines (String.join (resolved.map
            (fun p => p.1 ++ "=" ++ p.2 ++ "\n")))) [] = _
          rw [splitLines_join resolved hval0 hplain]
          rw [loadEnvGo_lines resolved [] hval0 hplain]
          rw [foldl_dictSet_nodup resolved [] (by
            rw [List.nil_append]
            exact hnd0)]
          rw [List.nil_append]
        · intro ext2 pa2 reg3 f2
          obtain ⟨s2, hgo2, hsub2, hstk2⟩ := resolveAllGo_plain
            ⟨resolved, ext2, pa2⟩ f2 (resolved.map Prod.fst)
            ⟨reg3, [], [], []⟩
            (by
              intro n hn
              obtain ⟨v, hv⟩ := mem_keys_exists_alookup resolved n hn
              exact ⟨v, hv, plainValue_noDB v
                (hplain (n, v) (alookup_some_mem resolved n v hv))⟩)
            (fun n hn => List.not_mem_nil n)
            (fun p hp => absurd hp (List.not_mem_nil p))
          dsimp only at hgo2
          unfold resolveAll
          dsimp only
          rw [hgo2]
          rw [map_keys_getD resolved hnd0]

/-- Witness for C7 amended at a single plain assignment. -/
theorem fixpointAmended_witness :
    loadEnvFile "A=hello\n" = Except.ok [("A", "hello")] ∧
    (∀ ext2 pa2 reg3 f2,
      (resolveAll ⟨[("A", "hello")], ext2, pa2⟩ (f2 + 1)
        ⟨reg3, [], [], []⟩).2 = Except.ok [("A", "hello")]) :=
  fixpointAmended "A=hello\n" none false [] (4 + 1) "A=hello\n" []
    [("A", "hello")]
    (by
      have hA : resolveVar ⟨[("A", "hello")], [], false⟩ (4 + 1)
          ⟨[], [], [], []⟩ "A" =
          (⟨[], dictSet [] "A" "hello", [], ([] : List String) ++ ["A"]⟩,
            Except.ok "hello") :=
        resolveVar_plain _ 4 _ "A" "hello" rfl (List.not_mem_nil "A") rfl rfl
      have hgo : resolveAllGo ⟨[("A", "hello")], [], false⟩ (4 + 1)
          ⟨[], [], [], []⟩ ["A"] =
          (⟨[], dictSet [] "A" "hello", [], ([] : List String) ++ ["A"]⟩,
            Except.ok [("A", "hello")]) := by
        rw [resolveAllGo]
        rw [hA]
        dsimp only
        rw [resolveAllGo]
      have hld : loadEnvFile "A=hello\n" = Except.ok [("A", "hello")] := rfl
      have hri : registryInit none = Except.ok [] := rfl
      have hnames : ([("A", "hello")] : List (String × String)).map
          Prod.fst = ["A"] := rfl
      unfold resolveEnvFile
      rw [hld]
      dsimp only
      rw [hri]
      dsimp only
      unfold resolveAll
      dsimp only
      rw [hnames]
      rw [hgo]
      rfl)
    (by decide)

end EnvResolver

end RpiImageGen
